import Mathlib

/-!
# NetSegmentSplitter

A shallow embedding of `librepcb::project::editor::NetSegmentSplitter`
(`src/libs/librepcb/projecteditor/netsegmentsplitter.{h,cpp}`) together with
theorems about `split()`.

* `QVariant` identities are opaque values compared with `==`; they are natural
  numbers here.
* `QList<T>` is `List T`; `contains` and `removeOne` go through the element
  type's `operator==`, which for `Anchor` and `NetLine` compares identities only.
* The recursion of `findConnectedElements` and the `while` loop of `split` carry
  an explicit fuel argument; `none` means the fuel ran out.  `split` supplies
  the number of unvisited anchors as fuel, and the theorems show it suffices.
* `Q_ASSERT` does not change the control flow and is not part of the state of
  the plain embedding; `Traced` and `PartitionT` run the same code while
  recording the asserted conditions and the entries of `findConnectedElements`.
-/

namespace NetSegmentSplitter

/-! ## Data model -/

/-- Opaque identity handle (`QVariant`), compared by `==`. -/
abbrev QVariant := Nat

/-- Lengths are integer nanometres; `Length()` is zero. -/
abbrev Length := Int

/-- A 2D position; `Point()` is the origin. -/
structure Point where
  x : Length
  y : Length
deriving DecidableEq, Repr

/-- Default constructed `Point`. -/
def Point.origin : Point := ⟨0, 0⟩

/-- The `struct Anchor` of the header. -/
structure Anchor where
  id : QVariant
  position : Point
deriving DecidableEq, Repr

/-- The `struct NetLine` of the header. -/
structure NetLine where
  id : QVariant
  startAnchor : QVariant
  endAnchor : QVariant
deriving DecidableEq, Repr

/-- The `struct NetLabel` of the header. -/
structure NetLabel where
  id : QVariant
  position : Point
deriving DecidableEq, Repr

/-- The `struct Segment` of the header. -/
structure Segment where
  anchors : List Anchor
  lines : List NetLine
  labels : List NetLabel
deriving DecidableEq, Repr

/-- The `Anchor::operator==`: identities only. -/
def Anchor.eqv (a b : Anchor) : Bool := a.id == b.id

/-- The `NetLine::operator==`: identities only. -/
def NetLine.eqv (a b : NetLine) : Bool := a.id == b.id

/-- The `QList<Anchor>::contains`, by `operator==`. -/
def containsAnchor (l : List Anchor) (a : Anchor) : Bool := l.any (fun b => b.eqv a)

/-- The `QList<NetLine>::contains`, by `operator==`. -/
def containsLine (l : List NetLine) (a : NetLine) : Bool := l.any (fun b => b.eqv a)

/-- The `QList<Anchor>::removeOne`: drops the first element equal to `a`, if any. -/
def removeOneAnchor : List Anchor → Anchor → List Anchor
  | [], _ => []
  | b :: bs, a => if b.eqv a then bs else b :: removeOneAnchor bs a

/-- The `QList<NetLine>::removeOne`: drops the first element equal to `a`, if any. -/
def removeOneLine : List NetLine → NetLine → List NetLine
  | [], _ => []
  | b :: bs, a => if b.eqv a then bs else b :: removeOneLine bs a

/-- The data members `mAnchors`, `mLines`, `mLabels` of the class. -/
structure Splitter where
  mAnchors : List Anchor
  mLines : List NetLine
  mLabels : List NetLabel
deriving DecidableEq, Repr

/-- The constructor: three empty lists. -/
def Splitter.new : Splitter := ⟨[], [], []⟩

/-- The method `addAnchor`: appended unless an anchor of that identity is already stored. -/
def Splitter.addAnchor (m : Splitter) (id : QVariant) (position : Point) : Splitter :=
  let anchor : Anchor := ⟨id, position⟩
  if !containsAnchor m.mAnchors anchor then
    { m with mAnchors := m.mAnchors ++ [anchor] }
  else m

/-- The method `addNetLine`: always appended. -/
def Splitter.addNetLine (m : Splitter) (id startAnchor endAnchor : QVariant) : Splitter :=
  { m with mLines := m.mLines ++ [⟨id, startAnchor, endAnchor⟩] }

/-- The method `addNetLabel`: always appended. -/
def Splitter.addNetLabel (m : Splitter) (id : QVariant) (position : Point) : Splitter :=
  { m with mLabels := m.mLabels ++ [⟨id, position⟩] }

/-- One call of the public builder interface. -/
inductive Call where
  | addAnchor (id : QVariant) (position : Point)
  | addNetLine (id startAnchor endAnchor : QVariant)
  | addNetLabel (id : QVariant) (position : Point)
deriving DecidableEq, Repr

/-- Applies one builder call. -/
def Splitter.apply (m : Splitter) : Call → Splitter
  | .addAnchor id p => m.addAnchor id p
  | .addNetLine id s e => m.addNetLine id s e
  | .addNetLabel id p => m.addNetLabel id p

/-- The model after a sequence of builder calls on a fresh splitter. -/
def build (calls : List Call) : Splitter := calls.foldl Splitter.apply Splitter.new

/-! ## The partitioner -/

/-- The four lists `findConnectedElements` takes by reference. -/
structure Work where
  availableAnchors : List Anchor
  availableLines : List NetLine
  connectedAnchors : List Anchor
  connectedLines : List NetLine
deriving DecidableEq, Repr

/-- The first four statements of `findConnectedElements`: the anchor moves from
the available list to the end of the connected list. -/
def Work.visit (w : Work) (anchor : Anchor) : Work :=
  { w with
    availableAnchors := removeOneAnchor w.availableAnchors anchor
    connectedAnchors := w.connectedAnchors ++ [anchor] }

/-- The two statements that consume a line. -/
def Work.consume (w : Work) (line : NetLine) : Work :=
  { w with
    connectedLines := w.connectedLines ++ [line]
    availableLines := removeOneLine w.availableLines line }

/-- The guard of the outer `if` in `findConnectedElements`. -/
def lineGuard (anchor : Anchor) (line : NetLine) (w : Work) : Bool :=
  ((line.startAnchor == anchor.id) || (line.endAnchor == anchor.id)) &&
    containsLine w.availableLines line && !containsLine w.connectedLines line

/-- The guard of the inner `if` in `findConnectedElements`. -/
def anchorGuard (otherAnchorId : QVariant) (otherAnchor : Anchor) (w : Work) : Bool :=
  (otherAnchor.id == otherAnchorId) && containsAnchor w.availableAnchors otherAnchor &&
    !containsAnchor w.connectedAnchors otherAnchor

/-- The conditional expression computing `otherAnchorId`. -/
def otherAnchorId (anchor : Anchor) (line : NetLine) : QVariant :=
  if line.startAnchor == anchor.id then line.endAnchor else line.startAnchor

/-- The inner `foreach (const Anchor& otherAnchor, mAnchors)`; `rec` is the
recursive call. -/
def anchorLoop (rec : Anchor → Work → Option Work) (other : QVariant) :
    List Anchor → Work → Option Work
  | [], w => some w
  | otherAnchor :: rest, w =>
    if anchorGuard other otherAnchor w then
      match rec otherAnchor w with
      | none => none
      | some w1 => anchorLoop rec other rest w1
    else anchorLoop rec other rest w

/-- The outer `foreach (const NetLine& line, mLines)`; `rec` is the recursive
call. -/
def lineLoop (mAnchors : List Anchor) (rec : Anchor → Work → Option Work) (anchor : Anchor) :
    List NetLine → Work → Option Work
  | [], w => some w
  | line :: rest, w =>
    if lineGuard anchor line w then
      match anchorLoop rec (otherAnchorId anchor line) mAnchors (w.consume line) with
      | none => none
      | some w1 => lineLoop mAnchors rec anchor rest w1
    else lineLoop mAnchors rec anchor rest w

/-- The method `findConnectedElements`, with a bound on the recursion depth. -/
def findConnectedElements (m : Splitter) : Nat → Anchor → Work → Option Work
  | 0, _, _ => none
  | fuel + 1, anchor, w =>
    lineLoop m.mAnchors (findConnectedElements m fuel) anchor m.mLines (w.visit anchor)

/-- State of the `while` loop of `split`. -/
structure Partition where
  segments : List Segment
  availableAnchors : List Anchor
  availableLines : List NetLine
deriving DecidableEq, Repr

/-- The body of the `while` loop of `split`: one segment is collected from the
first available anchor and appended. -/
def partitionStep (m : Splitter) (p : Partition) (first : Anchor) : Option Partition :=
  match findConnectedElements m p.availableAnchors.length first
      ⟨p.availableAnchors, p.availableLines, [], []⟩ with
  | none => none
  | some w =>
    some ⟨p.segments ++ [⟨w.connectedAnchors, w.connectedLines, []⟩],
      w.availableAnchors, w.availableLines⟩

/-- The `while (!availableAnchors.isEmpty())` loop of `split`, with a bound on
the number of iterations. -/
def partitionLoop (m : Splitter) : Nat → Partition → Option Partition
  | fuel, p =>
    match p.availableAnchors with
    | [] => some p
    | first :: _ =>
      match fuel with
      | 0 => none
      | fuel + 1 =>
        match partitionStep m p first with
        | none => none
        | some p1 => partitionLoop m fuel p1

/-- The first half of `split`: the state when the partition loop ends. -/
def partition (m : Splitter) : Option Partition :=
  partitionLoop m m.mAnchors.length ⟨[], m.mAnchors, m.mLines⟩

/-- The condition of the `Q_ASSERT` after the partition loop. -/
def Partition.assertion (p : Partition) : Bool :=
  p.availableAnchors.isEmpty && p.availableLines.isEmpty

/-! ## The label assigner -/

/-- The two geometric primitives the splitter calls, taken as given:
`pointDistance p q` is `(p - q).getLength()` and the other one is
`Toolbox::shortestDistanceBetweenPointAndLine`. -/
structure Geometry where
  pointDistance : Point → Point → Length
  shortestDistanceBetweenPointAndLine : Point → Point → Point → Length

/-- One step of either `foreach` of `getDistanceBetweenNetLabelAndNetSegment`:
the pair is `(nearestDistance, firstRun)`. -/
def nearer (distance : Length) (acc : Length × Bool) : Length × Bool :=
  if decide (distance < acc.1) || acc.2 then (distance, false) else acc

/-- The innermost `foreach` of `getDistanceBetweenNetLabelAndNetSegment`: the
pair is `(start, end)`. -/
def lineEnds (line : NetLine) (anchors : List Anchor) : Point × Point :=
  anchors.foldl
    (fun se anchor =>
      let s := if anchor.id == line.startAnchor then anchor.position else se.1
      let e := if anchor.id == line.endAnchor then anchor.position else se.2
      (s, e))
    (Point.origin, Point.origin)

/-- The distance of one anchor of the segment to the label. -/
def anchorDistance (g : Geometry) (label : NetLabel) (anchor : Anchor) : Length :=
  g.pointDistance anchor.position label.position

/-- The distance of one line of the segment to the label. -/
def lineDistance (g : Geometry) (label : NetLabel) (segment : Segment) (line : NetLine) :
    Length :=
  let se := lineEnds line segment.anchors
  g.shortestDistanceBetweenPointAndLine label.position se.1 se.2

/-- The two loops of `getDistanceBetweenNetLabelAndNetSegment`, returning
`(nearestDistance, firstRun)`. -/
def distanceLoops (g : Geometry) (label : NetLabel) (segment : Segment) : Length × Bool :=
  let acc := segment.anchors.foldl (fun acc anchor => nearer (anchorDistance g label anchor) acc)
    ((0 : Length), true)
  segment.lines.foldl (fun acc line => nearer (lineDistance g label segment line) acc) acc

/-- The method `getDistanceBetweenNetLabelAndNetSegment`: the distance when the
loops are done. -/
def getDistanceBetweenNetLabelAndNetSegment (g : Geometry) (label : NetLabel)
    (segment : Segment) : Length :=
  (distanceLoops g label segment).1

/-- The `for` loop of `addNetLabelToNearestNetSegment` from index `i` on; the
pair is `(nearestIndex, nearestDistance)`. -/
def nearestLoop (g : Geometry) (label : NetLabel) :
    List Segment → Nat → Int × Length → Int × Length
  | [], _, acc => acc
  | segment :: rest, i, acc =>
    let distance := getDistanceBetweenNetLabelAndNetSegment g label segment
    if decide (distance < acc.2) || decide (acc.1 < 0) then
      nearestLoop g label rest (i + 1) ((i : Int), distance)
    else nearestLoop g label rest (i + 1) acc

/-- The value of `nearestIndex` after the loop. -/
def nearestIndex (g : Geometry) (label : NetLabel) (segments : List Segment) : Int :=
  (nearestLoop g label segments 0 (-1, 0)).1

/-- The statement `segments[i].labels.append(label)`. -/
def appendLabelAt (label : NetLabel) : List Segment → Nat → List Segment
  | [], _ => []
  | s :: rest, 0 => { s with labels := s.labels ++ [label] } :: rest
  | s :: rest, i + 1 => s :: appendLabelAt label rest i

/-- The method `addNetLabelToNearestNetSegment`; `none` when no index was chosen, where the
source indexes the list at `-1`. -/
def addNetLabelToNearestNetSegment (g : Geometry) (label : NetLabel)
    (segments : List Segment) : Option (List Segment) :=
  let i := nearestIndex g label segments
  if i < 0 then none else some (appendLabelAt label segments i.toNat)

/-- The `foreach (const NetLabel& label, mLabels)` of `split`. -/
def labelLoop (g : Geometry) : List NetLabel → List Segment → Option (List Segment)
  | [], segments => some segments
  | label :: rest, segments =>
    match addNetLabelToNearestNetSegment g label segments with
    | none => none
    | some segments1 => labelLoop g rest segments1

/-- The second half of `split`: labels are assigned only when there is a
segment. -/
def assignLabels (g : Geometry) (m : Splitter) (segments : List Segment) :
    Option (List Segment) :=
  if !segments.isEmpty then labelLoop g m.mLabels segments else some segments

/-- The method `split`: `none` only when a loop ran out of fuel. -/
def split (g : Geometry) (m : Splitter) : Option (List Segment) :=
  match partition m with
  | none => none
  | some p => assignLabels g m p.segments

/-! ## Executions and the predicates of the statements -/

/-- Program points of `findConnectedElements`. -/
inductive Pt where
  | call (anchor : Anchor)
  | lines (anchor : Anchor) (rest : List NetLine)
  | anchors (other : QVariant) (rest : List Anchor)

/-- Big-step executions of `findConnectedElements` and of its two loops. -/
inductive Run (m : Splitter) : Pt → Work → Work → Prop where
  | call {a w w'} : Run m (.lines a m.mLines) (w.visit a) w' → Run m (.call a) w w'
  | lnil {a w} : Run m (.lines a []) w w
  | lskip {a l rest w w'} : lineGuard a l w = false → Run m (.lines a rest) w w' →
      Run m (.lines a (l :: rest)) w w'
  | ltake {a l rest w w1 w'} : lineGuard a l w = true →
      Run m (.anchors (otherAnchorId a l) m.mAnchors) (w.consume l) w1 →
      Run m (.lines a rest) w1 w' → Run m (.lines a (l :: rest)) w w'
  | anil {o w} : Run m (.anchors o []) w w
  | askip {o b rest w w'} : anchorGuard o b w = false → Run m (.anchors o rest) w w' →
      Run m (.anchors o (b :: rest)) w w'
  | atake {o b rest w w1 w'} : anchorGuard o b w = true → Run m (.call b) w w1 →
      Run m (.anchors o rest) w1 w' → Run m (.anchors o (b :: rest)) w w'

/-- Pairwise distinct anchor identities. -/
def AnchorIdsDistinct (as : List Anchor) : Prop := (as.map Anchor.id).Nodup

/-- The anchors moved from the available list to the connected list between two states. -/
def AStep (w w' : Work) : Prop :=
  ∃ newA, w'.connectedAnchors = w.connectedAnchors ++ newA ∧
    w.availableAnchors.Perm (newA ++ w'.availableAnchors) ∧
    w'.availableAnchors.Sublist w.availableAnchors

/-- What an execution from a program point does to the anchor lists. -/
def AMot (m : Splitter) : Pt → Work → Work → Prop
  | .call a, w, w' => w.availableAnchors.Sublist m.mAnchors → a ∈ w.availableAnchors →
      ∃ newA, w'.connectedAnchors = w.connectedAnchors ++ a :: newA ∧
        w.availableAnchors.Perm (a :: newA ++ w'.availableAnchors) ∧
        w'.availableAnchors.Sublist w.availableAnchors
  | .lines _ _, w, w' => w.availableAnchors.Sublist m.mAnchors → AStep w w'
  | .anchors _ rest, w, w' => (∀ b ∈ rest, b ∈ m.mAnchors) →
      w.availableAnchors.Sublist m.mAnchors → AStep w w'

/-- The state the `while` loop of `split` hands to `findConnectedElements`. -/
def Partition.work (p : Partition) : Work := ⟨p.availableAnchors, p.availableLines, [], []⟩

/-- The state of the `while` loop after a call of `findConnectedElements`. -/
def Partition.push (p : Partition) (w : Work) : Partition :=
  ⟨p.segments ++ [⟨w.connectedAnchors, w.connectedLines, []⟩], w.availableAnchors,
    w.availableLines⟩

/-- The anchors of the segments so far. -/
def Partition.anchorLists (p : Partition) : List (List Anchor) := p.segments.map Segment.anchors

/-- Anchor bookkeeping of the `while` loop. -/
def PAInv (m : Splitter) (p : Partition) : Prop :=
  p.availableAnchors.Sublist m.mAnchors ∧
    (p.anchorLists.flatten ++ p.availableAnchors).Perm m.mAnchors

/-- The segment with one more label at the end of its label list. -/
def Segment.withLabel (s : Segment) (label : NetLabel) : Segment :=
  { s with labels := s.labels ++ [label] }

/-- Seeds of the `while` loop: the available anchors are the stored anchors not
yet in a segment, in insertion order, and every segment starts with the first
stored anchor that is in no earlier segment. -/
def SeedInv (m : Splitter) (p : Partition) : Prop :=
  p.availableAnchors = m.mAnchors.filter (fun a => decide (a ∉ p.anchorLists.flatten)) ∧
  ∀ (pre : List (List Anchor)) (s : List Anchor) (post : List (List Anchor)),
    p.anchorLists = pre ++ s :: post →
    ∃ seed rest, s = seed :: rest ∧
      (m.mAnchors.filter (fun a => decide (a ∉ pre.flatten))).head? = some seed ∧
      ∀ a ∈ s, a ∈ m.mAnchors.filter (fun a => decide (a ∉ pre.flatten))

/-- Whether a builder call is an `addNetLabel`. -/
def Call.isAddNetLabel : Call → Bool
  | .addNetLabel _ _ => true
  | _ => false

/-- A computable stand-in for the two geometric primitives (taxicab lengths, and
for a line the nearer of its two ends), used to instantiate statements. -/
def taxicab : Geometry where
  pointDistance p q := |p.x - q.x| + |p.y - q.y|
  shortestDistanceBetweenPointAndLine p s e :=
    min (|p.x - s.x| + |p.y - s.y|) (|p.x - e.x| + |p.y - e.y|)

/-- A chain of three anchors, an isolated fourth one and two labels. -/
def chainCalls : List Call :=
  [.addAnchor 1 ⟨0, 0⟩, .addAnchor 2 ⟨10, 0⟩, .addAnchor 3 ⟨20, 0⟩, .addAnchor 4 ⟨50, 0⟩,
    .addNetLine 11 1 2, .addNetLine 12 3 2, .addNetLabel 21 ⟨10, 0⟩, .addNetLabel 22 ⟨40, 5⟩]

/-- Two single-anchor segments at the same distance from the origin. -/
def tiedSegments : List Segment :=
  [⟨[⟨1, ⟨-5, 0⟩⟩], [], []⟩, ⟨[⟨2, ⟨5, 0⟩⟩], [], []⟩]

/-- Pairwise distinct line identities. -/
def LineIdsDistinct (ls : List NetLine) : Prop := (ls.map NetLine.id).Nodup

/-- Every line starts and ends at the identity of a stored anchor. -/
def EndpointsStored (m : Splitter) : Prop :=
  ∀ l ∈ m.mLines, l.startAnchor ∈ m.mAnchors.map Anchor.id ∧
    l.endAnchor ∈ m.mAnchors.map Anchor.id

instance (ls : List NetLine) : Decidable (LineIdsDistinct ls) :=
  inferInstanceAs (Decidable (ls.map NetLine.id).Nodup)

instance (m : Splitter) : Decidable (EndpointsStored m) :=
  inferInstanceAs (Decidable (∀ l ∈ m.mLines, l.startAnchor ∈ m.mAnchors.map Anchor.id ∧
    l.endAnchor ∈ m.mAnchors.map Anchor.id))

/-- The line starts or ends at the identity. -/
def Touches (id : QVariant) (l : NetLine) : Prop := l.startAnchor = id ∨ l.endAnchor = id

/-- Bookkeeping of the four lists inside `findConnectedElements`: the available
lists are sublists of the stored lists, and what is connected is stored and no
longer available. -/
def LInv (m : Splitter) (w : Work) : Prop :=
  w.availableAnchors.Sublist m.mAnchors ∧ w.availableLines.Sublist m.mLines ∧
    (∀ l ∈ w.connectedLines, l ∈ m.mLines ∧ l ∉ w.availableLines) ∧
    (∀ x ∈ w.connectedAnchors, x ∈ m.mAnchors ∧ x ∉ w.availableAnchors)

/-- The lines moved from the available list to the connected list between two
states. -/
def LStep (w w' : Work) : Prop :=
  ∃ newL, w'.connectedLines = w.connectedLines ++ newL ∧
    w.availableLines.Perm (newL ++ w'.availableLines) ∧
    w'.availableLines.Sublist w.availableLines

/-- All stored lines at the identity are consumed. -/
def Done (m : Splitter) (w : Work) (id : QVariant) : Prop :=
  ∀ l ∈ m.mLines, Touches id l → l ∉ w.availableLines

/-- Both ends of every consumed line are visited. -/
def Settled (m : Splitter) (w : Work) : Prop :=
  ∀ l ∈ m.mLines, l ∉ w.availableLines →
    l.startAnchor ∉ w.availableAnchors.map Anchor.id ∧
      l.endAnchor ∉ w.availableAnchors.map Anchor.id

/-- Both ends of every consumed line are visited, except possibly the identity
`o`, which is about to be visited. -/
def SettledBut (m : Splitter) (w : Work) (o : QVariant) : Prop :=
  ∀ l ∈ m.mLines, l ∉ w.availableLines →
    (l.startAnchor ∉ w.availableAnchors.map Anchor.id ∨ l.startAnchor = o) ∧
      (l.endAnchor ∉ w.availableAnchors.map Anchor.id ∨ l.endAnchor = o)

/-- What every execution does to the lists. -/
def BPost (m : Splitter) (w w' : Work) : Prop :=
  LInv m w' ∧ w'.availableAnchors.Sublist w.availableAnchors ∧ LStep w w' ∧
    ∀ x ∈ w'.connectedAnchors, x ∈ w.connectedAnchors ∨ Done m w' x.id

/-- What an execution from a program point does to the line lists. -/
def BMot (m : Splitter) : Pt → Work → Work → Prop
  | .call a, w, w' => LInv m w → a ∈ w.availableAnchors → SettledBut m w a.id →
      BPost m w w' ∧ Settled m w'
  | .lines a rest, w, w' => LInv m w → (∀ l ∈ rest, l ∈ m.mLines) →
      a.id ∉ w.availableAnchors.map Anchor.id → Settled m w →
      BPost m w w' ∧ Settled m w' ∧ ∀ l ∈ rest, Touches a.id l → l ∉ w'.availableLines
  | .anchors o rest, w, w' => LInv m w → (∀ b ∈ rest, b ∈ m.mAnchors) → SettledBut m w o →
      BPost m w w' ∧ SettledBut m w' o ∧
        ((o ∉ w.availableAnchors.map Anchor.id ∨ ∃ b ∈ rest, b.id = o) →
          o ∉ w'.availableAnchors.map Anchor.id)

/-- Some stored line joins the two identities, in either direction. -/
def Adjacent (m : Splitter) (x y : QVariant) : Prop :=
  ∃ l ∈ m.mLines, (l.startAnchor = x ∧ l.endAnchor = y) ∨ (l.startAnchor = y ∧ l.endAnchor = x)

/-- A path of stored lines joins the two identities in the undirected graph. -/
def Joined (m : Splitter) (x y : QVariant) : Prop := Relation.ReflTransGen (Adjacent m) x y

/-- Every anchor an execution adds to the segment is joined to where it started. -/
def SMot (m : Splitter) : Pt → Work → Work → Prop
  | .call a, w, w' => ∀ x ∈ w'.connectedAnchors, x ∈ w.connectedAnchors ∨ Joined m a.id x.id
  | .lines a rest, w, w' => (∀ l ∈ rest, l ∈ m.mLines) →
      ∀ x ∈ w'.connectedAnchors, x ∈ w.connectedAnchors ∨ Joined m a.id x.id
  | .anchors o _, w, w' => ∀ x ∈ w'.connectedAnchors, x ∈ w.connectedAnchors ∨ Joined m o x.id

/-- The lines of the segments so far. -/
def Partition.lineLists (p : Partition) : List (List NetLine) := p.segments.map Segment.lines

/-- Line bookkeeping of the `while` loop: a stored line is either untouched, with
both ends still available, or inside one segment together with both its ends. -/
def PLInv (m : Splitter) (p : Partition) : Prop :=
  PAInv m p ∧ p.availableLines.Sublist m.mLines ∧
    (p.lineLists.flatten ++ p.availableLines).Perm m.mLines ∧
    ∀ l ∈ m.mLines,
      (l ∈ p.availableLines ∧ l.startAnchor ∈ p.availableAnchors.map Anchor.id ∧
        l.endAnchor ∈ p.availableAnchors.map Anchor.id) ∨
      (∃ s ∈ p.segments, l ∈ s.lines ∧ l.startAnchor ∈ s.anchors.map Anchor.id ∧
        l.endAnchor ∈ s.anchors.map Anchor.id)

/-- The anchors of every segment so far are joined pairwise. -/
def PJoin (m : Splitter) (p : Partition) : Prop :=
  ∀ s ∈ p.segments, ∀ x ∈ s.anchors, ∀ y ∈ s.anchors, Joined m x.id y.id

/-- Two anchors joined by two lines of the same identity. -/
def twinLineCalls : List Call :=
  [.addAnchor 1 ⟨0, 0⟩, .addAnchor 2 ⟨10, 0⟩, .addNetLine 10 1 2, .addNetLine 10 1 2]

/-- The position given in the first `addAnchor` call for the identity. -/
def addedPosition : List Call → QVariant → Option Point
  | [], _ => none
  | .addAnchor i p :: rest, id => if i = id then some p else addedPosition rest id
  | _ :: rest, id => addedPosition rest id

/-- The position with which the anchor of an identity was added (the origin for
an identity that was never added). -/
def positionOf (calls : List Call) (id : QVariant) : Point :=
  (addedPosition calls id).getD Point.origin

/-- The distances the spec takes the minimum of: the label to each anchor of the
segment, and the label to each line of the segment between the positions of its
two ends. -/
def specDistances (g : Geometry) (pos : QVariant → Point) (label : NetLabel) (s : Segment) :
    List Length :=
  s.anchors.map (fun a => g.pointDistance a.position label.position) ++
    s.lines.map (fun l =>
      g.shortestDistanceBetweenPointAndLine label.position (pos l.startAnchor) (pos l.endAnchor))

/-- Labels and a line, but no anchor. -/
def anchorlessCalls : List Call :=
  [.addNetLabel 1 ⟨0, 0⟩, .addNetLine 2 3 4, .addNetLabel 5 ⟨7, 7⟩]

/-- The identities of the `addAnchor` calls, in call order, repetitions kept. -/
def addedIds : List Call → List QVariant
  | [] => []
  | .addAnchor i _ :: rest => i :: addedIds rest
  | _ :: rest => addedIds rest

/-- The stored identities `ids` are those of the calls `added`, each once, in the
order of their first occurrence among the calls. -/
def FirstCallOrder (ids added : List QVariant) : Prop :=
  ids.Nodup ∧ (∀ i, i ∈ ids ↔ i ∈ added) ∧
    ∀ x ∈ ids, ∀ y ∈ ids, (ids.indexOf x < ids.indexOf y ↔ added.indexOf x < added.indexOf y)

/-- The distances are non-negative and a point is at distance zero from itself. -/
def Metric (g : Geometry) : Prop :=
  (∀ p, g.pointDistance p p = 0) ∧ (∀ p q, 0 ≤ g.pointDistance p q) ∧
    ∀ p s e, 0 ≤ g.shortestDistanceBetweenPointAndLine p s e

/-- Every line an execution adds to the segment is a stored line at an anchor of
the segment, and no anchor leaves the segment. -/
def TPost (m : Splitter) (w w' : Work) : Prop :=
  ∀ l ∈ w'.connectedLines, l ∈ w.connectedLines ∨
    (l ∈ m.mLines ∧ ∃ x ∈ w'.connectedAnchors, Touches x.id l)

/-- What an execution from a program point does to the segment under
construction. -/
def TMot (m : Splitter) : Pt → Work → Work → Prop
  | .call a, w, w' => (∀ x ∈ w.connectedAnchors, x ∈ w'.connectedAnchors) ∧
      a ∈ w'.connectedAnchors ∧ TPost m w w'
  | .lines a rest, w, w' => (∀ x ∈ w.connectedAnchors, x ∈ w'.connectedAnchors) ∧
      (a ∈ w.connectedAnchors → (∀ l ∈ rest, l ∈ m.mLines) → TPost m w w')
  | .anchors _ _, w, w' => (∀ x ∈ w.connectedAnchors, x ∈ w'.connectedAnchors) ∧ TPost m w w'

/-- All stored lines at the anchor start and end at it (there may be none). -/
def Lone (m : Splitter) (a : Anchor) : Prop :=
  ∀ l ∈ m.mLines, Touches a.id l → l.startAnchor = a.id ∧ l.endAnchor = a.id

/-- The lines of every segment so far are stored lines at anchors of the segment. -/
def PTouch (m : Splitter) (p : Partition) : Prop :=
  ∀ s ∈ p.segments, ∀ l ∈ s.lines, l ∈ m.mLines ∧ ∃ x ∈ s.anchors, Touches x.id l

/-- A lone stored anchor is still available or is a segment of its own. -/
def PLone (m : Splitter) (p : Partition) : Prop :=
  ∀ a ∈ m.mAnchors, Lone m a → a ∈ p.availableAnchors ∨ ∃ s ∈ p.segments, s.anchors = [a]

/-- The anchor is the only stored anchor at which the line starts or ends. -/
def Owns (m : Splitter) (a : Anchor) (l : NetLine) : Prop :=
  Touches a.id l ∧ ∀ x ∈ m.mAnchors, Touches x.id l → x = a

/-- Bookkeeping of the `while` loop that needs no stored line ends: the working
lists are sublists of the stored lists and both ends of every consumed line are
visited. -/
def PSettled (m : Splitter) (p : Partition) : Prop :=
  PAInv m p ∧ p.availableLines.Sublist m.mLines ∧ Settled m p.work

/-- A line and the only stored anchor it touches are both still available or
both in one segment. -/
def POwn (a : Anchor) (l : NetLine) (p : Partition) : Prop :=
  (a ∈ p.availableAnchors ∧ l ∈ p.availableLines) ∨
    ∃ s ∈ p.segments, a ∈ s.anchors ∧ l ∈ s.lines

/-- An anchor with a line to itself only, and two more anchors joined by a line. -/
def selfLoopCalls : List Call :=
  [.addAnchor 1 ⟨0, 0⟩, .addAnchor 2 ⟨10, 0⟩, .addAnchor 3 ⟨20, 0⟩, .addNetLine 11 1 1,
    .addNetLine 12 2 3]

/-- Two anchors joined by one line. -/
def pairCalls : List Call :=
  [.addAnchor 1 ⟨0, 0⟩, .addAnchor 2 ⟨10, 0⟩, .addNetLine 11 1 2]

/-- The anchor lists of the segments as determined by the stored anchors `M` and
the relation `J` alone: with `done` the anchors of earlier segments, each list
starts with the first stored anchor not in `done` and holds exactly the stored
anchors related to it, and in the end every stored anchor is in `done`. -/
def Canonical (M : List Anchor) (J : QVariant → QVariant → Prop) :
    List Anchor → List (List Anchor) → Prop
  | done, [] => ∀ a ∈ M, a ∈ done
  | done, s :: rest =>
    (∃ seed tail, s = seed :: tail ∧
      (M.filter (fun a => decide (a ∉ done))).head? = some seed ∧
      (∀ y ∈ s, y ∈ M) ∧ ∀ y ∈ M, (y ∈ s ↔ J seed.id y.id)) ∧
    Canonical M J (done ++ s) rest

/-- The chain example with its two lines added in the other order. -/
def chainCallsSwapped : List Call :=
  [.addAnchor 1 ⟨0, 0⟩, .addAnchor 2 ⟨10, 0⟩, .addAnchor 3 ⟨20, 0⟩, .addAnchor 4 ⟨50, 0⟩,
    .addNetLine 12 3 2, .addNetLine 11 1 2, .addNetLabel 21 ⟨10, 0⟩, .addNetLabel 22 ⟨40, 5⟩]

/-- Line bookkeeping of the `while` loop that needs no stored line ends: the
lines of the segments and the unconsumed lines together are the stored lines, and
no unconsumed line starts or ends at a visited stored anchor. -/
def PRest (m : Splitter) (p : Partition) : Prop :=
  (p.lineLists.flatten ++ p.availableLines).Perm m.mLines ∧
    ∀ x ∈ m.mAnchors, x ∉ p.availableAnchors →
      ∀ l ∈ m.mLines, Touches x.id l → l ∉ p.availableLines

/-- Two anchors, a line between them, a line from the first to an identity that
is no anchor, and a line between two identities that are no anchors. -/
def strayCalls : List Call :=
  [.addAnchor 1 ⟨0, 0⟩, .addAnchor 2 ⟨10, 0⟩, .addNetLine 11 1 2, .addNetLine 12 1 7,
    .addNetLine 13 8 9]

/-- Two anchors, a line between them and a line from the first to an identity
that is no anchor. -/
def danglingCalls : List Call :=
  [.addAnchor 1 ⟨0, 0⟩, .addAnchor 2 ⟨10, 0⟩, .addNetLine 11 1 2, .addNetLine 12 1 7]

/-- What `SchematicClipboardDataBuilder::generate` reads of an `SI_NetLine`: its
address, the address of its net segment, and its two end points, each with its
address and position. -/
structure SINetLine where
  id : QVariant
  netSegment : QVariant
  startPoint : Anchor
  endPoint : Anchor
deriving DecidableEq, Repr

/-- What `SchematicClipboardDataBuilder::generate` reads of an `SI_NetLabel`: its
address, the address of its net segment, and its position. -/
structure SINetLabel where
  id : QVariant
  netSegment : QVariant
  position : Point
deriving DecidableEq, Repr

/-- The body of the loop over the selected net lines in `generate`: a net line of
another net segment is skipped, otherwise its two end points and the line are
added. -/
def addSelectedNetLine (netsegment : QVariant) (splitter : Splitter) (netline : SINetLine) :
    Splitter :=
  if netline.netSegment != netsegment then splitter
  else
    ((splitter.addAnchor netline.startPoint.id netline.startPoint.position).addAnchor
        netline.endPoint.id netline.endPoint.position).addNetLine
      netline.id netline.startPoint.id netline.endPoint.id

/-- The body of the loop over the selected net labels in `generate`. -/
def addSelectedNetLabel (netsegment : QVariant) (splitter : Splitter) (netlabel : SINetLabel) :
    Splitter :=
  if netlabel.netSegment != netsegment then splitter
  else splitter.addNetLabel netlabel.id netlabel.position

/-- The splitter `generate` builds for one net segment before it calls
`split`. -/
def generateSplitter (netsegment : QVariant) (netlines : List SINetLine)
    (netlabels : List SINetLabel) : Splitter :=
  netlabels.foldl (addSelectedNetLabel netsegment)
    (netlines.foldl (addSelectedNetLine netsegment) Splitter.new)

/-- The precondition of the splitter together with what the caller adds to it:
distinct identities, stored line ends, and a stored line at every stored anchor. -/
def WellFormed (m : Splitter) (ids : List QVariant) : Prop :=
  AnchorIdsDistinct m.mAnchors ∧ EndpointsStored m ∧
    (∀ a ∈ m.mAnchors, ∃ l ∈ m.mLines, Touches a.id l) ∧
    m.mLines.map NetLine.id = ids

/-- Three selected net lines, two of the net segment 100 sharing an end point
and one of another net segment, and a label. -/
def selectedNetLines : List SINetLine :=
  [⟨51, 100, ⟨1, ⟨0, 0⟩⟩, ⟨2, ⟨10, 0⟩⟩⟩, ⟨52, 200, ⟨5, ⟨0, 9⟩⟩, ⟨6, ⟨9, 9⟩⟩⟩,
    ⟨53, 100, ⟨2, ⟨10, 0⟩⟩, ⟨3, ⟨10, 10⟩⟩⟩]

/-- The anchor with its position replaced by the origin: what `operator==`
sees of it. -/
def Anchor.forget (a : Anchor) : Anchor := ⟨a.id, Point.origin⟩

/-- The work lists with all anchor positions forgotten. -/
def Work.forget (w : Work) : Work :=
  ⟨w.availableAnchors.map Anchor.forget, w.availableLines,
    w.connectedAnchors.map Anchor.forget, w.connectedLines⟩

/-- The segment with anchor positions and labels forgotten. -/
def Segment.forget (s : Segment) : Segment := ⟨s.anchors.map Anchor.forget, s.lines, []⟩

/-- The loop state with anchor positions and labels forgotten. -/
def Partition.forget (p : Partition) : Partition :=
  ⟨p.segments.map Segment.forget, p.availableAnchors.map Anchor.forget, p.availableLines⟩

/-- The model with anchor positions and labels forgotten. -/
def Splitter.forget (m : Splitter) : Splitter := ⟨m.mAnchors.map Anchor.forget, m.mLines, []⟩

/-- The chain of `chainCalls` drawn elsewhere and with other labels. -/
def chainCallsMoved : List Call :=
  [.addAnchor 1 ⟨5, 5⟩, .addAnchor 2 ⟨7, -3⟩, .addAnchor 3 ⟨100, 0⟩, .addAnchor 4 ⟨0, 0⟩,
    .addNetLine 11 1 2, .addNetLine 12 3 2, .addNetLabel 23 ⟨9, 9⟩]

/-- The work lists of `findConnectedElements` together with two observations of
the execution: the entries of `findConnectedElements` so far, each with its
nesting depth, and whether every `Q_ASSERT` evaluated so far held. -/
structure Traced where
  work : Work
  entered : List (Nat × Anchor)
  asserted : Bool
deriving DecidableEq, Repr

/-- The first four statements of `findConnectedElements` at nesting depth
`depth`, the two `Q_ASSERT`s included: `Q_ASSERT(availableAnchors.contains(anchor))`,
`removeOne`, `Q_ASSERT(!connectedAnchors.contains(anchor))`, `append`. -/
def Traced.enter (t : Traced) (depth : Nat) (anchor : Anchor) : Traced :=
  let assert1 := containsAnchor t.work.availableAnchors anchor
  let availableAnchors := removeOneAnchor t.work.availableAnchors anchor
  let assert2 := !containsAnchor t.work.connectedAnchors anchor
  { work := { t.work with
      availableAnchors := availableAnchors
      connectedAnchors := t.work.connectedAnchors ++ [anchor] }
    entered := t.entered ++ [(depth, anchor)]
    asserted := t.asserted && assert1 && assert2 }

/-- The two statements that consume a line, on the observed state. -/
def Traced.consume (t : Traced) (line : NetLine) : Traced :=
  { t with work := t.work.consume line }

/-- The inner `foreach` of `findConnectedElements` on the observed state. -/
def anchorLoopT (rec : Anchor → Traced → Option Traced) (other : QVariant) :
    List Anchor → Traced → Option Traced
  | [], t => some t
  | otherAnchor :: rest, t =>
    if anchorGuard other otherAnchor t.work then
      match rec otherAnchor t with
      | none => none
      | some t1 => anchorLoopT rec other rest t1
    else anchorLoopT rec other rest t

/-- The outer `foreach` of `findConnectedElements` on the observed state. -/
def lineLoopT (mAnchors : List Anchor) (rec : Anchor → Traced → Option Traced)
    (anchor : Anchor) : List NetLine → Traced → Option Traced
  | [], t => some t
  | line :: rest, t =>
    if lineGuard anchor line t.work then
      match anchorLoopT rec (otherAnchorId anchor line) mAnchors (t.consume line) with
      | none => none
      | some t1 => lineLoopT mAnchors rec anchor rest t1
    else lineLoopT mAnchors rec anchor rest t

/-- The method `findConnectedElements` on the observed state: the first number
bounds the recursion depth, the second is the nesting depth of this call, and
the recursive call is one deeper. -/
def findConnectedElementsT (m : Splitter) : Nat → Nat → Anchor → Traced → Option Traced
  | 0, _, _, _ => none
  | fuel + 1, depth, anchor, t =>
    lineLoopT m.mAnchors (findConnectedElementsT m fuel (depth + 1)) anchor m.mLines
      (t.enter depth anchor)

/-- State of the `while` loop of `split` with the observations. -/
structure PartitionT where
  state : Partition
  entered : List (Nat × Anchor)
  asserted : Bool
deriving DecidableEq, Repr

/-- The body of the `while` loop of `split` on the observed state: the call of
`findConnectedElements` it makes has nesting depth 1. -/
def partitionStepT (m : Splitter) (p : PartitionT) (first : Anchor) : Option PartitionT :=
  match findConnectedElementsT m p.state.availableAnchors.length 1 first
      ⟨⟨p.state.availableAnchors, p.state.availableLines, [], []⟩, p.entered, p.asserted⟩ with
  | none => none
  | some t =>
    some ⟨⟨p.state.segments ++ [⟨t.work.connectedAnchors, t.work.connectedLines, []⟩],
      t.work.availableAnchors, t.work.availableLines⟩, t.entered, t.asserted⟩

/-- The `while` loop of `split` on the observed state. -/
def partitionLoopT (m : Splitter) : Nat → PartitionT → Option PartitionT
  | fuel, p =>
    match p.state.availableAnchors with
    | [] => some p
    | first :: _ =>
      match fuel with
      | 0 => none
      | fuel + 1 =>
        match partitionStepT m p first with
        | none => none
        | some p1 => partitionLoopT m fuel p1

/-- The first half of `split` on the observed state. -/
def partitionT (m : Splitter) : Option PartitionT :=
  partitionLoopT m m.mAnchors.length ⟨⟨[], m.mAnchors, m.mLines⟩, [], true⟩

/-- What an execution adds to the observations: new entries at depths from `lo`
up to, not including, `hi`, whose anchors are exactly the anchors appended to the
connected list, and no failed assertion. -/
def Logged (lo hi : Nat) (t t' : Traced) : Prop :=
  ∃ new : List (Nat × Anchor), t'.entered = t.entered ++ new ∧
    t'.work.connectedAnchors = t.work.connectedAnchors ++ new.map Prod.snd ∧
    (∀ e ∈ new, lo ≤ e.1 ∧ e.1 < hi) ∧ (t.asserted = true → t'.asserted = true)

/-- What the observed `while` loop of `split` keeps true: no assertion failed, the
anchors of the entries are the anchors of the segments so far, every entry has a
depth between 1 and the number of stored anchors, and no segment is without an
anchor. -/
def TInv (m : Splitter) (p : PartitionT) : Prop :=
  p.asserted = true ∧ p.entered.map Prod.snd = p.state.anchorLists.flatten ∧
    (∀ e ∈ p.entered, 1 ≤ e.1 ∧ e.1 ≤ m.mAnchors.length) ∧
    ∀ s ∈ p.state.segments, s.anchors ≠ []

/-- The condition of the `Q_ASSERT(firstRun == false)` at the end of
`getDistanceBetweenNetLabelAndNetSegment`. -/
def distanceAsserted (g : Geometry) (label : NetLabel) (segment : Segment) : Bool :=
  (distanceLoops g label segment).2 == false

/-- The conditions of the assertions evaluated during one call of
`addNetLabelToNearestNetSegment`: the one in each call of
`getDistanceBetweenNetLabelAndNetSegment` the `for` loop makes, and
`Q_ASSERT(nearestIndex >= 0)` after the loop. -/
def addNetLabelAsserted (g : Geometry) (label : NetLabel) (segments : List Segment) : Bool :=
  segments.all (distanceAsserted g label) && decide (nearestIndex g label segments ≥ 0)

/-- Whether every assertion evaluated during the `foreach` over the labels in
`split` holds. -/
def labelLoopAsserted (g : Geometry) : List NetLabel → List Segment → Bool
  | [], _ => true
  | label :: rest, segments =>
    addNetLabelAsserted g label segments &&
      match addNetLabelToNearestNetSegment g label segments with
      | none => false
      | some segments1 => labelLoopAsserted g rest segments1

/-- Whether every assertion evaluated during the second half of `split`
holds. -/
def assignLabelsAsserted (g : Geometry) (m : Splitter) (segments : List Segment) : Bool :=
  if !segments.isEmpty then labelLoopAsserted g m.mLabels segments else true

/-! ## Anchors: every execution moves anchors from the available list to the segment -/

theorem containsAnchor_iff (l : List Anchor) (a : Anchor) :
    containsAnchor l a = true ↔ a.id ∈ l.map Anchor.id := by
  simp only [containsAnchor, Anchor.eqv, List.any_eq_true, List.mem_map, beq_iff_eq]

theorem containsLine_iff (l : List NetLine) (a : NetLine) :
    containsLine l a = true ↔ a.id ∈ l.map NetLine.id := by
  simp only [containsLine, NetLine.eqv, List.any_eq_true, List.mem_map, beq_iff_eq]

theorem eq_of_id_eq {M : List Anchor} (hM : AnchorIdsDistinct M) {a b : Anchor}
    (ha : a ∈ M) (hb : b ∈ M) (h : a.id = b.id) : a = b :=
  List.inj_on_of_nodup_map hM ha hb h

theorem mem_of_containsAnchor {M l : List Anchor} (hM : AnchorIdsDistinct M)
    (hl : l.Sublist M) {b : Anchor} (hb : b ∈ M) (h : containsAnchor l b = true) : b ∈ l := by
  rw [containsAnchor_iff] at h
  obtain ⟨c, hc, hcb⟩ := List.mem_map.1 h
  have : c = b := eq_of_id_eq hM (hl.subset hc) hb hcb
  exact this ▸ hc

theorem anchorIdsDistinct_sublist {M l : List Anchor} (hM : AnchorIdsDistinct M)
    (hl : l.Sublist M) : AnchorIdsDistinct l :=
  List.Nodup.sublist (hl.map _) hM

theorem anchorIdsDistinct_nodup {l : List Anchor} (h : AnchorIdsDistinct l) : l.Nodup :=
  List.Nodup.of_map _ h

theorem removeOneAnchor_eq_erase {l : List Anchor} (hl : AnchorIdsDistinct l) {a : Anchor}
    (ha : a ∈ l) : removeOneAnchor l a = l.erase a := by
  induction l with
  | nil => simp at ha
  | cons b bs ih =>
    have hbs : AnchorIdsDistinct bs := anchorIdsDistinct_sublist hl (List.sublist_cons_self _ _)
    by_cases hba : b = a
    · subst hba
      simp [removeOneAnchor, Anchor.eqv]
    · have hne : b.id ≠ a.id := fun h =>
        hba (eq_of_id_eq hl (List.mem_cons_self _ _) ha h)
      have ha' : a ∈ bs := by
        rcases List.mem_cons.1 ha with h | h
        · exact absurd h.symm hba
        · exact h
      simp [removeOneAnchor, Anchor.eqv, hne, List.erase_cons_tail, hba, ih hbs ha']

theorem aStep_refl (w : Work) : AStep w w := ⟨[], by simp, by simp, List.Sublist.refl _⟩

theorem aStep_trans {w w1 w2 : Work} (h1 : AStep w w1) (h2 : AStep w1 w2) : AStep w w2 := by
  obtain ⟨n1, c1, p1, s1⟩ := h1
  obtain ⟨n2, c2, p2, s2⟩ := h2
  refine ⟨n1 ++ n2, by rw [c2, c1, List.append_assoc], ?_, s2.trans s1⟩
  refine p1.trans ?_
  rw [List.append_assoc]
  exact List.Perm.append_left _ p2

theorem anchors_run (m : Splitter) (hM : AnchorIdsDistinct m.mAnchors) :
    ∀ (pt : Pt) (w w' : Work), Run m pt w w' → AMot m pt w w' := by
  intro pt w w' h
  induction h with
  | @call a w w' _ ih =>
    intro hs ha
    have he : (w.visit a).availableAnchors = w.availableAnchors.erase a :=
      removeOneAnchor_eq_erase (anchorIdsDistinct_sublist hM hs) ha
    obtain ⟨newA, hc, hp, hsub⟩ := ih (by rw [he]; exact (List.erase_sublist _ _).trans hs)
    refine ⟨newA, ?_, ?_, ?_⟩
    · rw [hc]; simp [Work.visit]
    · rw [he] at hp
      exact (List.perm_cons_erase ha).trans (by simpa using List.Perm.cons a hp)
    · rw [he] at hsub; exact hsub.trans (List.erase_sublist _ _)
  | lnil => intro _; exact aStep_refl _
  | lskip _ _ ih => exact ih
  | @ltake a l rest w w1 w' _ _ _ ih1 ih2 =>
    intro hs
    have h1 : AStep (w.consume l) w1 := ih1 (fun _ hb => hb) hs
    have hs1 : w1.availableAnchors.Sublist m.mAnchors := by
      obtain ⟨_, _, _, s⟩ := h1
      exact s.trans hs
    obtain ⟨n, c, p, s⟩ := aStep_trans h1 (ih2 hs1)
    exact ⟨n, c, p, s⟩
  | anil => intro _ _; exact aStep_refl _
  | askip _ _ ih => intro hr hs; exact ih (fun b hb => hr b (List.mem_cons_of_mem _ hb)) hs
  | @atake o b rest w w1 w' hg _ _ ih1 ih2 =>
    intro hr hs
    have hbM : b ∈ m.mAnchors := hr b (List.mem_cons_self _ _)
    have hb : b ∈ w.availableAnchors := by
      simp only [anchorGuard, Bool.and_eq_true] at hg
      exact mem_of_containsAnchor hM hs hbM hg.1.2
    obtain ⟨newA, hc, hp, hsub⟩ := ih1 hs hb
    have h1 : AStep w w1 := ⟨b :: newA, hc, hp, hsub⟩
    exact aStep_trans h1 (ih2 (fun b hb => hr b (List.mem_cons_of_mem _ hb)) (hsub.trans hs))


theorem run_anchorLoop {m : Splitter} {rec : Anchor → Work → Option Work}
    (hrec : ∀ b w w', rec b w = some w' → Run m (.call b) w w') (o : QVariant) :
    ∀ (as : List Anchor) (w w' : Work), anchorLoop rec o as w = some w' →
      Run m (.anchors o as) w w' := by
  intro as
  induction as with
  | nil => intro w w' h; simp [anchorLoop] at h; subst h; exact .anil
  | cons b rest ih =>
    intro w w' h
    unfold anchorLoop at h
    by_cases hg : anchorGuard o b w = true
    · rw [if_pos hg] at h
      cases hr : rec b w with
      | none => rw [hr] at h; simp at h
      | some w1 =>
        rw [hr] at h
        exact .atake hg (hrec _ _ _ hr) (ih _ _ h)
    · rw [if_neg hg] at h
      exact .askip (by simpa using hg) (ih _ _ h)

theorem run_lineLoop {m : Splitter} {rec : Anchor → Work → Option Work}
    (hrec : ∀ b w w', rec b w = some w' → Run m (.call b) w w') (a : Anchor) :
    ∀ (ls : List NetLine) (w w' : Work), lineLoop m.mAnchors rec a ls w = some w' →
      Run m (.lines a ls) w w' := by
  intro ls
  induction ls with
  | nil => intro w w' h; simp [lineLoop] at h; subst h; exact .lnil
  | cons l rest ih =>
    intro w w' h
    unfold lineLoop at h
    by_cases hg : lineGuard a l w = true
    · rw [if_pos hg] at h
      cases hr : anchorLoop rec (otherAnchorId a l) m.mAnchors (w.consume l) with
      | none => rw [hr] at h; simp at h
      | some w1 =>
        rw [hr] at h
        exact .ltake hg (run_anchorLoop hrec _ _ _ _ hr) (ih _ _ h)
    · rw [if_neg hg] at h
      exact .lskip (by simpa using hg) (ih _ _ h)

theorem run_of_findConnectedElements (m : Splitter) :
    ∀ (n : Nat) (a : Anchor) (w w' : Work), findConnectedElements m n a w = some w' →
      Run m (.call a) w w' := by
  intro n
  induction n with
  | zero => intro a w w' h; simp [findConnectedElements] at h
  | succ n ih =>
    intro a w w' h
    unfold findConnectedElements at h
    exact .call (run_lineLoop ih a _ _ _ h)

/-- Enough fuel for the inner loop. -/
theorem anchorLoop_total {m : Splitter} (hM : AnchorIdsDistinct m.mAnchors)
    {rec : Anchor → Work → Option Work} {n : Nat}
    (hrun : ∀ b w w', rec b w = some w' → Run m (.call b) w w')
    (hrec : ∀ b w, w.availableAnchors.Sublist m.mAnchors → b ∈ w.availableAnchors →
      w.availableAnchors.length ≤ n → ∃ w', rec b w = some w') (o : QVariant) :
    ∀ (as : List Anchor) (w : Work), (∀ b ∈ as, b ∈ m.mAnchors) →
      w.availableAnchors.Sublist m.mAnchors → w.availableAnchors.length ≤ n →
      ∃ w', anchorLoop rec o as w = some w' := by
  intro as
  induction as with
  | nil => intro w _ _ _; exact ⟨w, rfl⟩
  | cons b rest ih =>
    intro w hr hs hn
    have hr' : ∀ b ∈ rest, b ∈ m.mAnchors := fun b hb => hr b (List.mem_cons_of_mem _ hb)
    unfold anchorLoop
    by_cases hg : anchorGuard o b w = true
    · rw [if_pos hg]
      have hb : b ∈ w.availableAnchors := by
        simp only [anchorGuard, Bool.and_eq_true] at hg
        exact mem_of_containsAnchor hM hs (hr b (List.mem_cons_self _ _)) hg.1.2
      obtain ⟨w1, h1⟩ := hrec b w hs hb hn
      rw [h1]
      obtain ⟨_, _, _, hsub⟩ := anchors_run m hM _ _ _ (hrun _ _ _ h1) hs hb
      exact ih w1 hr' (hsub.trans hs) (hsub.length_le.trans hn)
    · rw [if_neg hg]
      exact ih w hr' hs hn

/-- Enough fuel for the outer loop. -/
theorem lineLoop_total {m : Splitter} (hM : AnchorIdsDistinct m.mAnchors)
    {rec : Anchor → Work → Option Work} {n : Nat}
    (hrun : ∀ b w w', rec b w = some w' → Run m (.call b) w w')
    (hrec : ∀ b w, w.availableAnchors.Sublist m.mAnchors → b ∈ w.availableAnchors →
      w.availableAnchors.length ≤ n → ∃ w', rec b w = some w') (a : Anchor) :
    ∀ (ls : List NetLine) (w : Work),
      w.availableAnchors.Sublist m.mAnchors → w.availableAnchors.length ≤ n →
      ∃ w', lineLoop m.mAnchors rec a ls w = some w' := by
  intro ls
  induction ls with
  | nil => intro w _ _; exact ⟨w, rfl⟩
  | cons l rest ih =>
    intro w hs hn
    unfold lineLoop
    by_cases hg : lineGuard a l w = true
    · rw [if_pos hg]
      obtain ⟨w1, h1⟩ := anchorLoop_total hM hrun hrec (otherAnchorId a l) m.mAnchors
        (w.consume l) (fun _ hb => hb) hs hn
      rw [h1]
      obtain ⟨_, _, _, hsub⟩ := anchors_run m hM _ _ _ (run_anchorLoop hrun _ _ _ _ h1)
        (fun _ hb => hb) hs
      exact ih w1 (hsub.trans hs) (hsub.length_le.trans hn)
    · rw [if_neg hg]
      exact ih w hs hn

/-- The recursion of `findConnectedElements` is no deeper than the number of
available anchors. -/
theorem findConnectedElements_total (m : Splitter) (hM : AnchorIdsDistinct m.mAnchors) :
    ∀ (n : Nat) (a : Anchor) (w : Work), w.availableAnchors.Sublist m.mAnchors →
      a ∈ w.availableAnchors → w.availableAnchors.length ≤ n →
      ∃ w', findConnectedElements m n a w = some w' := by
  intro n
  induction n with
  | zero =>
    intro a w _ ha hn
    have : 0 < w.availableAnchors.length := List.length_pos_of_mem ha
    omega
  | succ n ih =>
    intro a w hs ha hn
    unfold findConnectedElements
    have he : (w.visit a).availableAnchors = w.availableAnchors.erase a :=
      removeOneAnchor_eq_erase (anchorIdsDistinct_sublist hM hs) ha
    refine lineLoop_total hM (run_of_findConnectedElements m n) ih a m.mLines (w.visit a) ?_ ?_
    · rw [he]; exact (List.erase_sublist _ _).trans hs
    · rw [he, List.length_erase_of_mem ha]
      omega

theorem partitionLoop_nil (m : Splitter) (n : Nat) (p : Partition)
    (h : p.availableAnchors = []) : partitionLoop m n p = some p := by
  unfold partitionLoop
  simp [h]

theorem partitionLoop_cons (m : Splitter) (n : Nat) (p : Partition) (first : Anchor)
    (rest : List Anchor) (h : p.availableAnchors = first :: rest) :
    partitionLoop m (n + 1) p = (partitionStep m p first).bind (partitionLoop m n) := by
  rw [partitionLoop]
  simp only [h]
  cases partitionStep m p first <;> rfl

/-! ## The partition loop -/

theorem partitionStep_eq_some {m : Splitter} {p p1 : Partition} {first : Anchor}
    (h : partitionStep m p first = some p1) :
    ∃ w, Run m (.call first) p.work w ∧ p1 = p.push w := by
  unfold partitionStep at h
  cases hf : findConnectedElements m p.availableAnchors.length first
      ⟨p.availableAnchors, p.availableLines, [], []⟩ with
  | none => rw [hf] at h; simp at h
  | some w =>
    rw [hf] at h
    simp only [Option.some.injEq] at h
    exact ⟨w, run_of_findConnectedElements m _ _ _ _ hf, h.symm⟩

/-- Invariants of the `while` loop of `split`. -/
theorem partitionLoop_induct (m : Splitter) (Inv : Partition → Prop)
    (hstep : ∀ p first rest w, Inv p → p.availableAnchors = first :: rest →
      Run m (.call first) p.work w → Inv (p.push w)) :
    ∀ (n : Nat) (p p' : Partition), Inv p → partitionLoop m n p = some p' →
      Inv p' ∧ p'.availableAnchors = [] := by
  intro n
  induction n with
  | zero =>
    intro p p' hp h
    cases ha : p.availableAnchors with
    | nil =>
      rw [partitionLoop_nil m 0 p ha] at h
      cases h
      exact ⟨hp, ha⟩
    | cons first rest =>
      rw [partitionLoop] at h
      simp [ha] at h
  | succ n ih =>
    intro p p' hp h
    cases ha : p.availableAnchors with
    | nil =>
      rw [partitionLoop_nil m _ p ha] at h
      cases h
      exact ⟨hp, ha⟩
    | cons first rest =>
      rw [partitionLoop_cons m n p first rest ha] at h
      cases hs : partitionStep m p first with
      | none => rw [hs] at h; simp at h
      | some p1 =>
        rw [hs] at h
        obtain ⟨w, hrun, rfl⟩ := partitionStep_eq_some hs
        exact ih _ _ (hstep p first rest w hp ha hrun) h

theorem anchorLists_push (p : Partition) (w : Work) :
    (p.push w).anchorLists = p.anchorLists ++ [w.connectedAnchors] := by
  simp [Partition.push, Partition.anchorLists]

theorem run_first {m : Splitter} (hM : AnchorIdsDistinct m.mAnchors) {p : Partition}
    {first : Anchor} {rest : List Anchor} {w : Work}
    (hs : p.availableAnchors.Sublist m.mAnchors) (ha : p.availableAnchors = first :: rest)
    (hrun : Run m (.call first) p.work w) :
    ∃ newA, w.connectedAnchors = first :: newA ∧
      p.availableAnchors.Perm (first :: newA ++ w.availableAnchors) ∧
      w.availableAnchors.Sublist p.availableAnchors := by
  have := anchors_run m hM _ _ _ hrun hs (by simp [Partition.work, ha])
  simpa [Partition.work] using this

theorem PAInv_push {m : Splitter} (hM : AnchorIdsDistinct m.mAnchors) {p : Partition}
    {first : Anchor} {rest : List Anchor} {w : Work} (hp : PAInv m p)
    (ha : p.availableAnchors = first :: rest) (hrun : Run m (.call first) p.work w) :
    PAInv m (p.push w) := by
  obtain ⟨newA, hc, hperm, hsub⟩ := run_first hM hp.1 ha hrun
  refine ⟨hsub.trans hp.1, ?_⟩
  rw [anchorLists_push, List.flatten_append]
  simp only [List.flatten_cons, List.flatten_nil, List.append_nil, List.append_assoc]
  refine (List.Perm.append_left _ ?_).trans hp.2
  rw [hc]
  exact hperm.symm

/-- The `while` loop of `split` ends within as many iterations as there are
available anchors. -/
theorem partitionLoop_total (m : Splitter) (hM : AnchorIdsDistinct m.mAnchors) :
    ∀ (n : Nat) (p : Partition), p.availableAnchors.Sublist m.mAnchors →
      p.availableAnchors.length ≤ n → ∃ p', partitionLoop m n p = some p' := by
  intro n
  induction n with
  | zero =>
    intro p _ hn
    exact ⟨p, partitionLoop_nil m 0 p (List.length_eq_zero.1 (Nat.le_zero.1 hn))⟩
  | succ n ih =>
    intro p hs hn
    cases ha : p.availableAnchors with
    | nil => exact ⟨p, partitionLoop_nil m _ p ha⟩
    | cons first rest =>
      rw [partitionLoop_cons m n p first rest ha]
      obtain ⟨w, hw⟩ := findConnectedElements_total m hM p.availableAnchors.length first
        p.work hs (by simp [Partition.work, ha]) (le_refl _)
      have hstep : partitionStep m p first = some (p.push w) := by
        unfold partitionStep
        simp only [Partition.work] at hw
        rw [hw]
        rfl
      rw [hstep]
      obtain ⟨newA, _, hperm, hsub⟩ := run_first hM hs ha
        (run_of_findConnectedElements m _ _ _ _ hw)
      refine ih (p.push w) (hsub.trans hs) ?_
      have hlen := hperm.length_eq
      simp only [List.cons_append, List.length_cons, List.length_append] at hlen
      show w.availableAnchors.length ≤ n
      omega

/-- The partition loop of `split` returns, and the anchor lists of its segments
concatenate to a permutation of the stored anchors. -/
theorem partition_anchors (m : Splitter) (hM : AnchorIdsDistinct m.mAnchors) :
    ∃ p, partition m = some p ∧ p.availableAnchors = [] ∧
      p.anchorLists.flatten.Perm m.mAnchors := by
  obtain ⟨p, hp⟩ := partitionLoop_total m hM m.mAnchors.length ⟨[], m.mAnchors, m.mLines⟩
    (List.Sublist.refl _) (le_refl _)
  have h0 : PAInv m ⟨[], m.mAnchors, m.mLines⟩ :=
    ⟨List.Sublist.refl _, by simp [Partition.anchorLists]⟩
  obtain ⟨hinv, hnil⟩ := partitionLoop_induct m (PAInv m)
    (fun p first rest w hp ha hrun => PAInv_push hM hp ha hrun) _ _ _ h0 hp
  refine ⟨p, hp, hnil, ?_⟩
  have := hinv.2
  rwa [hnil, List.append_nil] at this

theorem sublist_eq_filter {α : Type} [DecidableEq α] {l' l : List α} (hs : l'.Sublist l) :
    l.Nodup → l' = l.filter (fun a => decide (a ∈ l')) := by
  induction hs with
  | slnil => intro _; rfl
  | @cons l1 l2 a hs ih =>
    intro hnd
    rw [List.nodup_cons] at hnd
    have ha : a ∉ l1 := fun h => hnd.1 (hs.subset h)
    rw [List.filter_cons_of_neg (by simpa using ha)]
    exact ih hnd.2
  | @cons₂ l1 l2 a hs ih =>
    intro hnd
    rw [List.nodup_cons] at hnd
    rw [List.filter_cons_of_pos (by simp)]
    congr 1
    have h1 := ih hnd.2
    refine h1.trans (List.filter_congr ?_)
    intro x hx
    have hxa : x ≠ a := fun h => hnd.1 (h ▸ hx)
    simp [hxa]

theorem sublist_eq_filter_not_mem {α : Type} [DecidableEq α] {l' l n : List α}
    (hnd : l.Nodup) (hs : l'.Sublist l) (hp : l.Perm (n ++ l')) :
    l' = l.filter (fun a => decide (a ∉ n)) := by
  refine (sublist_eq_filter hs hnd).trans (List.filter_congr ?_)
  intro x hx
  have hnd' : (n ++ l').Nodup := hp.nodup_iff.1 hnd
  have hdisj := (List.nodup_append.1 hnd').2.2
  have hx' : x ∈ n ++ l' := hp.subset hx
  by_cases hxn : x ∈ n
  · have : x ∉ l' := fun h => hdisj hxn h
    simp [hxn, this]
  · have : x ∈ l' := by
      rcases List.mem_append.1 hx' with h | h
      · exact absurd h hxn
      · exact h
    simp [hxn, this]

theorem SeedInv_push {m : Splitter} (hM : AnchorIdsDistinct m.mAnchors) {p : Partition}
    {first : Anchor} {rest : List Anchor} {w : Work} (hp : PAInv m p ∧ SeedInv m p)
    (ha : p.availableAnchors = first :: rest) (hrun : Run m (.call first) p.work w) :
    SeedInv m (p.push w) := by
  obtain ⟨hpa, havail, hseed⟩ := hp
  obtain ⟨newA, hc, hperm, hsub⟩ := run_first hM hpa.1 ha hrun
  have hndA : p.availableAnchors.Nodup := anchorIdsDistinct_nodup (anchorIdsDistinct_sublist hM hpa.1)
  constructor
  · show w.availableAnchors = _
    rw [anchorLists_push, sublist_eq_filter_not_mem hndA hsub hperm, havail, List.filter_filter]
    refine List.filter_congr ?_
    intro x _
    rw [hc]
    by_cases h1 : x = first <;> by_cases h2 : x ∈ newA <;>
      by_cases h3 : x ∈ p.anchorLists.flatten <;> simp [h1, h2, h3]
  · intro pre s post hdec
    rw [anchorLists_push] at hdec
    rcases List.eq_nil_or_concat post with rfl | ⟨post', x, rfl⟩
    · have h2 : p.anchorLists ++ [w.connectedAnchors] = pre ++ [s] := hdec
      obtain ⟨h3, h4⟩ := List.append_inj' h2 rfl
      simp only [List.cons.injEq, and_true] at h4
      subst h3
      refine ⟨first, newA, by rw [← h4, hc], ?_, ?_⟩
      · rw [← havail, ha]; rfl
      · intro a has
        rw [← havail]
        rw [← h4, hc] at has
        exact hperm.symm.subset (List.mem_append_left _ has)
    · have h2 : p.anchorLists ++ [w.connectedAnchors] = (pre ++ s :: post') ++ [x] := by
        rw [hdec]; simp
      obtain ⟨h3, _⟩ := List.append_inj' h2 rfl
      exact hseed pre s post' h3

theorem partition_seeds (m : Splitter) (hM : AnchorIdsDistinct m.mAnchors) {p : Partition}
    (hp : partition m = some p) : SeedInv m p := by
  have h0 : PAInv m ⟨[], m.mAnchors, m.mLines⟩ ∧ SeedInv m ⟨[], m.mAnchors, m.mLines⟩ := by
    refine ⟨⟨List.Sublist.refl _, by simp [Partition.anchorLists]⟩, ?_, ?_⟩
    · simp [Partition.anchorLists]
    · intro pre s post h
      simp [Partition.anchorLists] at h
  have := partitionLoop_induct m (fun p => PAInv m p ∧ SeedInv m p)
    (fun p first rest w hp ha hrun => ⟨PAInv_push hM hp.1 ha hrun, SeedInv_push hM hp ha hrun⟩)
    _ _ _ h0 hp
  exact this.1.2

theorem indexOf_head_filter_le {P : Anchor → Bool} {seed : Anchor} :
    ∀ (M : List Anchor), (M.filter P).head? = some seed → ∀ a ∈ M, P a = true →
      M.indexOf seed ≤ M.indexOf a := by
  intro M
  induction M with
  | nil => intro h; simp at h
  | cons x rest ih =>
    intro h a ha hPa
    by_cases hx : P x = true
    · rw [List.filter_cons_of_pos hx] at h
      simp only [List.head?_cons, Option.some.injEq] at h
      subst h
      simp
    · rw [List.filter_cons_of_neg hx] at h
      have hax : x ≠ a := fun e => hx (e ▸ hPa)
      have hseed : seed ∈ rest.filter P := List.mem_of_mem_head? h
      have hsx : x ≠ seed := fun e => hx (e ▸ (List.mem_filter.1 hseed).2)
      have ha' : a ∈ rest := by
        rcases List.mem_cons.1 ha with e | e
        · exact absurd e.symm hax
        · exact e
      rw [List.indexOf_cons_ne _ hax, List.indexOf_cons_ne _ hsx]
      exact Nat.succ_le_succ (ih h a ha' hPa)

/-! ## The label assigner -/

theorem getDistance_congr (g : Geometry) (label : NetLabel) {s t : Segment}
    (ha : s.anchors = t.anchors) (hl : s.lines = t.lines) :
    getDistanceBetweenNetLabelAndNetSegment g label s =
      getDistanceBetweenNetLabelAndNetSegment g label t := by
  have hd : lineDistance g label s = lineDistance g label t := by
    funext line
    simp [lineDistance, ha]
  simp [getDistanceBetweenNetLabelAndNetSegment, distanceLoops, ha, hl, hd]

theorem getDistance_withLabel (g : Geometry) (label l0 : NetLabel) (s : Segment) :
    getDistanceBetweenNetLabelAndNetSegment g label (s.withLabel l0) =
      getDistanceBetweenNetLabelAndNetSegment g label s :=
  getDistance_congr g label rfl rfl

theorem appendLabelAt_eq_set (label : NetLabel) :
    ∀ (segs : List Segment) (k : Nat) (sk : Segment), segs[k]? = some sk →
      appendLabelAt label segs k = segs.set k (sk.withLabel label) := by
  intro segs
  induction segs with
  | nil => intro k sk h; simp at h
  | cons s rest ih =>
    intro k sk h
    cases k with
    | zero =>
      simp only [List.getElem?_cons_zero, Option.some.injEq] at h
      subst h
      rfl
    | succ k =>
      simp only [List.getElem?_cons_succ] at h
      simp [appendLabelAt, ih k sk h]

/-- The `for` loop of `addNetLabelToNearestNetSegment` from a state in which an
index was already chosen: either nothing nearer follows, or the result is the
first strictly nearest of the remaining segments. -/
theorem nearestLoop_spec (g : Geometry) (label : NetLabel) :
    ∀ (segs : List Segment) (i : Nat) (acc : Int × Length), 0 ≤ acc.1 →
      (nearestLoop g label segs i acc = acc ∧
        ∀ s ∈ segs, acc.2 ≤ getDistanceBetweenNetLabelAndNetSegment g label s) ∨
      (∃ (k : Nat) (sk : Segment), segs[k]? = some sk ∧
        nearestLoop g label segs i acc =
          (((i + k : Nat) : Int), getDistanceBetweenNetLabelAndNetSegment g label sk) ∧
        getDistanceBetweenNetLabelAndNetSegment g label sk < acc.2 ∧
        (∀ (j : Nat) (sj : Segment), segs[j]? = some sj → getDistanceBetweenNetLabelAndNetSegment g label sk ≤
          getDistanceBetweenNetLabelAndNetSegment g label sj) ∧
        (∀ (j : Nat) (sj : Segment), j < k → segs[j]? = some sj → getDistanceBetweenNetLabelAndNetSegment g label sk <
          getDistanceBetweenNetLabelAndNetSegment g label sj)) := by
  intro segs
  induction segs with
  | nil => intro i acc _; left; exact ⟨rfl, by simp⟩
  | cons s rest ih =>
    intro i acc hacc
    have hn : ¬ acc.1 < 0 := not_lt.2 hacc
    by_cases hlt : getDistanceBetweenNetLabelAndNetSegment g label s < acc.2
    · have hstep : nearestLoop g label (s :: rest) i acc =
          nearestLoop g label rest (i + 1)
            ((i : Int), getDistanceBetweenNetLabelAndNetSegment g label s) := by
        simp [nearestLoop, hlt]
      right
      rcases ih (i + 1) ((i : Int), getDistanceBetweenNetLabelAndNetSegment g label s)
          (by simp) with ⟨heq, hall⟩ | ⟨k, sk, hk, heq, hlt', hmin, hfirst⟩
      · refine ⟨0, s, List.getElem?_cons_zero, ?_, hlt, ?_, ?_⟩
        · rw [hstep, heq]; simp
        · intro j sj hj
          cases j with
          | zero => simp at hj; subst hj; exact le_refl _
          | succ j =>
            simp only [List.getElem?_cons_succ] at hj
            exact hall sj (List.getElem?_mem hj)
        · intro j sj hj; omega
      · refine ⟨k + 1, sk, by simpa using hk, ?_, lt_trans hlt' hlt, ?_, ?_⟩
        · rw [hstep, heq]
          congr 2
          omega
        · intro j sj hj
          cases j with
          | zero => simp at hj; subst hj; exact le_of_lt hlt'
          | succ j =>
            simp only [List.getElem?_cons_succ] at hj
            exact hmin j sj hj
        · intro j sj hjk hj
          cases j with
          | zero => simp at hj; subst hj; exact hlt'
          | succ j =>
            simp only [List.getElem?_cons_succ] at hj
            exact hfirst j sj (by omega) hj
    · have hstep : nearestLoop g label (s :: rest) i acc =
          nearestLoop g label rest (i + 1) acc := by
        simp [nearestLoop, hlt, hn]
      have hle : acc.2 ≤ getDistanceBetweenNetLabelAndNetSegment g label s := not_lt.1 hlt
      rcases ih (i + 1) acc hacc with ⟨heq, hall⟩ | ⟨k, sk, hk, heq, hlt', hmin, hfirst⟩
      · left
        refine ⟨by rw [hstep, heq], ?_⟩
        intro t ht
        rcases List.mem_cons.1 ht with rfl | ht
        · exact hle
        · exact hall t ht
      · right
        refine ⟨k + 1, sk, by simpa using hk, ?_, hlt', ?_, ?_⟩
        · rw [hstep, heq]
          congr 2
          omega
        · intro j sj hj
          cases j with
          | zero => simp at hj; subst hj; exact le_of_lt (lt_of_lt_of_le hlt' hle)
          | succ j =>
            simp only [List.getElem?_cons_succ] at hj
            exact hmin j sj hj
        · intro j sj hjk hj
          cases j with
          | zero => simp at hj; subst hj; exact lt_of_lt_of_le hlt' hle
          | succ j =>
            simp only [List.getElem?_cons_succ] at hj
            exact hfirst j sj (by omega) hj

/-- The index chosen by `addNetLabelToNearestNetSegment` on a non-empty list. -/
theorem nearestIndex_spec (g : Geometry) (label : NetLabel) (segs : List Segment)
    (hne : segs ≠ []) :
    ∃ (k : Nat) (sk : Segment), segs[k]? = some sk ∧ nearestIndex g label segs = (k : Int) ∧
      (∀ (j : Nat) (sj : Segment), segs[j]? = some sj → getDistanceBetweenNetLabelAndNetSegment g label sk ≤
        getDistanceBetweenNetLabelAndNetSegment g label sj) ∧
      (∀ (j : Nat) (sj : Segment), j < k → segs[j]? = some sj → getDistanceBetweenNetLabelAndNetSegment g label sk <
        getDistanceBetweenNetLabelAndNetSegment g label sj) := by
  cases segs with
  | nil => exact absurd rfl hne
  | cons s rest =>
    have hstep : nearestLoop g label (s :: rest) 0 (-1, 0) =
        nearestLoop g label rest 1
          ((0 : Int), getDistanceBetweenNetLabelAndNetSegment g label s) := by
      simp [nearestLoop]
    rcases nearestLoop_spec g label rest 1
        ((0 : Int), getDistanceBetweenNetLabelAndNetSegment g label s) (by simp)
      with ⟨heq, hall⟩ | ⟨k, sk, hk, heq, hlt', hmin, hfirst⟩
    · refine ⟨0, s, List.getElem?_cons_zero, ?_, ?_, ?_⟩
      · simp [nearestIndex, hstep, heq]
      · intro j sj hj
        cases j with
        | zero => simp at hj; subst hj; exact le_refl _
        | succ j =>
          simp only [List.getElem?_cons_succ] at hj
          exact hall sj (List.getElem?_mem hj)
      · intro j sj hj; omega
    · refine ⟨k + 1, sk, by simpa using hk, ?_, ?_, ?_⟩
      · simp only [nearestIndex, hstep, heq]
        push_cast
        omega
      · intro j sj hj
        cases j with
        | zero => simp at hj; subst hj; exact le_of_lt hlt'
        | succ j =>
          simp only [List.getElem?_cons_succ] at hj
          exact hmin j sj hj
      · intro j sj hjk hj
        cases j with
        | zero => simp at hj; subst hj; exact hlt'
        | succ j =>
          simp only [List.getElem?_cons_succ] at hj
          exact hfirst j sj (by omega) hj

/-- What `addNetLabelToNearestNetSegment` returns on a non-empty list. -/
theorem addNetLabel_spec (g : Geometry) (label : NetLabel) (segs : List Segment)
    (hne : segs ≠ []) :
    ∃ (k : Nat) (sk : Segment), segs[k]? = some sk ∧
      addNetLabelToNearestNetSegment g label segs = some (segs.set k (sk.withLabel label)) ∧
      (∀ (j : Nat) (sj : Segment), segs[j]? = some sj → getDistanceBetweenNetLabelAndNetSegment g label sk ≤
        getDistanceBetweenNetLabelAndNetSegment g label sj) ∧
      (∀ (j : Nat) (sj : Segment), j < k → segs[j]? = some sj → getDistanceBetweenNetLabelAndNetSegment g label sk <
        getDistanceBetweenNetLabelAndNetSegment g label sj) := by
  obtain ⟨k, sk, hk, hidx, hmin, hfirst⟩ := nearestIndex_spec g label segs hne
  refine ⟨k, sk, hk, ?_, hmin, hfirst⟩
  unfold addNetLabelToNearestNetSegment
  simp only [hidx]
  rw [if_neg (by omega)]
  simp [appendLabelAt_eq_set label segs k sk hk]

theorem map_anchors_set (label : NetLabel) :
    ∀ (segs : List Segment) (k : Nat) (sk : Segment), segs[k]? = some sk →
      (segs.set k (sk.withLabel label)).map Segment.anchors = segs.map Segment.anchors := by
  intro segs
  induction segs with
  | nil => intro k sk h; simp at h
  | cons s rest ih =>
    intro k sk h
    cases k with
    | zero =>
      simp only [List.getElem?_cons_zero, Option.some.injEq] at h
      subst h
      rfl
    | succ k =>
      simp only [List.getElem?_cons_succ] at h
      simp only [List.set_cons_succ, List.map_cons, ih k sk h]

theorem map_lines_set (label : NetLabel) :
    ∀ (segs : List Segment) (k : Nat) (sk : Segment), segs[k]? = some sk →
      (segs.set k (sk.withLabel label)).map Segment.lines = segs.map Segment.lines := by
  intro segs
  induction segs with
  | nil => intro k sk h; simp at h
  | cons s rest ih =>
    intro k sk h
    cases k with
    | zero =>
      simp only [List.getElem?_cons_zero, Option.some.injEq] at h
      subst h
      rfl
    | succ k =>
      simp only [List.getElem?_cons_succ] at h
      simp only [List.set_cons_succ, List.map_cons, ih k sk h]

theorem labels_set (label : NetLabel) :
    ∀ (segs : List Segment) (k : Nat) (sk : Segment), segs[k]? = some sk →
      ((segs.set k (sk.withLabel label)).map Segment.labels).flatten.Perm
        ((segs.map Segment.labels).flatten ++ [label]) := by
  intro segs
  induction segs with
  | nil => intro k sk h; simp at h
  | cons s rest ih =>
    intro k sk h
    cases k with
    | zero =>
      simp only [List.getElem?_cons_zero, Option.some.injEq] at h
      subst h
      simp only [List.set_cons_zero, List.map_cons, List.flatten_cons, Segment.withLabel,
        List.append_assoc]
      exact List.Perm.append_left _ List.perm_append_comm
    | succ k =>
      simp only [List.getElem?_cons_succ] at h
      simp only [List.set_cons_succ, List.map_cons, List.flatten_cons, List.append_assoc]
      exact List.Perm.append_left _ (ih k sk h)

/-- Equal anchor and line lists give equal computed distances, index by index. -/
theorem getDistance_at_index (g : Geometry) (label : NetLabel) {segs segs' : List Segment}
    (ha : segs'.map Segment.anchors = segs.map Segment.anchors)
    (hl : segs'.map Segment.lines = segs.map Segment.lines) {j : Nat} {s s' : Segment}
    (hs : segs[j]? = some s) (hs' : segs'[j]? = some s') :
    getDistanceBetweenNetLabelAndNetSegment g label s' =
      getDistanceBetweenNetLabelAndNetSegment g label s := by
  have h1 := congrArg (fun l => l[j]?) ha
  have h2 := congrArg (fun l => l[j]?) hl
  simp only [List.getElem?_map, hs, hs', Option.map_some', Option.some.injEq] at h1 h2
  exact getDistance_congr g label h1 h2

theorem exists_at_index_of_map_anchors {segs segs' : List Segment}
    (ha : segs'.map Segment.anchors = segs.map Segment.anchors) {j : Nat} {s' : Segment}
    (hs' : segs'[j]? = some s') : ∃ s, segs[j]? = some s := by
  have h1 := congrArg (fun l => l[j]?) ha
  simp only [List.getElem?_map, hs', Option.map_some'] at h1
  cases h : segs[j]? with
  | none => rw [h] at h1; simp at h1
  | some s => exact ⟨s, rfl⟩

/-- The label loop of `split` on a non-empty segment list: it returns, keeps
anchors and lines, adds each label to one segment, and every label it adds goes to
a segment of minimal computed distance. -/
theorem labelLoop_spec (g : Geometry) :
    ∀ (labels : List NetLabel) (segs : List Segment), segs ≠ [] →
      ∃ segs', labelLoop g labels segs = some segs' ∧
        segs'.map Segment.anchors = segs.map Segment.anchors ∧
        segs'.map Segment.lines = segs.map Segment.lines ∧
        (segs'.map Segment.labels).flatten.Perm ((segs.map Segment.labels).flatten ++ labels) ∧
        ∀ (j : Nat) (s' : Segment), segs'[j]? = some s' → ∀ label ∈ s'.labels,
          (∃ s, segs[j]? = some s ∧ label ∈ s.labels) ∨
          (label ∈ labels ∧ ∀ t' ∈ segs', getDistanceBetweenNetLabelAndNetSegment g label s' ≤
            getDistanceBetweenNetLabelAndNetSegment g label t') := by
  intro labels
  induction labels with
  | nil =>
    intro segs _
    exact ⟨segs, rfl, rfl, rfl, by simp, fun j s' hs' label hl => Or.inl ⟨s', hs', hl⟩⟩
  | cons l0 rest ih =>
    intro segs hne
    obtain ⟨k, sk, hk, hadd, hmin, _⟩ := addNetLabel_spec g l0 segs hne
    have hne1 : segs.set k (sk.withLabel l0) ≠ [] := by
      intro h
      exact hne (by simpa using h)
    obtain ⟨segs', hloop, ha, hl, hperm, hP⟩ := ih (segs.set k (sk.withLabel l0)) hne1
    have ha' : segs'.map Segment.anchors = segs.map Segment.anchors :=
      ha.trans (map_anchors_set l0 segs k sk hk)
    have hl' : segs'.map Segment.lines = segs.map Segment.lines :=
      hl.trans (map_lines_set l0 segs k sk hk)
    refine ⟨segs', ?_, ha', hl', ?_, ?_⟩
    · simp [labelLoop, hadd, hloop]
    · refine hperm.trans ?_
      refine ((labels_set l0 segs k sk hk).append_right rest).trans ?_
      simp
    · intro j s' hs' label hlab
      rcases hP j s' hs' label hlab with ⟨s1, hs1, hl1⟩ | ⟨hr, hmin'⟩
      · by_cases hj : k = j
        · subst hj
          have hklt : k < segs.length := by
            by_contra hge
            simp [List.getElem?_eq_none (not_lt.1 hge)] at hk
          rw [List.getElem?_set_self hklt] at hs1
          simp only [Option.some.injEq] at hs1
          subst hs1
          rcases List.mem_append.1 hl1 with h | h
          · exact Or.inl ⟨sk, hk, h⟩
          · right
            have hlab0 : label = l0 := by simpa using h
            subst hlab0
            refine ⟨List.mem_cons_self _ _, ?_⟩
            intro t' ht'
            obtain ⟨j', hj'⟩ := List.getElem?_of_mem ht'
            obtain ⟨t, ht⟩ := exists_at_index_of_map_anchors ha' hj'
            rw [getDistance_at_index g label ha' hl' hk hs',
              getDistance_at_index g label ha' hl' ht hj']
            exact hmin j' t ht
        · rw [List.getElem?_set_ne hj] at hs1
          exact Or.inl ⟨s1, hs1, hl1⟩
      · exact Or.inr ⟨List.mem_cons_of_mem _ hr, hmin'⟩

/-! ## The builder and `split` as a whole -/

theorem addAnchor_anchorIdsDistinct (m : Splitter) (id : QVariant) (position : Point)
    (h : AnchorIdsDistinct m.mAnchors) : AnchorIdsDistinct (m.addAnchor id position).mAnchors := by
  unfold Splitter.addAnchor
  by_cases hc : containsAnchor m.mAnchors ⟨id, position⟩ = true
  · simpa [hc] using h
  · have hid : id ∉ m.mAnchors.map Anchor.id := by
      intro hmem
      exact hc ((containsAnchor_iff _ _).2 hmem)
    simp only [hc, Bool.not_false, if_true]
    unfold AnchorIdsDistinct at h ⊢
    rw [List.map_append, List.nodup_append]
    refine ⟨h, by simp, ?_⟩
    intro x hx hx'
    simp only [List.map_cons, List.map_nil, List.mem_singleton] at hx'
    exact hid (hx' ▸ hx)

theorem apply_anchorIdsDistinct (m : Splitter) (c : Call)
    (h : AnchorIdsDistinct m.mAnchors) : AnchorIdsDistinct (m.apply c).mAnchors := by
  cases c with
  | addAnchor id p => exact addAnchor_anchorIdsDistinct m id p h
  | addNetLine id s e => exact h
  | addNetLabel id p => exact h

theorem foldl_anchorIdsDistinct (calls : List Call) :
    ∀ m : Splitter, AnchorIdsDistinct m.mAnchors →
      AnchorIdsDistinct (calls.foldl Splitter.apply m).mAnchors := by
  induction calls with
  | nil => intro m h; exact h
  | cons c rest ih => intro m h; exact ih _ (apply_anchorIdsDistinct m c h)

/-- Stored anchors have pairwise distinct identities, whatever calls built the model. -/
theorem build_anchorIdsDistinct (calls : List Call) :
    AnchorIdsDistinct (build calls).mAnchors :=
  foldl_anchorIdsDistinct calls Splitter.new (by simp [AnchorIdsDistinct, Splitter.new])

theorem partition_labels_nil (m : Splitter) {p : Partition} (hp : partition m = some p) :
    ∀ s ∈ p.segments, s.labels = [] := by
  have := partitionLoop_induct m (fun p => ∀ s ∈ p.segments, s.labels = [])
    (by
      intro p first rest w hinv _ _ s hs
      simp only [Partition.push, List.mem_append, List.mem_singleton] at hs
      rcases hs with hs | rfl
      · exact hinv s hs
      · rfl)
    _ _ _ (by simp) hp
  exact this.1

theorem flatten_labels_nil : ∀ (segs : List Segment), (∀ s ∈ segs, s.labels = []) →
    (segs.map Segment.labels).flatten = [] := by
  intro segs h
  simp only [List.flatten_eq_nil_iff, List.mem_map]
  rintro l ⟨s, hs, rfl⟩
  exact h s hs

/-- The whole of `split` at once: it returns; the segments have the anchors and
lines the partition loop left; with at least one segment the labels are spread over
the segments, each in a segment of minimal computed distance. -/
theorem split_spec (g : Geometry) (m : Splitter) (hM : AnchorIdsDistinct m.mAnchors) :
    ∃ p segs, partition m = some p ∧ split g m = some segs ∧ p.availableAnchors = [] ∧
      p.anchorLists.flatten.Perm m.mAnchors ∧
      segs.map Segment.anchors = p.segments.map Segment.anchors ∧
      segs.map Segment.lines = p.segments.map Segment.lines ∧
      (p.segments = [] → segs = []) ∧
      (p.segments ≠ [] →
        (segs.map Segment.labels).flatten.Perm m.mLabels ∧
        ∀ s ∈ segs, ∀ label ∈ s.labels, ∀ t ∈ segs,
          getDistanceBetweenNetLabelAndNetSegment g label s ≤
            getDistanceBetweenNetLabelAndNetSegment g label t) := by
  obtain ⟨p, hp, hnil, hperm⟩ := partition_anchors m hM
  have hlab := partition_labels_nil m hp
  by_cases hne : p.segments = []
  · refine ⟨p, [], hp, ?_, hnil, hperm, by simp [hne], by simp [hne], fun _ => rfl,
      fun h => absurd hne h⟩
    simp [split, hp, assignLabels, hne]
  · obtain ⟨segs, hloop, ha, hl, hpl, hP⟩ := labelLoop_spec g m.mLabels p.segments hne
    refine ⟨p, segs, hp, ?_, hnil, hperm, ha, hl, fun h => absurd h hne, fun _ => ⟨?_, ?_⟩⟩
    · have : p.segments.isEmpty = false := by
        cases hsegs : p.segments with
        | nil => exact absurd hsegs hne
        | cons _ _ => rfl
      simp [split, hp, assignLabels, this, hloop]
    · rw [flatten_labels_nil p.segments hlab, List.nil_append] at hpl
      exact hpl
    · intro s hs label hlabel t ht
      obtain ⟨j, hj⟩ := List.getElem?_of_mem hs
      rcases hP j s hj label hlabel with ⟨s0, hs0, hl0⟩ | ⟨_, hmin⟩
      · rw [hlab s0 (List.getElem?_mem hs0)] at hl0
        simp at hl0
      · exact hmin t ht

theorem flatten_nodup_index {α : Type} {a : α} :
    ∀ (L : List (List α)), L.flatten.Nodup → ∀ (j k : Nat) (l1 l2 : List α),
      L[j]? = some l1 → L[k]? = some l2 → a ∈ l1 → a ∈ l2 → j = k := by
  intro L
  induction L with
  | nil => intro _ j k l1 l2 h; simp at h
  | cons l rest ih =>
    intro hnd j k l1 l2 h1 h2 ha1 ha2
    rw [List.flatten_cons, List.nodup_append] at hnd
    obtain ⟨_, hrest, hdisj⟩ := hnd
    cases j with
    | zero =>
      cases k with
      | zero => rfl
      | succ k =>
        simp only [List.getElem?_cons_zero, Option.some.injEq] at h1
        simp only [List.getElem?_cons_succ] at h2
        subst h1
        exact absurd (List.mem_flatten.2 ⟨l2, List.getElem?_mem h2, ha2⟩) (fun h => hdisj ha1 h)
    | succ j =>
      cases k with
      | zero =>
        simp only [List.getElem?_cons_zero, Option.some.injEq] at h2
        simp only [List.getElem?_cons_succ] at h1
        subst h2
        exact absurd (List.mem_flatten.2 ⟨l1, List.getElem?_mem h1, ha1⟩) (fun h => hdisj ha2 h)
      | succ k =>
        simp only [List.getElem?_cons_succ] at h1 h2
        rw [ih hrest j k l1 l2 h1 h2 ha1 ha2]

theorem anchors_at_index {segs : List Segment} {j : Nat} {s : Segment} (h : segs[j]? = some s) :
    (segs.map Segment.anchors)[j]? = some s.anchors := by
  simp [List.getElem?_map, h]

theorem foldl_labels_length (calls : List Call) :
    ∀ m : Splitter, (calls.foldl Splitter.apply m).mLabels.length =
      m.mLabels.length + calls.countP Call.isAddNetLabel := by
  induction calls with
  | nil => intro m; simp
  | cons c rest ih =>
    intro m
    rw [List.foldl_cons, ih]
    cases c with
    | addAnchor id p =>
      have : (m.apply (.addAnchor id p)).mLabels = m.mLabels := by
        simp only [Splitter.apply, Splitter.addAnchor]
        split <;> rfl
      simp [this, Call.isAddNetLabel]
    | addNetLine id s e => simp [Splitter.apply, Splitter.addNetLine, Call.isAddNetLabel]
    | addNetLabel id p =>
      simp [Splitter.apply, Splitter.addNetLabel, Call.isAddNetLabel]
      omega

theorem build_labels_length (calls : List Call) :
    (build calls).mLabels.length = calls.countP Call.isAddNetLabel := by
  simp [build, foldl_labels_length, Splitter.new]

theorem segments_ne_nil {m : Splitter} {p : Partition} (h : m.mAnchors ≠ [])
    (hperm : p.anchorLists.flatten.Perm m.mAnchors) : p.segments ≠ [] := by
  intro hnil
  apply h
  have : p.anchorLists.flatten = [] := by simp [Partition.anchorLists, hnil]
  rw [this] at hperm
  exact hperm.nil_eq.symm

theorem line_eq_of_id_eq {L : List NetLine} (hL : LineIdsDistinct L) {a b : NetLine}
    (ha : a ∈ L) (hb : b ∈ L) (h : a.id = b.id) : a = b :=
  List.inj_on_of_nodup_map hL ha hb h

theorem lineIdsDistinct_sublist {L l : List NetLine} (hL : LineIdsDistinct L)
    (hl : l.Sublist L) : LineIdsDistinct l :=
  List.Nodup.sublist (hl.map _) hL

theorem lineIdsDistinct_nodup {l : List NetLine} (h : LineIdsDistinct l) : l.Nodup :=
  List.Nodup.of_map _ h

theorem mem_of_containsLine {L l : List NetLine} (hL : LineIdsDistinct L)
    (hl : ∀ x ∈ l, x ∈ L) {b : NetLine} (hb : b ∈ L) (h : containsLine l b = true) : b ∈ l := by
  rw [containsLine_iff] at h
  obtain ⟨c, hc, hcb⟩ := List.mem_map.1 h
  have : c = b := line_eq_of_id_eq hL (hl c hc) hb hcb
  exact this ▸ hc

theorem containsLine_of_mem {l : List NetLine} {b : NetLine} (h : b ∈ l) :
    containsLine l b = true :=
  (containsLine_iff l b).2 (List.mem_map_of_mem _ h)

theorem containsAnchor_of_mem {l : List Anchor} {b : Anchor} (h : b ∈ l) :
    containsAnchor l b = true :=
  (containsAnchor_iff l b).2 (List.mem_map_of_mem _ h)

theorem removeOneLine_eq_erase {l : List NetLine} (hl : LineIdsDistinct l) {a : NetLine}
    (ha : a ∈ l) : removeOneLine l a = l.erase a := by
  induction l with
  | nil => simp at ha
  | cons b bs ih =>
    have hbs : LineIdsDistinct bs := lineIdsDistinct_sublist hl (List.sublist_cons_self _ _)
    by_cases hba : b = a
    · subst hba
      simp [removeOneLine, NetLine.eqv]
    · have hne : b.id ≠ a.id := fun h =>
        hba (line_eq_of_id_eq hl (List.mem_cons_self _ _) ha h)
      have ha' : a ∈ bs := by
        rcases List.mem_cons.1 ha with h | h
        · exact absurd h.symm hba
        · exact h
      simp [removeOneLine, NetLine.eqv, hne, List.erase_cons_tail, hba, ih hbs ha']

theorem id_not_mem_of_not_mem {M l : List Anchor} (hM : AnchorIdsDistinct M)
    (hl : l.Sublist M) {b : Anchor} (hb : b ∈ M) (h : b ∉ l) : b.id ∉ l.map Anchor.id := by
  intro hmem
  obtain ⟨c, hc, hcb⟩ := List.mem_map.1 hmem
  exact h (eq_of_id_eq hM (hl.subset hc) hb hcb ▸ hc)

theorem id_not_mem_erase {l : List Anchor} (hl : AnchorIdsDistinct l) {a : Anchor}
    (ha : a ∈ l) : a.id ∉ (l.erase a).map Anchor.id :=
  id_not_mem_of_not_mem hl (List.erase_sublist _ _) ha
    (fun h => (List.Nodup.mem_erase_iff (anchorIdsDistinct_nodup hl)).1 h |>.1 rfl)

theorem not_mem_ids_of_sublist {l' l : List Anchor} (hs : l'.Sublist l) {o : QVariant}
    (h : o ∉ l.map Anchor.id) : o ∉ l'.map Anchor.id :=
  fun hm => h ((hs.map _).subset hm)

theorem lineGuard_true {m : Splitter} (hL : LineIdsDistinct m.mLines) {a : Anchor} {l : NetLine} {w : Work} (hw : LInv m w)
    (hl : l ∈ m.mLines) (hg : lineGuard a l w = true) :
    Touches a.id l ∧ l ∈ w.availableLines := by
  simp only [lineGuard, Bool.and_eq_true, Bool.or_eq_true, beq_iff_eq] at hg
  exact ⟨hg.1.1, mem_of_containsLine hL (fun x hx => hw.2.1.subset hx) hl hg.1.2⟩

theorem lineGuard_false {m : Splitter} (hL : LineIdsDistinct m.mLines) {a : Anchor} {l : NetLine} {w : Work} (hw : LInv m w)
    (hl : l ∈ m.mLines) (hg : lineGuard a l w = false) (ht : Touches a.id l) :
    l ∉ w.availableLines := by
  intro hmem
  have h1 : containsLine w.availableLines l = true := containsLine_of_mem hmem
  have h2 : containsLine w.connectedLines l = true := by
    by_contra hc
    have hc' : containsLine w.connectedLines l = false := by simpa using hc
    have htb : (l.startAnchor == a.id || l.endAnchor == a.id) = true := by
      simpa [Touches] using ht
    simp [lineGuard, h1, hc', htb] at hg
  have := mem_of_containsLine hL (fun x hx => (hw.2.2.1 x hx).1) hl h2
  exact (hw.2.2.1 l this).2 hmem

theorem anchorGuard_true {m : Splitter} (hM : AnchorIdsDistinct m.mAnchors) {o : QVariant} {b : Anchor} {w : Work} (hw : LInv m w)
    (hb : b ∈ m.mAnchors) (hg : anchorGuard o b w = true) :
    b.id = o ∧ b ∈ w.availableAnchors := by
  simp only [anchorGuard, Bool.and_eq_true, beq_iff_eq] at hg
  exact ⟨hg.1.1, mem_of_containsAnchor hM hw.1 hb hg.1.2⟩

theorem anchorGuard_false {m : Splitter} (hM : AnchorIdsDistinct m.mAnchors) {o : QVariant} {b : Anchor} {w : Work} (hw : LInv m w)
    (hb : b ∈ m.mAnchors) (hg : anchorGuard o b w = false) (hbo : b.id = o) :
    o ∉ w.availableAnchors.map Anchor.id := by
  subst hbo
  intro hmem
  have h1 : containsAnchor w.availableAnchors b = true := (containsAnchor_iff _ _).2 hmem
  have h2 : containsAnchor w.connectedAnchors b = true := by
    by_contra hc
    have hc' : containsAnchor w.connectedAnchors b = false := by simpa using hc
    simp [anchorGuard, h1, hc'] at hg
  rw [containsAnchor_iff] at h2
  obtain ⟨c, hc, hcb⟩ := List.mem_map.1 h2
  have hcM := (hw.2.2.2 c hc)
  have : c = b := eq_of_id_eq hM hcM.1 hb hcb
  exact id_not_mem_of_not_mem hM hw.1 hb (this ▸ hcM.2) hmem

theorem done_mono {m : Splitter} {w w' : Work} {id : QVariant} (h : Done m w id)
    (hs : w'.availableLines.Sublist w.availableLines) : Done m w' id :=
  fun l hl ht hmem => h l hl ht (hs.subset hmem)

theorem lStep_refl (w : Work) : LStep w w := ⟨[], by simp, by simp, List.Sublist.refl _⟩

theorem lStep_trans {w w1 w2 : Work} (h1 : LStep w w1) (h2 : LStep w1 w2) : LStep w w2 := by
  obtain ⟨n1, c1, p1, s1⟩ := h1
  obtain ⟨n2, c2, p2, s2⟩ := h2
  refine ⟨n1 ++ n2, by rw [c2, c1, List.append_assoc], ?_, s2.trans s1⟩
  refine p1.trans ?_
  rw [List.append_assoc]
  exact List.Perm.append_left _ p2

theorem lStep_sublist {w w' : Work} (h : LStep w w') :
    w'.availableLines.Sublist w.availableLines := by
  obtain ⟨_, _, _, s⟩ := h
  exact s

theorem bPost_refl {m : Splitter} {w : Work} (hw : LInv m w) : BPost m w w :=
  ⟨hw, List.Sublist.refl _, lStep_refl w, fun _ hx => Or.inl hx⟩

theorem bPost_trans {m : Splitter} {w w1 w2 : Work} (h1 : BPost m w w1) (h2 : BPost m w1 w2) :
    BPost m w w2 := by
  refine ⟨h2.1, h2.2.1.trans h1.2.1, lStep_trans h1.2.2.1 h2.2.2.1, ?_⟩
  intro x hx
  rcases h2.2.2.2 x hx with h | h
  · rcases h1.2.2.2 x h with h' | h'
    · exact Or.inl h'
    · exact Or.inr (done_mono h' (lStep_sublist h2.2.2.1))
  · exact Or.inr h

theorem lInv_visit {m : Splitter} (hM : AnchorIdsDistinct m.mAnchors) {w : Work}
    (hw : LInv m w) {a : Anchor} (ha : a ∈ w.availableAnchors) :
    (w.visit a).availableAnchors = w.availableAnchors.erase a ∧ LInv m (w.visit a) := by
  have he : (w.visit a).availableAnchors = w.availableAnchors.erase a :=
    removeOneAnchor_eq_erase (anchorIdsDistinct_sublist hM hw.1) ha
  refine ⟨he, ?_, hw.2.1, hw.2.2.1, ?_⟩
  · rw [he]; exact (List.erase_sublist _ _).trans hw.1
  · intro x hx
    rw [he]
    simp only [Work.visit, List.mem_append, List.mem_singleton] at hx
    rcases hx with hx | rfl
    · exact ⟨(hw.2.2.2 x hx).1, fun h => (hw.2.2.2 x hx).2 ((List.erase_sublist _ _).subset h)⟩
    · exact ⟨hw.1.subset ha,
        fun h => ((List.Nodup.mem_erase_iff (anchorIdsDistinct_nodup (anchorIdsDistinct_sublist hM hw.1))).1 h).1 rfl⟩

theorem lInv_consume {m : Splitter} (hL : LineIdsDistinct m.mLines) {w : Work}
    (hw : LInv m w) {l : NetLine} (hl : l ∈ m.mLines) (hmem : l ∈ w.availableLines) :
    (w.consume l).availableLines = w.availableLines.erase l ∧ LInv m (w.consume l) := by
  have he : (w.consume l).availableLines = w.availableLines.erase l :=
    removeOneLine_eq_erase (lineIdsDistinct_sublist hL hw.2.1) hmem
  refine ⟨he, hw.1, ?_, ?_, hw.2.2.2⟩
  · rw [he]; exact (List.erase_sublist _ _).trans hw.2.1
  · intro x hx
    rw [he]
    simp only [Work.consume, List.mem_append, List.mem_singleton] at hx
    rcases hx with hx | rfl
    · exact ⟨(hw.2.2.1 x hx).1, fun h => (hw.2.2.1 x hx).2 ((List.erase_sublist _ _).subset h)⟩
    · exact ⟨hl, fun h => ((List.Nodup.mem_erase_iff (lineIdsDistinct_nodup (lineIdsDistinct_sublist hL hw.2.1))).1 h).1 rfl⟩

theorem settled_but {m : Splitter} {w : Work} (h : Settled m w) (o : QVariant) :
    SettledBut m w o :=
  fun l hl hn => ⟨Or.inl (h l hl hn).1, Or.inl (h l hl hn).2⟩

theorem settledBut_settled {m : Splitter} {w : Work} {o : QVariant} (h : SettledBut m w o)
    (ho : o ∉ w.availableAnchors.map Anchor.id) : Settled m w := by
  intro l hl hn
  obtain ⟨h1, h2⟩ := h l hl hn
  constructor
  · rcases h1 with h1 | h1
    · exact h1
    · rw [h1]; exact ho
  · rcases h2 with h2 | h2
    · exact h2
    · rw [h2]; exact ho

/-- With distinct anchor and line identities, every execution keeps the list
bookkeeping, consumes all lines at the anchors it visits, and leaves both ends of
every consumed line visited. -/
theorem lines_run (m : Splitter) (hM : AnchorIdsDistinct m.mAnchors)
    (hL : LineIdsDistinct m.mLines) :
    ∀ (pt : Pt) (w w' : Work), Run m pt w w' → BMot m pt w w' := by
  intro pt w w' h
  induction h with
  | @call a w w' _ ih =>
    intro hw ha hsb
    obtain ⟨he, hw1⟩ := lInv_visit hM hw ha
    have hnot : a.id ∉ (w.visit a).availableAnchors.map Anchor.id := by
      rw [he]; exact id_not_mem_erase (anchorIdsDistinct_sublist hM hw.1) ha
    have hset : Settled m (w.visit a) := by
      refine settledBut_settled (o := a.id) ?_ hnot
      intro l hl hn
      obtain ⟨h1, h2⟩ := hsb l hl hn
      have hsub : (w.visit a).availableAnchors.Sublist w.availableAnchors := by
        rw [he]; exact List.erase_sublist _ _
      exact ⟨h1.imp_left (not_mem_ids_of_sublist hsub), h2.imp_left (not_mem_ids_of_sublist hsub)⟩
    obtain ⟨hpost, hset', hdone⟩ := ih hw1 (fun _ h => h) hnot hset
    refine ⟨⟨hpost.1, ?_, hpost.2.2.1, ?_⟩, hset'⟩
    · have := hpost.2.1
      rw [he] at this
      exact this.trans (List.erase_sublist _ _)
    · intro x hx
      rcases hpost.2.2.2 x hx with h | h
      · simp only [Work.visit, List.mem_append, List.mem_singleton] at h
        rcases h with h | rfl
        · exact Or.inl h
        · exact Or.inr (fun l hl ht => hdone l hl ht)
      · exact Or.inr h
  | lnil => intro hw _ _ hs; exact ⟨bPost_refl hw, hs, by simp⟩
  | @lskip a l rest w w' hg _ ih =>
    intro hw hrest hnot hs
    obtain ⟨hpost, hs', hdone⟩ := ih hw (fun x hx => hrest x (List.mem_cons_of_mem _ hx)) hnot hs
    refine ⟨hpost, hs', ?_⟩
    intro l' hl' ht
    rcases List.mem_cons.1 hl' with rfl | hl'
    · exact fun hmem => lineGuard_false hL hw (hrest _ (List.mem_cons_self _ _)) hg ht
        ((lStep_sublist hpost.2.2.1).subset hmem)
    · exact hdone l' hl' ht
  | @ltake a l rest w w1 w' hg _ _ ih1 ih2 =>
    intro hw hrest hnot hs
    have hl : l ∈ m.mLines := hrest l (List.mem_cons_self _ _)
    obtain ⟨ht, hmem⟩ := lineGuard_true hL hw hl hg
    obtain ⟨he, hwc⟩ := lInv_consume hL hw hl hmem
    have hsb : SettledBut m (w.consume l) (otherAnchorId a l) := by
      intro l' hl' hn
      by_cases hll : l' = l
      · subst hll
        show (l'.startAnchor ∉ w.availableAnchors.map Anchor.id ∨ _) ∧
          (l'.endAnchor ∉ w.availableAnchors.map Anchor.id ∨ _)
        by_cases hst : l'.startAnchor = a.id
        · have : otherAnchorId a l' = l'.endAnchor := by simp [otherAnchorId, hst]
          rw [this]
          exact ⟨Or.inl (hst ▸ hnot), Or.inr rfl⟩
        · have : otherAnchorId a l' = l'.startAnchor := by simp [otherAnchorId, hst]
          rw [this]
          have hend : l'.endAnchor = a.id := by
            rcases ht with h | h
            · exact absurd h hst
            · exact h
          exact ⟨Or.inr rfl, Or.inl (hend ▸ hnot)⟩
      · rw [he] at hn
        have hn' : l' ∉ w.availableLines := fun h => hn ((List.mem_erase_of_ne hll).2 h)
        exact (settled_but hs _) l' hl' hn'
    obtain ⟨hp1, hsb1, hvis⟩ := ih1 hwc (fun _ h => h) hsb
    have ho : otherAnchorId a l ∉ w1.availableAnchors.map Anchor.id := by
      apply hvis
      by_cases h : otherAnchorId a l ∈ (w.consume l).availableAnchors.map Anchor.id
      · right
        obtain ⟨b, hb, hbo⟩ := List.mem_map.1 h
        exact ⟨b, hw.1.subset hb, hbo⟩
      · exact Or.inl h
    have hs1 : Settled m w1 := settledBut_settled hsb1 ho
    have hnot1 : a.id ∉ w1.availableAnchors.map Anchor.id :=
      not_mem_ids_of_sublist hp1.2.1 hnot
    obtain ⟨hp2, hs2, hdone⟩ := ih2 hp1.1 (fun x hx => hrest x (List.mem_cons_of_mem _ hx))
      hnot1 hs1
    have hpc : BPost m w (w.consume l) := by
      refine ⟨hwc, List.Sublist.refl _, ⟨[l], rfl, ?_, ?_⟩, fun x hx => Or.inl hx⟩
      · rw [he]; exact List.perm_cons_erase hmem
      · rw [he]; exact List.erase_sublist _ _
    have hall := bPost_trans hpc (bPost_trans hp1 hp2)
    refine ⟨hall, hs2, ?_⟩
    intro l' hl' ht'
    rcases List.mem_cons.1 hl' with rfl | hl'
    · intro hmem'
      have h1 : l' ∈ (w.consume l').availableLines := (lStep_sublist (bPost_trans hp1 hp2).2.2.1).subset hmem'
      rw [he] at h1
      exact ((List.Nodup.mem_erase_iff (lineIdsDistinct_nodup (lineIdsDistinct_sublist hL hw.2.1))).1 h1).1 rfl
    · exact hdone l' hl' ht'
  | anil =>
    intro hw _ hsb
    refine ⟨bPost_refl hw, hsb, ?_⟩
    rintro (h | ⟨b, hb, _⟩)
    · exact h
    · simp at hb
  | @askip o b rest w w' hg _ ih =>
    intro hw hrest hsb
    obtain ⟨hp, hsb', hvis⟩ := ih hw (fun x hx => hrest x (List.mem_cons_of_mem _ hx)) hsb
    refine ⟨hp, hsb', ?_⟩
    intro h
    apply hvis
    rcases h with h | ⟨c, hc, hco⟩
    · exact Or.inl h
    · rcases List.mem_cons.1 hc with rfl | hc
      · exact Or.inl (anchorGuard_false hM hw (hrest _ (List.mem_cons_self _ _)) hg hco)
      · exact Or.inr ⟨c, hc, hco⟩
  | @atake o b rest w w1 w' hg h1 _ ih1 ih2 =>
    intro hw hrest hsb
    have hbM : b ∈ m.mAnchors := hrest b (List.mem_cons_self _ _)
    obtain ⟨hbo, hb⟩ := anchorGuard_true hM hw hbM hg
    obtain ⟨hp1, hs1⟩ := ih1 hw hb (hbo ▸ hsb)
    obtain ⟨hp2, hsb2, hvis⟩ := ih2 hp1.1 (fun x hx => hrest x (List.mem_cons_of_mem _ hx))
      (settled_but hs1 o)
    refine ⟨bPost_trans hp1 hp2, hsb2, fun _ => hvis (Or.inl ?_)⟩
    obtain ⟨newA, hc, _, _⟩ := anchors_run m hM _ _ _ h1 hw.1 hb
    have hbc : b ∈ w1.connectedAnchors := by rw [hc]; simp
    rw [← hbo]
    exact id_not_mem_of_not_mem hM hp1.1.1 hbM (hp1.1.2.2.2 b hbc).2

theorem adjacent_symm {m : Splitter} {x y : QVariant} (h : Adjacent m x y) : Adjacent m y x := by
  obtain ⟨l, hl, h⟩ := h
  exact ⟨l, hl, h.symm⟩

theorem joined_symm {m : Splitter} {x y : QVariant} (h : Joined m x y) : Joined m y x :=
  Relation.ReflTransGen.symmetric (fun _ _ h => adjacent_symm h) h

theorem joined_trans {m : Splitter} {x y z : QVariant} (h1 : Joined m x y) (h2 : Joined m y z) :
    Joined m x z :=
  Relation.ReflTransGen.trans h1 h2

theorem adjacent_other {m : Splitter} {a : Anchor} {l : NetLine} (hl : l ∈ m.mLines)
    (ht : l.startAnchor = a.id ∨ l.endAnchor = a.id) : Adjacent m a.id (otherAnchorId a l) := by
  by_cases hst : l.startAnchor = a.id
  · exact ⟨l, hl, Or.inl ⟨hst, by simp [otherAnchorId, hst]⟩⟩
  · have hend : l.endAnchor = a.id := by
      rcases ht with h | h
      · exact absurd h hst
      · exact h
    exact ⟨l, hl, Or.inr ⟨by simp [otherAnchorId, hst], hend⟩⟩

/-- Every anchor collected by an execution is joined to the anchor it started
from by a path of stored lines. -/
theorem joined_run (m : Splitter) :
    ∀ (pt : Pt) (w w' : Work), Run m pt w w' → SMot m pt w w' := by
  intro pt w w' h
  induction h with
  | @call a w w' _ ih =>
    intro x hx
    rcases ih (fun _ h => h) x hx with h | h
    · simp only [Work.visit, List.mem_append, List.mem_singleton] at h
      rcases h with h | rfl
      · exact Or.inl h
      · exact Or.inr Relation.ReflTransGen.refl
    · exact Or.inr h
  | lnil => intro _ x hx; exact Or.inl hx
  | lskip _ _ ih => intro hrest; exact ih (fun x hx => hrest x (List.mem_cons_of_mem _ hx))
  | @ltake a l rest w w1 w' hg _ _ ih1 ih2 =>
    intro hrest x hx
    have ht : l.startAnchor = a.id ∨ l.endAnchor = a.id := by
      simp only [lineGuard, Bool.and_eq_true, Bool.or_eq_true, beq_iff_eq] at hg
      exact hg.1.1
    have hadj := adjacent_other (hrest l (List.mem_cons_self _ _)) ht
    rcases ih2 (fun x hx => hrest x (List.mem_cons_of_mem _ hx)) x hx with h | h
    · rcases ih1 x h with h' | h'
      · exact Or.inl h'
      · exact Or.inr (Relation.ReflTransGen.head hadj h')
    · exact Or.inr h
  | anil => intro x hx; exact Or.inl hx
  | askip _ _ ih => exact ih
  | @atake o b rest w w1 w' hg _ _ ih1 ih2 =>
    intro x hx
    have hbo : b.id = o := by
      simp only [anchorGuard, Bool.and_eq_true, beq_iff_eq] at hg
      exact hg.1.1
    rcases ih2 x hx with h | h
    · rcases ih1 x h with h' | h'
      · exact Or.inl h'
      · exact Or.inr (hbo ▸ h')
    · exact Or.inr h

theorem PJoin_push {m : Splitter} {p : Partition} {first : Anchor} {w : Work}
    (hp : PJoin m p) (hrun : Run m (.call first) p.work w) : PJoin m (p.push w) := by
  intro s hs x hx y hy
  simp only [Partition.push, List.mem_append, List.mem_singleton] at hs
  rcases hs with hs | rfl
  · exact hp s hs x hx y hy
  · have key : ∀ z ∈ w.connectedAnchors, Joined m first.id z.id := by
      intro z hz
      rcases joined_run m _ _ _ hrun z hz with h | h
      · simp [Partition.work] at h
      · exact h
    exact joined_trans (joined_symm (key x hx)) (key y hy)

theorem lineLists_push (p : Partition) (w : Work) :
    (p.push w).lineLists = p.lineLists ++ [w.connectedLines] := by
  simp [Partition.push, Partition.lineLists]

theorem ids_disjoint {A B : List Anchor} (h : AnchorIdsDistinct (A ++ B)) {o : QVariant}
    (hA : o ∈ A.map Anchor.id) : o ∉ B.map Anchor.id := by
  unfold AnchorIdsDistinct at h
  rw [List.map_append, List.nodup_append] at h
  exact fun hB => h.2.2 hA hB

theorem anchorIdsDistinct_perm {A B : List Anchor} (h : AnchorIdsDistinct A) (hp : B.Perm A) :
    AnchorIdsDistinct B :=
  (hp.map Anchor.id).nodup_iff.2 h

theorem mem_ids_flatten {p : Partition} {s : Segment} (hs : s ∈ p.segments) {o : QVariant}
    (ho : o ∈ s.anchors.map Anchor.id) : o ∈ p.anchorLists.flatten.map Anchor.id := by
  obtain ⟨x, hx, rfl⟩ := List.mem_map.1 ho
  exact List.mem_map_of_mem _
    (List.mem_flatten.2 ⟨s.anchors, List.mem_map_of_mem _ hs, hx⟩)

theorem pLInv_settled {m : Splitter} (hM : AnchorIdsDistinct m.mAnchors) {p : Partition}
    (hp : PLInv m p) : Settled m p.work := by
  intro l hl hn
  have hd : AnchorIdsDistinct (p.anchorLists.flatten ++ p.availableAnchors) := anchorIdsDistinct_perm hM hp.1.2
  rcases hp.2.2.2 l hl with ⟨h, _⟩ | ⟨s, hs, _, h1, h2⟩
  · exact absurd h hn
  · exact ⟨ids_disjoint hd (mem_ids_flatten hs h1), ids_disjoint hd (mem_ids_flatten hs h2)⟩

theorem PLInv_push {m : Splitter} (hM : AnchorIdsDistinct m.mAnchors)
    (hL : LineIdsDistinct m.mLines) {p : Partition} {first : Anchor} {rest : List Anchor}
    {w : Work} (hp : PLInv m p) (ha : p.availableAnchors = first :: rest)
    (hrun : Run m (.call first) p.work w) : PLInv m (p.push w) := by
  have hw0 : LInv m p.work :=
    ⟨hp.1.1, hp.2.1, by simp [Partition.work], by simp [Partition.work]⟩
  have hfirst : first ∈ p.work.availableAnchors := by simp [Partition.work, ha]
  obtain ⟨⟨hw, _, ⟨newL, hcl, hpl, _⟩, hdone⟩, hset⟩ :=
    lines_run m hM hL _ _ _ hrun hw0 hfirst (settled_but (pLInv_settled hM hp) _)
  obtain ⟨newA, hca, hpa, _⟩ := run_first hM hp.1.1 ha hrun
  have hcl' : w.connectedLines = newL := by simpa [Partition.work] using hcl
  have hpl' : p.availableLines.Perm (w.connectedLines ++ w.availableLines) := by
    rw [hcl']; exact hpl
  have hpa' : p.availableAnchors.Perm (w.connectedAnchors ++ w.availableAnchors) := by
    rw [hca]; exact hpa
  have hdone' : ∀ x ∈ w.connectedAnchors, Done m w x.id := by
    intro x hx
    rcases hdone x hx with h | h
    · simp [Partition.work] at h
    · exact h
  refine ⟨PAInv_push hM hp.1 ha hrun, hw.2.1, ?_, ?_⟩
  · rw [lineLists_push, List.flatten_append]
    simp only [List.flatten_cons, List.flatten_nil, List.append_nil, List.append_assoc]
    exact (List.Perm.append_left _ hpl'.symm).trans hp.2.2.1
  · intro l hl
    rcases hp.2.2.2 l hl with ⟨hav, h1, h2⟩ | ⟨s, hs, h⟩
    · have split_id : ∀ o, o ∈ p.availableAnchors.map Anchor.id →
          o ∈ w.connectedAnchors.map Anchor.id ∨ o ∈ w.availableAnchors.map Anchor.id := by
        intro o ho
        have := (hpa'.map Anchor.id).subset ho
        simpa [List.map_append] using this
      by_cases hlw : l ∈ w.availableLines
      · left
        refine ⟨hlw, ?_, ?_⟩
        · rcases split_id _ h1 with h | h
          · obtain ⟨x, hx, hxo⟩ := List.mem_map.1 h
            exact absurd hlw (hdone' x hx l hl (Or.inl hxo.symm))
          · exact h
        · rcases split_id _ h2 with h | h
          · obtain ⟨x, hx, hxo⟩ := List.mem_map.1 h
            exact absurd hlw (hdone' x hx l hl (Or.inr hxo.symm))
          · exact h
      · right
        refine ⟨⟨w.connectedAnchors, w.connectedLines, []⟩, by simp [Partition.push], ?_, ?_, ?_⟩
        · rcases List.mem_append.1 (hpl'.subset hav) with h | h
          · exact h
          · exact absurd h hlw
        · rcases split_id _ h1 with h | h
          · exact h
          · exact absurd h (hset l hl hlw).1
        · rcases split_id _ h2 with h | h
          · exact h
          · exact absurd h (hset l hl hlw).2
    · right
      exact ⟨s, by simp [Partition.push, hs], h⟩

theorem partition_lines (m : Splitter) (hM : AnchorIdsDistinct m.mAnchors)
    (hL : LineIdsDistinct m.mLines) (hE : EndpointsStored m) {p : Partition}
    (hp : partition m = some p) : (PLInv m p ∧ PJoin m p) ∧ p.availableAnchors = [] := by
  have h0 : PLInv m ⟨[], m.mAnchors, m.mLines⟩ ∧ PJoin m ⟨[], m.mAnchors, m.mLines⟩ := by
    refine ⟨⟨⟨List.Sublist.refl _, by simp [Partition.anchorLists]⟩, List.Sublist.refl _,
      by simp [Partition.lineLists], ?_⟩, ?_⟩
    · intro l hl
      exact Or.inl ⟨hl, hE l hl⟩
    · intro s hs
      simp at hs
  exact partitionLoop_induct m (fun p => PLInv m p ∧ PJoin m p)
    (fun p first rest w hp ha hrun => ⟨PLInv_push hM hL hp.1 ha hrun, PJoin_push hp.2 hrun⟩)
    _ _ _ h0 hp

/-- When the partition loop ends, with distinct identities and stored line ends:
no line is left, the segments' lines are the stored lines, and every stored line
lies in a segment together with both its ends. -/
theorem partition_lines_final (m : Splitter) (hM : AnchorIdsDistinct m.mAnchors)
    (hL : LineIdsDistinct m.mLines) (hE : EndpointsStored m) {p : Partition}
    (hp : partition m = some p) :
    p.availableLines = [] ∧ p.lineLists.flatten.Perm m.mLines ∧
      ∀ l ∈ m.mLines, ∃ s ∈ p.segments, l ∈ s.lines ∧
        l.startAnchor ∈ s.anchors.map Anchor.id ∧ l.endAnchor ∈ s.anchors.map Anchor.id := by
  obtain ⟨⟨⟨_, hsub, hperm, hPL⟩, _⟩, hnil⟩ := partition_lines m hM hL hE hp
  have hall : ∀ l ∈ m.mLines, ∃ s ∈ p.segments, l ∈ s.lines ∧
      l.startAnchor ∈ s.anchors.map Anchor.id ∧ l.endAnchor ∈ s.anchors.map Anchor.id := by
    intro l hl
    rcases hPL l hl with ⟨_, h, _⟩ | h
    · rw [hnil] at h; simp at h
    · exact h
  have hav : p.availableLines = [] := by
    apply List.eq_nil_iff_forall_not_mem.2
    intro l hmem
    obtain ⟨s, hs, hls, _⟩ := hall l (hsub.subset hmem)
    have hnd : (p.lineLists.flatten ++ p.availableLines).Nodup := hperm.nodup_iff.2 (lineIdsDistinct_nodup hL)
    have hfl : l ∈ p.lineLists.flatten :=
      List.mem_flatten.2 ⟨s.lines, List.mem_map_of_mem _ hs, hls⟩
    exact (List.nodup_append.1 hnd).2.2 hfl hmem
  refine ⟨hav, ?_, hall⟩
  rw [hav, List.append_nil] at hperm
  exact hperm

theorem exists_same_net {segs segs0 : List Segment}
    (ha : segs.map Segment.anchors = segs0.map Segment.anchors)
    (hl : segs.map Segment.lines = segs0.map Segment.lines) {s0 : Segment} (hs : s0 ∈ segs0) :
    ∃ s ∈ segs, s.anchors = s0.anchors ∧ s.lines = s0.lines := by
  obtain ⟨j, hj⟩ := List.getElem?_of_mem hs
  obtain ⟨s, hsj⟩ := exists_at_index_of_map_anchors ha.symm hj
  have h1 := congrArg (fun l => l[j]?) ha
  have h2 := congrArg (fun l => l[j]?) hl
  simp only [List.getElem?_map, hj, hsj, Option.map_some', Option.some.injEq] at h1 h2
  exact ⟨s, List.getElem?_mem hsj, h1, h2⟩

theorem same_of_flatten_nodup {α β : Type} (f : α → List β) {xs : List α}
    (hnd : (xs.map f).flatten.Nodup) {s t : α} (hs : s ∈ xs) (ht : t ∈ xs) {b : β}
    (hbs : b ∈ f s) (hbt : b ∈ f t) : s = t := by
  obtain ⟨j, hj⟩ := List.getElem?_of_mem hs
  obtain ⟨k, hk⟩ := List.getElem?_of_mem ht
  have hj' : (xs.map f)[j]? = some (f s) := by simp [List.getElem?_map, hj]
  have hk' : (xs.map f)[k]? = some (f t) := by simp [List.getElem?_map, hk]
  have := flatten_nodup_index _ hnd j k _ _ hj' hk' hbs hbt
  subst this
  rw [hj] at hk
  exact Option.some.inj hk

/-- Everything the claims on connectivity and lines need of `split`, for a model
with distinct identities and stored line ends. -/
theorem split_lines_spec (g : Geometry) (m : Splitter) (hM : AnchorIdsDistinct m.mAnchors)
    (hL : LineIdsDistinct m.mLines) (hE : EndpointsStored m) :
    ∃ p segs, partition m = some p ∧ split g m = some segs ∧
      p.availableAnchors = [] ∧ p.availableLines = [] ∧
      p.lineLists.flatten.Perm m.mLines ∧
      (segs.map Segment.anchors).flatten.Perm m.mAnchors ∧
      (segs.map Segment.lines).flatten.Perm m.mLines ∧
      (∀ l ∈ m.mLines, ∃ s ∈ segs, l ∈ s.lines ∧
        l.startAnchor ∈ s.anchors.map Anchor.id ∧ l.endAnchor ∈ s.anchors.map Anchor.id) ∧
      (∀ s ∈ segs, ∀ x ∈ s.anchors, ∀ y ∈ s.anchors, Joined m x.id y.id) := by
  obtain ⟨p, segs, hp, hs, hnil, hperm, ha, hl, _, _⟩ := split_spec g m hM
  obtain ⟨hav, hpl, hall⟩ := partition_lines_final m hM hL hE hp
  obtain ⟨⟨_, hjoin⟩, _⟩ := partition_lines m hM hL hE hp
  refine ⟨p, segs, hp, hs, hnil, hav, hpl, by rw [ha]; exact hperm, by rw [hl]; exact hpl,
    ?_, ?_⟩
  · intro l hlL
    obtain ⟨s0, hs0, h1, h2, h3⟩ := hall l hlL
    obtain ⟨s, hs, hsa, hsl⟩ := exists_same_net ha hl hs0
    exact ⟨s, hs, by rw [hsl]; exact h1, by rw [hsa]; exact h2, by rw [hsa]; exact h3⟩
  · intro s hs x hx y hy
    obtain ⟨s0, hs0, hsa, _⟩ := exists_same_net ha.symm hl.symm hs
    exact hjoin s0 hs0 x (hsa ▸ hx) y (hsa ▸ hy)

theorem ids_flatten_nodup {m : Splitter} (hM : AnchorIdsDistinct m.mAnchors)
    {segs : List Segment} (hperm : (segs.map Segment.anchors).flatten.Perm m.mAnchors) :
    (segs.map (fun s => s.anchors.map Anchor.id)).flatten.Nodup := by
  have h1 : AnchorIdsDistinct (segs.map Segment.anchors).flatten := anchorIdsDistinct_perm hM hperm
  unfold AnchorIdsDistinct at h1
  rw [List.map_flatten, List.map_map] at h1
  exact h1

theorem foldl_addedPosition (calls : List Call) :
    ∀ (m : Splitter), ∀ a ∈ (calls.foldl Splitter.apply m).mAnchors,
      a ∈ m.mAnchors ∨
        (a.id ∉ m.mAnchors.map Anchor.id ∧ addedPosition calls a.id = some a.position) := by
  induction calls with
  | nil => intro m a ha; exact Or.inl ha
  | cons c rest ih =>
    intro m a ha
    rw [List.foldl_cons] at ha
    cases c with
    | addAnchor i p =>
      by_cases hc : containsAnchor m.mAnchors ⟨i, p⟩ = true
      · have hm : m.apply (.addAnchor i p) = m := by
          simp [Splitter.apply, Splitter.addAnchor, hc]
        rw [hm] at ha
        rcases ih m a ha with h | ⟨h1, h2⟩
        · exact Or.inl h
        · right
          refine ⟨h1, ?_⟩
          have hi : i ∈ m.mAnchors.map Anchor.id := (containsAnchor_iff _ _).1 hc
          have hne : i ≠ a.id := fun e => h1 (e ▸ hi)
          simp [addedPosition, hne, h2]
      · have hm : (m.apply (.addAnchor i p)).mAnchors = m.mAnchors ++ [⟨i, p⟩] := by
          simp [Splitter.apply, Splitter.addAnchor, hc]
        have hi : i ∉ m.mAnchors.map Anchor.id := fun h => hc ((containsAnchor_iff _ _).2 h)
        rcases ih _ a ha with h | ⟨h1, h2⟩
        · rw [hm] at h
          rcases List.mem_append.1 h with h | h
          · exact Or.inl h
          · right
            have : a = ⟨i, p⟩ := by simpa using h
            subst this
            exact ⟨hi, by simp [addedPosition]⟩
        · right
          rw [hm] at h1
          simp only [List.map_append, List.map_cons, List.map_nil, List.mem_append,
            List.mem_singleton, not_or] at h1
          refine ⟨h1.1, ?_⟩
          have hne : i ≠ a.id := fun e => h1.2 e.symm
          simp [addedPosition, hne, h2]
    | addNetLine i s e =>
      rcases ih _ a ha with h | ⟨h1, h2⟩
      · exact Or.inl h
      · exact Or.inr ⟨h1, by simpa [addedPosition] using h2⟩
    | addNetLabel i p =>
      rcases ih _ a ha with h | ⟨h1, h2⟩
      · exact Or.inl h
      · exact Or.inr ⟨h1, by simpa [addedPosition] using h2⟩

/-- A stored anchor keeps the position of the first `addAnchor` call for its
identity. -/
theorem build_position (calls : List Call) :
    ∀ a ∈ (build calls).mAnchors, positionOf calls a.id = a.position := by
  intro a ha
  rcases foldl_addedPosition calls Splitter.new a ha with h | ⟨_, h⟩
  · simp [Splitter.new] at h
  · simp [positionOf, h]

/-- The two loops of the distance computation fold `nearer` over the anchor
distances followed by the line distances. -/
theorem distanceLoops_eq_foldl (g : Geometry) (label : NetLabel) (s : Segment) :
    distanceLoops g label s =
      (s.anchors.map (anchorDistance g label) ++ s.lines.map (lineDistance g label s)).foldl
        (fun acc d => nearer d acc) ((0 : Length), true) := by
  simp [distanceLoops, List.foldl_append, List.foldl_map]

theorem foldl_nearer_started (ds : List Length) :
    ∀ (n : Length), ∃ r, ds.foldl (fun acc d => nearer d acc) (n, false) = (r, false) ∧
      (r = n ∨ r ∈ ds) ∧ r ≤ n ∧ ∀ d ∈ ds, r ≤ d := by
  induction ds with
  | nil => intro n; exact ⟨n, rfl, Or.inl rfl, le_refl _, by simp⟩
  | cons d rest ih =>
    intro n
    by_cases hlt : d < n
    · have hstep : nearer d (n, false) = (d, false) := by simp [nearer, hlt]
      obtain ⟨r, hr, hmem, hle, hall⟩ := ih d
      refine ⟨r, by rw [List.foldl_cons, hstep, hr], ?_, le_trans hle (le_of_lt hlt), ?_⟩
      · rcases hmem with h | h
        · exact Or.inr (h ▸ List.mem_cons_self _ _)
        · exact Or.inr (List.mem_cons_of_mem _ h)
      · intro d' hd'
        rcases List.mem_cons.1 hd' with rfl | hd'
        · exact hle
        · exact hall d' hd'
    · have hstep : nearer d (n, false) = (n, false) := by simp [nearer, hlt]
      obtain ⟨r, hr, hmem, hle, hall⟩ := ih n
      refine ⟨r, by rw [List.foldl_cons, hstep, hr], ?_, hle, ?_⟩
      · rcases hmem with h | h
        · exact Or.inl h
        · exact Or.inr (List.mem_cons_of_mem _ h)
      · intro d' hd'
        rcases List.mem_cons.1 hd' with rfl | hd'
        · exact le_trans hle (not_lt.1 hlt)
        · exact hall d' hd'

/-- Folding `nearer` over a non-empty list from the initial state yields its
least element. -/
theorem foldl_nearer_min (ds : List Length) (hne : ds ≠ []) :
    ∃ r, ds.foldl (fun acc d => nearer d acc) ((0 : Length), true) = (r, false) ∧
      r ∈ ds ∧ ∀ d ∈ ds, r ≤ d := by
  cases ds with
  | nil => exact absurd rfl hne
  | cons d rest =>
    have hstep : nearer d ((0 : Length), true) = (d, false) := by simp [nearer]
    obtain ⟨r, hr, hmem, hle, hall⟩ := foldl_nearer_started rest d
    refine ⟨r, by rw [List.foldl_cons, hstep, hr], ?_, ?_⟩
    · rcases hmem with h | h
      · exact h ▸ List.mem_cons_self _ _
      · exact List.mem_cons_of_mem _ h
    · intro d' hd'
      rcases List.mem_cons.1 hd' with rfl | hd'
      · exact hle
      · exact hall d' hd'

theorem lineEnds_foldl (line : NetLine) :
    ∀ (anchors : List Anchor) (init : Point × Point),
      let r := anchors.foldl
        (fun se anchor =>
          let s := if anchor.id == line.startAnchor then anchor.position else se.1
          let e := if anchor.id == line.endAnchor then anchor.position else se.2
          (s, e)) init
      ((∃ a ∈ anchors, a.id = line.startAnchor ∧ r.1 = a.position) ∨
        (line.startAnchor ∉ anchors.map Anchor.id ∧ r.1 = init.1)) ∧
      ((∃ a ∈ anchors, a.id = line.endAnchor ∧ r.2 = a.position) ∨
        (line.endAnchor ∉ anchors.map Anchor.id ∧ r.2 = init.2)) := by
  intro anchors
  induction anchors with
  | nil => intro init; simp
  | cons x rest ih =>
    intro init
    simp only [List.foldl_cons]
    obtain ⟨h1, h2⟩ := ih
      (if x.id == line.startAnchor then x.position else init.1,
        if x.id == line.endAnchor then x.position else init.2)
    constructor
    · rcases h1 with ⟨a, ha, hid, hr⟩ | ⟨hn, hr⟩
      · exact Or.inl ⟨a, List.mem_cons_of_mem _ ha, hid, hr⟩
      · by_cases hx : x.id = line.startAnchor
        · left
          refine ⟨x, List.mem_cons_self _ _, hx, ?_⟩
          rw [hr]; simp [hx]
        · right
          refine ⟨?_, ?_⟩
          · simp only [List.map_cons, List.mem_cons, not_or]
            exact ⟨fun e => hx e.symm, hn⟩
          · rw [hr]; simp [hx]
    · rcases h2 with ⟨a, ha, hid, hr⟩ | ⟨hn, hr⟩
      · exact Or.inl ⟨a, List.mem_cons_of_mem _ ha, hid, hr⟩
      · by_cases hx : x.id = line.endAnchor
        · left
          refine ⟨x, List.mem_cons_self _ _, hx, ?_⟩
          rw [hr]; simp [hx]
        · right
          refine ⟨?_, ?_⟩
          · simp only [List.map_cons, List.mem_cons, not_or]
            exact ⟨fun e => hx e.symm, hn⟩
          · rw [hr]; simp [hx]

/-- The innermost loop finds the positions of the two ends of a line among the
anchors of the segment, when both are there. -/
theorem lineEnds_spec (line : NetLine) (anchors : List Anchor)
    (hs : line.startAnchor ∈ anchors.map Anchor.id)
    (he : line.endAnchor ∈ anchors.map Anchor.id) :
    (∃ a ∈ anchors, a.id = line.startAnchor ∧ (lineEnds line anchors).1 = a.position) ∧
      (∃ a ∈ anchors, a.id = line.endAnchor ∧ (lineEnds line anchors).2 = a.position) := by
  obtain ⟨h1, h2⟩ := lineEnds_foldl line anchors (Point.origin, Point.origin)
  constructor
  · rcases h1 with h | ⟨hn, _⟩
    · exact h
    · exact absurd hs hn
  · rcases h2 with h | ⟨hn, _⟩
    · exact h
    · exact absurd he hn

/-- Both ends of every line of a returned segment are anchors of that segment,
and no returned segment is without anchors. -/
theorem split_locality (g : Geometry) (m : Splitter) (hM : AnchorIdsDistinct m.mAnchors)
    (hL : LineIdsDistinct m.mLines) (hE : EndpointsStored m) :
    ∃ segs, split g m = some segs ∧
      (segs.map Segment.anchors).flatten.Perm m.mAnchors ∧
      (∀ s ∈ segs, s.anchors ≠ []) ∧
      ∀ s ∈ segs, ∀ l ∈ s.lines,
        l.startAnchor ∈ s.anchors.map Anchor.id ∧ l.endAnchor ∈ s.anchors.map Anchor.id := by
  obtain ⟨p, segs, hp, hs, _, _, _, hpa, hpl, hall, _⟩ := split_lines_spec g m hM hL hE
  obtain ⟨p', segs', hp', hs', _, _, ha, _⟩ := split_spec g m hM
  have hpp : p' = p := Option.some.inj (hp'.symm.trans hp)
  have hss : segs' = segs := Option.some.inj (hs'.symm.trans hs)
  subst hpp hss
  obtain ⟨_, hseed⟩ := partition_seeds m hM hp
  have hnd : (segs'.map Segment.lines).flatten.Nodup := hpl.nodup_iff.2 (lineIdsDistinct_nodup hL)
  refine ⟨segs', hs, hpa, ?_, ?_⟩
  · intro s hs hnil
    have hmem : s.anchors ∈ p'.anchorLists := by
      show s.anchors ∈ p'.segments.map Segment.anchors
      rw [← ha]; exact List.mem_map_of_mem _ hs
    obtain ⟨pre, post, hdec⟩ := List.mem_iff_append.1 hmem
    obtain ⟨seed, rest, hsd, _⟩ := hseed pre s.anchors post hdec
    rw [hnil] at hsd
    simp at hsd
  · intro s hs l hl
    have hlL : l ∈ m.mLines :=
      hpl.subset (List.mem_flatten.2 ⟨s.lines, List.mem_map_of_mem _ hs, hl⟩)
    obtain ⟨s2, hs2, hl2, h1, h2⟩ := hall l hlL
    have : s = s2 := same_of_flatten_nodup Segment.lines hnd hs hs2 hl hl2
    rw [this]
    exact ⟨h1, h2⟩

theorem addedIds_append (calls : List Call) (c : Call) :
    addedIds (calls ++ [c]) = addedIds calls ++ addedIds [c] := by
  induction calls with
  | nil => simp [addedIds]
  | cons d rest ih =>
    cases d <;> simp [addedIds, ih]

theorem build_append (calls : List Call) (c : Call) :
    build (calls ++ [c]) = (build calls).apply c := by
  simp [build, List.foldl_append]

theorem firstCallOrder_stored {ids added : List QVariant} (h : FirstCallOrder ids added)
    {i : QVariant} (hi : i ∈ ids) : FirstCallOrder ids (added ++ [i]) := by
  obtain ⟨hnd, hmem, hord⟩ := h
  refine ⟨hnd, ?_, ?_⟩
  · intro j
    rw [List.mem_append, List.mem_singleton, hmem]
    constructor
    · exact Or.inl
    · rintro (h | rfl)
      · exact h
      · exact (hmem _).1 hi
  · intro x hx y hy
    rw [List.indexOf_append_of_mem ((hmem x).1 hx), List.indexOf_append_of_mem ((hmem y).1 hy)]
    exact hord x hx y hy

theorem firstCallOrder_fresh {ids added : List QVariant} (h : FirstCallOrder ids added)
    {i : QVariant} (hi : i ∉ ids) : FirstCallOrder (ids ++ [i]) (added ++ [i]) := by
  obtain ⟨hnd, hmem, hord⟩ := h
  have hia : i ∉ added := fun h => hi ((hmem i).2 h)
  refine ⟨?_, ?_, ?_⟩
  · rw [List.nodup_append]
    refine ⟨hnd, by simp, ?_⟩
    intro x hx hx'
    simp only [List.mem_singleton] at hx'
    exact hi (hx' ▸ hx)
  · intro j
    simp only [List.mem_append, List.mem_singleton, hmem]
  · have hidx_i : (ids ++ [i]).indexOf i = ids.length := by
      rw [List.indexOf_append_of_not_mem hi]; simp
    have hidx_i' : (added ++ [i]).indexOf i = added.length := by
      rw [List.indexOf_append_of_not_mem hia]; simp
    have hold : ∀ x ∈ ids, (ids ++ [i]).indexOf x = ids.indexOf x ∧
        (added ++ [i]).indexOf x = added.indexOf x ∧ ids.indexOf x < ids.length ∧
        added.indexOf x < added.length := fun x hx =>
      ⟨List.indexOf_append_of_mem hx, List.indexOf_append_of_mem ((hmem x).1 hx),
        List.indexOf_lt_length.2 hx, List.indexOf_lt_length.2 ((hmem x).1 hx)⟩
    intro x hx0 y hy0
    rcases List.mem_append.1 hx0 with hx | hx <;> rcases List.mem_append.1 hy0 with hy | hy
    · rw [(hold x hx).1, (hold y hy).1, (hold x hx).2.1, (hold y hy).2.1]
      exact hord x hx y hy
    · have hyi : y = i := by simpa using hy
      rw [hyi, (hold x hx).1, (hold x hx).2.1, hidx_i, hidx_i']
      exact ⟨fun _ => (hold x hx).2.2.2, fun _ => (hold x hx).2.2.1⟩
    · have hxi : x = i := by simpa using hx
      rw [hxi, (hold y hy).1, (hold y hy).2.1, hidx_i, hidx_i']
      have h1 := (hold y hy).2.2.1
      have h2 := (hold y hy).2.2.2
      constructor <;> intro h <;> omega
    · have hxi : x = i := by simpa using hx
      have hyi : y = i := by simpa using hy
      rw [hxi, hyi]
      simp

theorem split_eq_labelLoop (g : Geometry) (m : Splitter) {p : Partition}
    (hp : partition m = some p) (hne : p.segments ≠ []) :
    split g m = labelLoop g m.mLabels p.segments := by
  have : p.segments.isEmpty = false := by
    cases hsegs : p.segments with
    | nil => exact absurd hsegs hne
    | cons _ _ => rfl
  simp [split, hp, assignLabels, this]

theorem split_eq_nil (g : Geometry) (m : Splitter) {p : Partition}
    (hp : partition m = some p) (hnil : p.segments = []) : split g m = some [] := by
  simp [split, hp, assignLabels, hnil]

/-- The label loop keeps the labels of every segment in the order in which it
meets them: with the labels so far sublists of `done`, the labels afterwards are
sublists of `done` followed by the labels processed. -/
theorem labelLoop_sublist (g : Geometry) :
    ∀ (labels : List NetLabel) (segs : List Segment) (done : List NetLabel), segs ≠ [] →
      (∀ s ∈ segs, s.labels.Sublist done) →
      ∃ segs', labelLoop g labels segs = some segs' ∧
        ∀ s' ∈ segs', s'.labels.Sublist (done ++ labels) := by
  intro labels
  induction labels with
  | nil =>
    intro segs done _ h
    exact ⟨segs, rfl, by simpa using h⟩
  | cons l0 rest ih =>
    intro segs done hne h
    obtain ⟨k, sk, hk, hadd, _, _⟩ := addNetLabel_spec g l0 segs hne
    have hne1 : segs.set k (sk.withLabel l0) ≠ [] := by
      intro h
      exact hne (by simpa using h)
    have h1 : ∀ s ∈ segs.set k (sk.withLabel l0), s.labels.Sublist (done ++ [l0]) := by
      intro s hs
      rcases List.mem_or_eq_of_mem_set hs with hs | rfl
      · exact (h s hs).trans (List.sublist_append_left _ _)
      · exact List.Sublist.append (h sk (List.getElem?_mem hk)) (List.Sublist.refl _)
    obtain ⟨segs', hloop, hsub⟩ := ih (segs.set k (sk.withLabel l0)) (done ++ [l0]) hne1 h1
    refine ⟨segs', by simp [labelLoop, hadd, hloop], ?_⟩
    intro s' hs'
    have := hsub s' hs'
    simpa using this

/-- The label loop puts a label into the first of the nearest segments: every
segment of smaller index is strictly farther from a label added by the loop. -/
theorem labelLoop_first (g : Geometry) :
    ∀ (labels : List NetLabel) (segs : List Segment), segs ≠ [] →
      ∃ segs', labelLoop g labels segs = some segs' ∧
        ∀ (j : Nat) (s' : Segment), segs'[j]? = some s' → ∀ label ∈ s'.labels,
          (∃ s, segs[j]? = some s ∧ label ∈ s.labels) ∨
          (∀ (i : Nat) (t' : Segment), i < j → segs'[i]? = some t' →
            getDistanceBetweenNetLabelAndNetSegment g label s' <
              getDistanceBetweenNetLabelAndNetSegment g label t') := by
  intro labels
  induction labels with
  | nil =>
    intro segs _
    exact ⟨segs, rfl, fun j s' hs' label hl => Or.inl ⟨s', hs', hl⟩⟩
  | cons l0 rest ih =>
    intro segs hne
    obtain ⟨k, sk, hk, hadd, _, hfirst⟩ := addNetLabel_spec g l0 segs hne
    have hne1 : segs.set k (sk.withLabel l0) ≠ [] := by
      intro h
      exact hne (by simpa using h)
    obtain ⟨segs', hloop, hP⟩ := ih (segs.set k (sk.withLabel l0)) hne1
    obtain ⟨segs'', hloop', ha, hl, _, _⟩ := labelLoop_spec g rest (segs.set k (sk.withLabel l0)) hne1
    have hsame : segs'' = segs' := Option.some.inj (hloop'.symm.trans hloop)
    subst hsame
    have ha' : segs''.map Segment.anchors = segs.map Segment.anchors :=
      ha.trans (map_anchors_set l0 segs k sk hk)
    have hl' : segs''.map Segment.lines = segs.map Segment.lines :=
      hl.trans (map_lines_set l0 segs k sk hk)
    refine ⟨segs'', by simp [labelLoop, hadd, hloop], ?_⟩
    intro j s' hs' label hlab
    rcases hP j s' hs' label hlab with ⟨s1, hs1, hl1⟩ | hr
    · by_cases hj : k = j
      · subst hj
        have hklt : k < segs.length := by
          by_contra hge
          simp [List.getElem?_eq_none (not_lt.1 hge)] at hk
        rw [List.getElem?_set_self hklt] at hs1
        simp only [Option.some.injEq] at hs1
        subst hs1
        rcases List.mem_append.1 hl1 with h | h
        · exact Or.inl ⟨sk, hk, h⟩
        · right
          have hlab0 : label = l0 := by simpa using h
          subst hlab0
          intro i t' hik hi
          obtain ⟨t, ht⟩ := exists_at_index_of_map_anchors ha' hi
          rw [getDistance_at_index g label ha' hl' hk hs',
            getDistance_at_index g label ha' hl' ht hi]
          exact hfirst i t hik ht
      · rw [List.getElem?_set_ne hj] at hs1
        exact Or.inl ⟨s1, hs1, hl1⟩
    · exact Or.inr hr

/-- The labels of `split`: with at least one segment from the partition loop,
every label of a returned segment is at most as far from it as from any returned
segment and strictly nearer to it than to every segment of smaller index, and the
labels of a segment form a sublist of the stored labels. -/
theorem split_labels_spec (g : Geometry) (m : Splitter) (hM : AnchorIdsDistinct m.mAnchors) :
    ∃ segs, split g m = some segs ∧
      (∀ s ∈ segs, s.labels.Sublist m.mLabels) ∧
      (∀ (j : Nat) (s : Segment), segs[j]? = some s → ∀ label ∈ s.labels,
        (∀ t ∈ segs, getDistanceBetweenNetLabelAndNetSegment g label s ≤
          getDistanceBetweenNetLabelAndNetSegment g label t) ∧
        ∀ (i : Nat) (t : Segment), i < j → segs[i]? = some t →
          getDistanceBetweenNetLabelAndNetSegment g label s <
            getDistanceBetweenNetLabelAndNetSegment g label t) ∧
      (segs ≠ [] → (segs.map Segment.labels).flatten.Perm m.mLabels) := by
  obtain ⟨p, segs, hp, hs, _, _, ha, _, hempty, hlab⟩ := split_spec g m hM
  have hnil := partition_labels_nil m hp
  by_cases hne : p.segments = []
  · have := hempty hne
    subst this
    exact ⟨[], hs, by simp, by simp, fun h => absurd rfl h⟩
  · obtain ⟨hperm, hmin⟩ := hlab hne
    have heq := split_eq_labelLoop g m hp hne
    obtain ⟨segs1, hloop1, hsub⟩ := labelLoop_sublist g m.mLabels p.segments [] hne
      (fun s hs => by rw [hnil s hs])
    obtain ⟨segs2, hloop2, hfirst⟩ := labelLoop_first g m.mLabels p.segments hne
    have e1 : segs1 = segs := Option.some.inj (hloop1.symm.trans (heq.symm.trans hs))
    have e2 : segs2 = segs := Option.some.inj (hloop2.symm.trans (heq.symm.trans hs))
    subst e1
    subst e2
    refine ⟨segs2, hs, by simpa using hsub, ?_, fun _ => hperm⟩
    intro j s hj label hlabel
    refine ⟨hmin s (List.getElem?_mem hj) label hlabel, ?_⟩
    rcases hfirst j s hj label hlabel with ⟨s0, hs0, hl0⟩ | h
    · rw [hnil s0 (List.getElem?_mem hs0)] at hl0
      simp at hl0
    · exact h

theorem candidates_nonneg {g : Geometry} (hg : Metric g) (label : NetLabel) (s : Segment) :
    ∀ d ∈ s.anchors.map (anchorDistance g label) ++ s.lines.map (lineDistance g label s),
      0 ≤ d := by
  intro d hd
  rcases List.mem_append.1 hd with h | h
  · obtain ⟨a, _, rfl⟩ := List.mem_map.1 h
    exact hg.2.1 _ _
  · obtain ⟨l, _, rfl⟩ := List.mem_map.1 h
    exact hg.2.2 _ _ _

/-- With non-negative primitives every computed distance is non-negative. -/
theorem getDistance_nonneg {g : Geometry} (hg : Metric g) (label : NetLabel) (s : Segment) :
    0 ≤ getDistanceBetweenNetLabelAndNetSegment g label s := by
  unfold getDistanceBetweenNetLabelAndNetSegment
  rw [distanceLoops_eq_foldl]
  by_cases hne : s.anchors.map (anchorDistance g label) ++
      s.lines.map (lineDistance g label s) = []
  · rw [hne]; simp
  · obtain ⟨r, hr, hmem, _⟩ := foldl_nearer_min _ hne
    rw [hr]
    exact candidates_nonneg hg label s r hmem

/-- A label at the position of an anchor of the segment is at computed distance
zero from the segment. -/
theorem getDistance_on_anchor {g : Geometry} (hg : Metric g) (label : NetLabel) (s : Segment)
    {a : Anchor} (ha : a ∈ s.anchors) (hpos : a.position = label.position) :
    getDistanceBetweenNetLabelAndNetSegment g label s = 0 := by
  have hmemA : anchorDistance g label a ∈ s.anchors.map (anchorDistance g label) ++
      s.lines.map (lineDistance g label s) :=
    List.mem_append_left _ (List.mem_map_of_mem _ ha)
  have hne : s.anchors.map (anchorDistance g label) ++
      s.lines.map (lineDistance g label s) ≠ [] := List.ne_nil_of_mem hmemA
  obtain ⟨r, hr, hmem, hmin⟩ := foldl_nearer_min _ hne
  have hzero : anchorDistance g label a = 0 := by
    simp only [anchorDistance, hpos]
    exact hg.1 _
  have h1 : r ≤ 0 := hzero ▸ hmin _ hmemA
  have h2 : 0 ≤ r := candidates_nonneg hg label s r hmem
  unfold getDistanceBetweenNetLabelAndNetSegment
  rw [distanceLoops_eq_foldl, hr]
  exact le_antisymm h1 h2

/-- The taxicab stand-in is non-negative and zero from a point to itself. -/
theorem taxicab_metric : Metric taxicab := by
  refine ⟨?_, ?_, ?_⟩
  · intro p; simp [taxicab]
  · intro p q; simp only [taxicab]; positivity
  · intro p s e
    simp only [taxicab]
    exact le_min (by positivity) (by positivity)

theorem tPost_trans {m : Splitter} {w w1 w2 : Work} (h1 : TPost m w w1) (h2 : TPost m w1 w2)
    (hmono : ∀ x ∈ w1.connectedAnchors, x ∈ w2.connectedAnchors) : TPost m w w2 := by
  intro l hl
  rcases h2 l hl with h | h
  · rcases h1 l h with h' | ⟨hL, x, hx, ht⟩
    · exact Or.inl h'
    · exact Or.inr ⟨hL, x, hmono x hx, ht⟩
  · exact Or.inr h

/-- The lines collected by an execution are stored lines at collected anchors. -/
theorem touch_run (m : Splitter) :
    ∀ (pt : Pt) (w w' : Work), Run m pt w w' → TMot m pt w w' := by
  intro pt w w' h
  induction h with
  | @call a w w' _ ih =>
    obtain ⟨hmono, hpost⟩ := ih
    have ha : a ∈ (w.visit a).connectedAnchors := by simp [Work.visit]
    refine ⟨fun x hx => hmono x (by simp [Work.visit, hx]), hmono a ha, ?_⟩
    exact hpost ha (fun _ h => h)
  | lnil => exact ⟨fun _ h => h, fun _ _ l hl => Or.inl hl⟩
  | @lskip a l rest w w' _ _ ih =>
    exact ⟨ih.1, fun ha hrest => ih.2 ha (fun x hx => hrest x (List.mem_cons_of_mem _ hx))⟩
  | @ltake a l rest w w1 w' hg _ _ ih1 ih2 =>
    refine ⟨fun x hx => ih2.1 x (ih1.1 x hx), ?_⟩
    intro ha hrest
    have ht : Touches a.id l := by
      simp only [lineGuard, Bool.and_eq_true, Bool.or_eq_true, beq_iff_eq] at hg
      exact hg.1.1
    have ha1 : a ∈ w1.connectedAnchors := ih1.1 a ha
    have h2 := ih2.2 ha1 (fun x hx => hrest x (List.mem_cons_of_mem _ hx))
    have hc : TPost m w (w.consume l) := by
      intro l' hl'
      simp only [Work.consume, List.mem_append, List.mem_singleton] at hl'
      rcases hl' with h | rfl
      · exact Or.inl h
      · exact Or.inr ⟨hrest _ (List.mem_cons_self _ _), a, ha, ht⟩
    exact tPost_trans (tPost_trans hc ih1.2 ih1.1) h2 ih2.1
  | anil => exact ⟨fun _ h => h, fun l hl => Or.inl hl⟩
  | askip _ _ ih => exact ih
  | @atake o b rest w w1 w' _ _ _ ih1 ih2 =>
    exact ⟨fun x hx => ih2.1 x (ih1.1 x hx), tPost_trans ih1.2.2 ih2.2 ih2.1⟩

theorem PTouch_push {m : Splitter} {p : Partition} {first : Anchor} {w : Work}
    (hp : PTouch m p) (hrun : Run m (.call first) p.work w) : PTouch m (p.push w) := by
  intro s hs l hl
  simp only [Partition.push, List.mem_append, List.mem_singleton] at hs
  rcases hs with hs | rfl
  · exact hp s hs l hl
  · rcases (touch_run m _ _ _ hrun).2.2 l hl with h | h
    · simp [Partition.work] at h
    · exact h

theorem touches_of_joined {m : Splitter} {x y : QVariant} (h : Joined m x y) (hne : x ≠ y) :
    ∃ l ∈ m.mLines, Touches y l := by
  cases h with
  | refl => exact absurd rfl hne
  | tail _ hadj =>
    obtain ⟨l, hl, h⟩ := hadj
    rcases h with ⟨_, h⟩ | ⟨h, _⟩
    · exact ⟨l, hl, Or.inr h⟩
    · exact ⟨l, hl, Or.inl h⟩

/-- No path of stored lines leads away from a lone anchor. -/
theorem joined_lone {m : Splitter} {a : Anchor} (ha : Lone m a) {y : QVariant}
    (h : Joined m a.id y) : y = a.id := by
  induction h with
  | refl => rfl
  | tail _ hadj ih =>
    obtain ⟨l, hl, h⟩ := hadj
    rcases h with ⟨h1, h2⟩ | ⟨h1, h2⟩
    · rw [ih] at h1
      exact h2 ▸ (ha l hl (Or.inl h1)).2
    · rw [ih] at h2
      exact h1 ▸ (ha l hl (Or.inr h2)).1

theorem PLone_push {m : Splitter} (hM : AnchorIdsDistinct m.mAnchors) {p : Partition}
    {first : Anchor} {rest : List Anchor} {w : Work} (hp : PAInv m p ∧ PLone m p)
    (ha : p.availableAnchors = first :: rest) (hrun : Run m (.call first) p.work w) :
    PLone m (p.push w) := by
  obtain ⟨hpa, hlone⟩ := hp
  obtain ⟨newA, hc, hperm, _⟩ := run_first hM hpa.1 ha hrun
  have hjoin : ∀ x ∈ w.connectedAnchors, Joined m first.id x.id := by
    intro x hx
    rcases joined_run m _ _ _ hrun x hx with h | h
    · simp [Partition.work] at h
    · exact h
  have hnd : (first :: newA ++ w.availableAnchors).Nodup :=
    hperm.nodup_iff.1 (anchorIdsDistinct_nodup (anchorIdsDistinct_sublist hM hpa.1))
  have hconnM : ∀ x ∈ w.connectedAnchors, x ∈ m.mAnchors := by
    intro x hx
    rw [hc] at hx
    exact hpa.1.subset (hperm.symm.subset (List.mem_append_left _ hx))
  intro a haM hl
  rcases hlone a haM hl with hav | ⟨s, hs, hsa⟩
  · have hsplit := hperm.subset hav
    rw [← hc] at hsplit
    rcases List.mem_append.1 hsplit with hconn | hav'
    · right
      refine ⟨⟨w.connectedAnchors, w.connectedLines, []⟩, by simp [Partition.push], ?_⟩
      have hid : first.id = a.id := joined_lone hl (joined_symm (hjoin a hconn))
      have hfa : first = a := eq_of_id_eq hM (hpa.1.subset (ha ▸ List.mem_cons_self _ _)) haM hid
      have hnew : newA = [] := by
        apply List.eq_nil_iff_forall_not_mem.2
        intro x hx
        have hxc : x ∈ w.connectedAnchors := by rw [hc]; exact List.mem_cons_of_mem _ hx
        have hxid : x.id = a.id := joined_lone hl (hid ▸ hjoin x hxc)
        have hxa : x = first := hfa ▸ eq_of_id_eq hM (hconnM x hxc) haM hxid
        have hnd' := (List.nodup_append.1 hnd).1
        rw [List.nodup_cons] at hnd'
        exact hnd'.1 (hxa ▸ hx)
      show w.connectedAnchors = [a]
      rw [hc, hnew, hfa]
    · exact Or.inl hav'
  · exact Or.inr ⟨s, by simp [Partition.push, hs], hsa⟩

/-- When the partition loop ends, every lone stored anchor is a segment of its
own, and the lines of every segment are stored lines at its anchors. -/
theorem partition_lone (m : Splitter) (hM : AnchorIdsDistinct m.mAnchors) {p : Partition}
    (hp : partition m = some p) :
    PTouch m p ∧ ∀ a ∈ m.mAnchors, Lone m a → ∃ s ∈ p.segments, s.anchors = [a] := by
  have h0 : (PAInv m ⟨[], m.mAnchors, m.mLines⟩ ∧ PLone m ⟨[], m.mAnchors, m.mLines⟩) ∧
      PTouch m ⟨[], m.mAnchors, m.mLines⟩ := by
    refine ⟨⟨⟨List.Sublist.refl _, by simp [Partition.anchorLists]⟩, ?_⟩, ?_⟩
    · intro a ha _
      exact Or.inl ha
    · intro s hs
      simp at hs
  obtain ⟨⟨⟨_, hlone⟩, htouch⟩, hnil⟩ := partitionLoop_induct m
    (fun p => (PAInv m p ∧ PLone m p) ∧ PTouch m p)
    (fun p first rest w hp ha hrun =>
      ⟨⟨PAInv_push hM hp.1.1 ha hrun, PLone_push hM hp.1 ha hrun⟩, PTouch_push hp.2 hrun⟩)
    _ _ _ h0 hp
  refine ⟨htouch, ?_⟩
  intro a ha hl
  rcases hlone a ha hl with h | h
  · rw [hnil] at h; simp at h
  · exact h

/-- One call of `findConnectedElements` from the `while` loop, with distinct
identities: the lines split into the new segment and the rest, all lines at the
collected anchors are consumed, both ends of consumed lines are visited. -/
theorem run_lines_first {m : Splitter} (hM : AnchorIdsDistinct m.mAnchors)
    (hL : LineIdsDistinct m.mLines) {p : Partition} {first : Anchor} {rest : List Anchor}
    {w : Work} (hp : PSettled m p) (ha : p.availableAnchors = first :: rest)
    (hrun : Run m (.call first) p.work w) :
    LInv m w ∧ Settled m w ∧ p.availableLines.Perm (w.connectedLines ++ w.availableLines) ∧
      ∀ x ∈ w.connectedAnchors, Done m w x.id := by
  have hw0 : LInv m p.work :=
    ⟨hp.1.1, hp.2.1, by simp [Partition.work], by simp [Partition.work]⟩
  have hfirst : first ∈ p.work.availableAnchors := by simp [Partition.work, ha]
  obtain ⟨⟨hw, _, ⟨newL, hcl, hpl, _⟩, hdone⟩, hset⟩ :=
    lines_run m hM hL _ _ _ hrun hw0 hfirst (settled_but hp.2.2 _)
  have hcl' : w.connectedLines = newL := by simpa [Partition.work] using hcl
  refine ⟨hw, hset, by rw [hcl']; exact hpl, ?_⟩
  intro x hx
  rcases hdone x hx with h | h
  · simp [Partition.work] at h
  · exact h

theorem PSettled_push {m : Splitter} (hM : AnchorIdsDistinct m.mAnchors)
    (hL : LineIdsDistinct m.mLines) {p : Partition} {first : Anchor} {rest : List Anchor}
    {w : Work} (hp : PSettled m p) (ha : p.availableAnchors = first :: rest)
    (hrun : Run m (.call first) p.work w) : PSettled m (p.push w) := by
  obtain ⟨hw, hset, _, _⟩ := run_lines_first hM hL hp ha hrun
  exact ⟨PAInv_push hM hp.1 ha hrun, hw.2.1, hset⟩

theorem POwn_push {m : Splitter} (hM : AnchorIdsDistinct m.mAnchors)
    (hL : LineIdsDistinct m.mLines) {p : Partition} {first : Anchor} {rest : List Anchor}
    {w : Work} {a : Anchor} {l : NetLine} (hl : l ∈ m.mLines) (hown : Owns m a l)
    (hp : PSettled m p) (ho : POwn a l p) (ha : p.availableAnchors = first :: rest)
    (hrun : Run m (.call first) p.work w) : POwn a l (p.push w) := by
  obtain ⟨_, _, hpl, hdone⟩ := run_lines_first hM hL hp ha hrun
  obtain ⟨newA, hc, hperm, _⟩ := run_first hM hp.1.1 ha hrun
  have hperm' : p.availableAnchors.Perm (w.connectedAnchors ++ w.availableAnchors) := by
    rw [hc]; exact hperm
  have hnd : (w.connectedAnchors ++ w.availableAnchors).Nodup :=
    hperm'.nodup_iff.1 (anchorIdsDistinct_nodup (anchorIdsDistinct_sublist hM hp.1.1))
  rcases ho with ⟨hav, hlav⟩ | ⟨s, hs, h⟩
  · rcases List.mem_append.1 (hperm'.subset hav) with hconn | hav'
    · right
      refine ⟨⟨w.connectedAnchors, w.connectedLines, []⟩, by simp [Partition.push], hconn, ?_⟩
      rcases List.mem_append.1 (hpl.subset hlav) with h | h
      · exact h
      · exact absurd h (hdone a hconn l hl hown.1)
    · left
      refine ⟨hav', ?_⟩
      rcases List.mem_append.1 (hpl.subset hlav) with h | h
      · exfalso
        rcases (touch_run m _ _ _ hrun).2.2 l h with h' | ⟨_, x, hx, ht⟩
        · simp [Partition.work] at h'
        · have hxM : x ∈ m.mAnchors := hp.1.1.subset (hperm'.symm.subset (List.mem_append_left _ hx))
          have hxa : x = a := hown.2 x hxM ht
          exact (List.nodup_append.1 hnd).2.2 (hxa ▸ hx) hav'
      · exact h
  · exact Or.inr ⟨s, by simp [Partition.push, hs], h⟩

/-- With distinct identities, a stored line that touches only one stored anchor
ends up in the segment of that anchor. -/
theorem partition_owned (m : Splitter) (hM : AnchorIdsDistinct m.mAnchors)
    (hL : LineIdsDistinct m.mLines) {p : Partition} (hp : partition m = some p)
    {a : Anchor} {l : NetLine} (ha : a ∈ m.mAnchors) (hl : l ∈ m.mLines) (hown : Owns m a l) :
    ∃ s ∈ p.segments, a ∈ s.anchors ∧ l ∈ s.lines := by
  have h0 : PSettled m ⟨[], m.mAnchors, m.mLines⟩ ∧ POwn a l ⟨[], m.mAnchors, m.mLines⟩ := by
    refine ⟨⟨⟨List.Sublist.refl _, by simp [Partition.anchorLists]⟩, List.Sublist.refl _, ?_⟩,
      Or.inl ⟨ha, hl⟩⟩
    intro l' hl' hn
    exact absurd hl' hn
  obtain ⟨⟨_, hown'⟩, hnil⟩ := partitionLoop_induct m (fun p => PSettled m p ∧ POwn a l p)
    (fun p first rest w hp ha hrun =>
      ⟨PSettled_push hM hL hp.1 ha hrun, POwn_push hM hL hl hown hp.1 hp.2 ha hrun⟩)
    _ _ _ h0 hp
  rcases hown' with ⟨h, _⟩ | h
  · rw [hnil] at h; simp at h
  · exact h

theorem removeOneAnchor_id_not_mem {l : List Anchor} (hl : AnchorIdsDistinct l) (a : Anchor) :
    a.id ∉ (removeOneAnchor l a).map Anchor.id := by
  induction l with
  | nil => simp [removeOneAnchor]
  | cons b bs ih =>
    have hbs : AnchorIdsDistinct bs := anchorIdsDistinct_sublist hl (List.sublist_cons_self _ _)
    unfold AnchorIdsDistinct at hl
    rw [List.map_cons, List.nodup_cons] at hl
    by_cases hba : b.id = a.id
    · simp only [removeOneAnchor, Anchor.eqv, hba, beq_self_eq_true, if_true]
      exact hba ▸ hl.1
    · simp only [removeOneAnchor, Anchor.eqv, beq_iff_eq, hba, if_false, List.map_cons,
        List.mem_cons, not_or]
      exact ⟨fun e => hba e.symm, ih hbs⟩

/-- The inner loop for an identity that is not available calls nothing and
changes nothing, whatever the recursive call is. -/
theorem anchorLoop_not_available (rec : Anchor → Work → Option Work) (o : QVariant) :
    ∀ (as : List Anchor) (w : Work), o ∉ w.availableAnchors.map Anchor.id →
      anchorLoop rec o as w = some w := by
  intro as
  induction as with
  | nil => intro w _; rfl
  | cons b rest ih =>
    intro w ho
    have hg : anchorGuard o b w = false := by
      by_cases hb : b.id = o
      · have : containsAnchor w.availableAnchors b = false := by
          by_contra hc
          have hc' : containsAnchor w.availableAnchors b = true := by simpa using hc
          exact ho (hb ▸ (containsAnchor_iff _ _).1 hc')
        simp [anchorGuard, this]
      · simp [anchorGuard, hb]
    unfold anchorLoop
    simp only [hg, Bool.false_eq_true, if_false]
    exact ih w ho

/-- The segments of `split` as connected components, for a model with distinct
identities and stored line ends: a stored anchor is in a segment exactly when a
path joins it to an anchor of the segment, and a stored line is in a segment exactly
when it starts at an anchor of the segment. -/
theorem split_components (g : Geometry) (m : Splitter) (hM : AnchorIdsDistinct m.mAnchors)
    (hL : LineIdsDistinct m.mLines) (hE : EndpointsStored m) :
    ∃ p segs, partition m = some p ∧ split g m = some segs ∧
      segs.map Segment.anchors = p.anchorLists ∧
      (segs.map Segment.anchors).flatten.Perm m.mAnchors ∧
      (segs.map Segment.lines).flatten.Perm m.mLines ∧
      (∀ s ∈ segs, s.anchors ≠ []) ∧
      (∀ s ∈ segs, ∀ x ∈ s.anchors, ∀ y ∈ m.mAnchors,
        (y ∈ s.anchors ↔ Joined m x.id y.id)) ∧
      (∀ s ∈ segs, ∀ l ∈ m.mLines, (l ∈ s.lines ↔ l.startAnchor ∈ s.anchors.map Anchor.id)) := by
  obtain ⟨p, segs, hp, hs, _, _, _, hpa, hpl, hall, hjoin⟩ := split_lines_spec g m hM hL hE
  obtain ⟨p', segs', hp', hs', _, _, ha, _⟩ := split_spec g m hM
  have hpp : p' = p := Option.some.inj (hp'.symm.trans hp)
  have hss : segs' = segs := Option.some.inj (hs'.symm.trans hs)
  subst hpp hss
  obtain ⟨segs2, hs2, _, hne, hloc⟩ := split_locality g m hM hL hE
  have hss2 : segs2 = segs' := Option.some.inj (hs2.symm.trans hs)
  subst hss2
  have hnd := ids_flatten_nodup hM hpa
  have hclosed : ∀ s ∈ segs2, ∀ u v, Adjacent m u v →
      u ∈ s.anchors.map Anchor.id → v ∈ s.anchors.map Anchor.id := by
    intro s hs u v ⟨l, hl, huv⟩ hu
    obtain ⟨s2, hs2, _, h1, h2⟩ := hall l hl
    rcases huv with ⟨rfl, rfl⟩ | ⟨rfl, rfl⟩
    · have : s = s2 := same_of_flatten_nodup (fun s => s.anchors.map Anchor.id) hnd hs hs2 hu h1
      rw [this]; exact h2
    · have : s = s2 := same_of_flatten_nodup (fun s => s.anchors.map Anchor.id) hnd hs hs2 hu h2
      rw [this]; exact h1
  refine ⟨p', segs2, hp, hs, ha, hpa, hpl, hne, ?_, ?_⟩
  · intro s hsmem x hx y hy
    constructor
    · intro hys
      exact hjoin s hsmem x hx y hys
    · intro hj
      have hreach : ∀ u v, Joined m u v → u ∈ s.anchors.map Anchor.id →
          v ∈ s.anchors.map Anchor.id := by
        intro u v huv hu
        induction huv with
        | refl => exact hu
        | tail _ hadj ih => exact hclosed s hsmem _ _ hadj ih
      obtain ⟨c, hc, hcy⟩ := List.mem_map.1 (hreach _ _ hj (List.mem_map_of_mem _ hx))
      have hcM : c ∈ m.mAnchors :=
        hpa.subset (List.mem_flatten.2 ⟨s.anchors, List.mem_map_of_mem _ hsmem, hc⟩)
      exact eq_of_id_eq hM hcM hy hcy ▸ hc
  · intro s hsmem l hl
    constructor
    · intro hls
      exact (hloc s hsmem l hls).1
    · intro hstart
      obtain ⟨s2, hs2, hl2, h1, _⟩ := hall l hl
      have : s = s2 := same_of_flatten_nodup (fun s => s.anchors.map Anchor.id) hnd hsmem hs2
        hstart h1
      rw [this]; exact hl2

theorem joined_congr {m1 m2 : Splitter} (h : ∀ l, l ∈ m1.mLines → l ∈ m2.mLines)
    {x y : QVariant} (hj : Joined m1 x y) : Joined m2 x y := by
  refine Relation.ReflTransGen.mono ?_ hj
  rintro a b ⟨l, hl, hab⟩
  exact ⟨l, h l hl, hab⟩

/-- Two lists of anchor lists that are canonical for the same stored anchors and
relation agree list by list in their members. -/
theorem canonical_unique {M : List Anchor} {J : QVariant → QVariant → Prop} :
    ∀ (A1 A2 : List (List Anchor)) (d1 d2 : List Anchor),
      Canonical M J d1 A1 → Canonical M J d2 A2 → (∀ a ∈ M, (a ∈ d1 ↔ a ∈ d2)) →
      List.Forall₂ (fun s1 s2 => ∀ y, y ∈ s1 ↔ y ∈ s2) A1 A2 := by
  intro A1
  induction A1 with
  | nil =>
    intro A2 d1 d2 h1 h2 hd
    cases A2 with
    | nil => exact List.Forall₂.nil
    | cons s2 r2 =>
      exfalso
      obtain ⟨⟨seed, tail, _, hhead, _, _⟩, _⟩ := h2
      have hmem := List.mem_filter.1 (List.mem_of_mem_head? hhead)
      have : seed ∈ d2 := (hd seed hmem.1).1 (h1 seed hmem.1)
      simpa [this] using hmem.2
  | cons s1 r1 ih =>
    intro A2 d1 d2 h1 h2 hd
    cases A2 with
    | nil =>
      exfalso
      obtain ⟨⟨seed, tail, _, hhead, _, _⟩, _⟩ := h1
      have hmem := List.mem_filter.1 (List.mem_of_mem_head? hhead)
      have : seed ∈ d1 := (hd seed hmem.1).2 (h2 seed hmem.1)
      simpa [this] using hmem.2
    | cons s2 r2 =>
      obtain ⟨⟨seed1, tail1, hs1, hhead1, hM1, hJ1⟩, hrest1⟩ := h1
      obtain ⟨⟨seed2, tail2, hs2, hhead2, hM2, hJ2⟩, hrest2⟩ := h2
      have hfilter : M.filter (fun a => decide (a ∉ d1)) = M.filter (fun a => decide (a ∉ d2)) := by
        apply List.filter_congr
        intro a ha
        simp [hd a ha]
      have hseed : seed1 = seed2 := by
        rw [hfilter, hhead2] at hhead1
        exact (Option.some.inj hhead1).symm
      have hsame : ∀ y, y ∈ s1 ↔ y ∈ s2 := by
        intro y
        constructor
        · intro hy
          exact (hJ2 y (hM1 y hy)).2 (hseed ▸ (hJ1 y (hM1 y hy)).1 hy)
        · intro hy
          exact (hJ1 y (hM2 y hy)).2 (hseed ▸ (hJ2 y (hM2 y hy)).1 hy)
      refine List.Forall₂.cons hsame (ih r2 (d1 ++ s1) (d2 ++ s2) hrest1 hrest2 ?_)
      intro a ha
      simp only [List.mem_append, hd a ha, hsame a]

theorem canonical_of_seeds {M : List Anchor} {J : QVariant → QVariant → Prop}
    {AL : List (List Anchor)} (hperm : AL.flatten.Perm M)
    (hseed : ∀ (pre : List (List Anchor)) (s : List Anchor) (post : List (List Anchor)),
      AL = pre ++ s :: post → ∃ seed rest, s = seed :: rest ∧
        (M.filter (fun a => decide (a ∉ pre.flatten))).head? = some seed ∧
        ∀ a ∈ s, a ∈ M.filter (fun a => decide (a ∉ pre.flatten)))
    (hcomp : ∀ s ∈ AL, ∀ x ∈ s, ∀ y ∈ M, (y ∈ s ↔ J x.id y.id)) :
    ∀ (suffix pre : List (List Anchor)), AL = pre ++ suffix →
      Canonical M J pre.flatten suffix := by
  intro suffix
  induction suffix with
  | nil =>
    intro pre h a ha
    rw [List.append_nil] at h
    rw [← h]
    exact hperm.symm.subset ha
  | cons s rest ih =>
    intro pre h
    obtain ⟨seed, tail, hs, hhead, hall⟩ := hseed pre s rest h
    have hsAL : s ∈ AL := by rw [h]; simp
    refine ⟨⟨seed, tail, hs, hhead, fun y hy => (List.mem_filter.1 (hall y hy)).1, ?_⟩, ?_⟩
    · intro y hy
      exact hcomp s hsAL seed (by rw [hs]; exact List.mem_cons_self _ _) y hy
    · have := ih (pre ++ [s]) (by rw [h]; simp)
      simpa using this

theorem forall2_at_index {α β : Type} {R : α → β → Prop} {l1 : List α} {l2 : List β}
    (h : List.Forall₂ R l1 l2) :
    ∀ (k : Nat) (a : α) (b : β), l1[k]? = some a → l2[k]? = some b → R a b := by
  induction h with
  | nil => intro k a b h1; simp at h1
  | cons hab _ ih =>
    intro k a b h1 h2
    cases k with
    | zero =>
      simp only [List.getElem?_cons_zero, Option.some.injEq] at h1 h2
      exact h1 ▸ h2 ▸ hab
    | succ k =>
      simp only [List.getElem?_cons_succ] at h1 h2
      exact ih k a b h1 h2

/-- The anchor lists of the segments of `split` are canonical for the stored
anchors and the paths of stored lines. -/
theorem split_canonical (g : Geometry) (m : Splitter) (hM : AnchorIdsDistinct m.mAnchors)
    (hL : LineIdsDistinct m.mLines) (hE : EndpointsStored m) :
    ∃ segs, split g m = some segs ∧
      Canonical m.mAnchors (Joined m) [] (segs.map Segment.anchors) ∧
      (segs.map Segment.anchors).flatten.Nodup ∧ (segs.map Segment.lines).flatten.Nodup ∧
      (∀ s ∈ segs, ∀ l, (l ∈ s.lines ↔ l ∈ m.mLines ∧
        l.startAnchor ∈ s.anchors.map Anchor.id)) := by
  obtain ⟨p, segs, hp, hs, ha, hpa, hpl, _, hcomp, hlines⟩ := split_components g m hM hL hE
  obtain ⟨_, hseed⟩ := partition_seeds m hM hp
  refine ⟨segs, hs, ?_, hpa.nodup_iff.2 (anchorIdsDistinct_nodup hM),
    hpl.nodup_iff.2 (lineIdsDistinct_nodup hL), ?_⟩
  · have hcomp' : ∀ s ∈ segs.map Segment.anchors, ∀ x ∈ s, ∀ y ∈ m.mAnchors,
        (y ∈ s ↔ Joined m x.id y.id) := by
      intro s hs
      obtain ⟨S, hS, rfl⟩ := List.mem_map.1 hs
      exact hcomp S hS
    have := canonical_of_seeds hpa (fun pre s post h => hseed pre s post (ha ▸ h)) hcomp'
      (segs.map Segment.anchors) [] rfl
    simpa using this
  · intro s hsmem l
    constructor
    · intro hl
      have hlL : l ∈ m.mLines :=
        hpl.subset (List.mem_flatten.2 ⟨s.lines, List.mem_map_of_mem _ hsmem, hl⟩)
      exact ⟨hlL, (hlines s hsmem l hlL).1 hl⟩
    · rintro ⟨hlL, hstart⟩
      exact (hlines s hsmem l hlL).2 hstart

theorem PRest_push {m : Splitter} (hM : AnchorIdsDistinct m.mAnchors)
    (hL : LineIdsDistinct m.mLines) {p : Partition} {first : Anchor} {rest : List Anchor}
    {w : Work} (hp : PSettled m p) (hr : PRest m p) (ha : p.availableAnchors = first :: rest)
    (hrun : Run m (.call first) p.work w) : PRest m (p.push w) := by
  obtain ⟨hw, _, hpl, hdone⟩ := run_lines_first hM hL hp ha hrun
  obtain ⟨newA, hc, hperm, _⟩ := run_first hM hp.1.1 ha hrun
  constructor
  · rw [lineLists_push, List.flatten_append]
    simp only [List.flatten_cons, List.flatten_nil, List.append_nil, List.append_assoc]
    exact (List.Perm.append_left _ hpl.symm).trans hr.1
  · intro x hxM hxav l hl ht hmem
    by_cases hxp : x ∈ p.availableAnchors
    · have hx : x ∈ w.connectedAnchors := by
        rcases List.mem_append.1 (hperm.subset hxp) with h | h
        · rw [hc]; exact h
        · exact absurd h hxav
      exact hdone x hx l hl ht hmem
    · exact hr.2 x hxM hxp l hl ht (hpl.symm.subset (List.mem_append_right _ hmem))

/-- When the partition loop ends, with distinct identities: the lines of the
segments and the unconsumed lines together are the stored lines, a line is left
unconsumed exactly when no stored anchor is at either of its ends, and every line
of a segment is a stored line at an anchor of the segment. -/
theorem partition_rest (m : Splitter) (hM : AnchorIdsDistinct m.mAnchors)
    (hL : LineIdsDistinct m.mLines) {p : Partition} (hp : partition m = some p) :
    (p.lineLists.flatten ++ p.availableLines).Perm m.mLines ∧
      (∀ l ∈ p.availableLines, ∀ x ∈ m.mAnchors, ¬ Touches x.id l) ∧
      (∀ l ∈ m.mLines, (∀ x ∈ m.mAnchors, ¬ Touches x.id l) → l ∈ p.availableLines) := by
  have h0 : PSettled m ⟨[], m.mAnchors, m.mLines⟩ ∧ PRest m ⟨[], m.mAnchors, m.mLines⟩ := by
    refine ⟨⟨⟨List.Sublist.refl _, by simp [Partition.anchorLists]⟩, List.Sublist.refl _, ?_⟩,
      by simp [Partition.lineLists], ?_⟩
    · intro l' hl' hn
      exact absurd hl' hn
    · intro x hx hn
      exact absurd hx hn
  obtain ⟨⟨hset, hperm, hrest⟩, hnil⟩ := partitionLoop_induct m
    (fun p => PSettled m p ∧ PRest m p)
    (fun p first rest w hp ha hrun =>
      ⟨PSettled_push hM hL hp.1 ha hrun, PRest_push hM hL hp.1 hp.2 ha hrun⟩)
    _ _ _ h0 hp
  obtain ⟨htouch, _⟩ := partition_lone m hM hp
  obtain ⟨p', hp', _, hpa⟩ := partition_anchors m hM
  have hpp : p' = p := Option.some.inj (hp'.symm.trans hp)
  subst hpp
  refine ⟨hperm, ?_, ?_⟩
  · intro l hl x hx ht
    exact hrest x hx (by rw [hnil]; simp) l (hset.2.1.subset hl) ht hl
  · intro l hl hno
    rcases List.mem_append.1 (hperm.symm.subset hl) with h | h
    · exfalso
      obtain ⟨ll, hll, hmem⟩ := List.mem_flatten.1 h
      obtain ⟨s, hs, rfl⟩ := List.mem_map.1 hll
      obtain ⟨_, x, hx, ht⟩ := htouch s hs l hmem
      exact hno x (hpa.subset (List.mem_flatten.2 ⟨s.anchors, List.mem_map_of_mem _ hs, hx⟩)) ht
    · exact h

theorem addAnchor_lines (m : Splitter) (i : QVariant) (p : Point) :
    (m.addAnchor i p).mLines = m.mLines ∧ (m.addAnchor i p).mLabels = m.mLabels := by
  unfold Splitter.addAnchor
  by_cases hc : containsAnchor m.mAnchors ⟨i, p⟩ = true
  · simp [hc]
  · simp [hc]

theorem addAnchor_mem (m : Splitter) (i : QVariant) (p : Point) :
    (∀ a ∈ m.mAnchors, a ∈ (m.addAnchor i p).mAnchors) ∧
    (∀ a ∈ (m.addAnchor i p).mAnchors, a ∈ m.mAnchors ∨ a.id = i) ∧
    i ∈ (m.addAnchor i p).mAnchors.map Anchor.id := by
  unfold Splitter.addAnchor
  by_cases hc : containsAnchor m.mAnchors ⟨i, p⟩ = true
  · simp only [hc, Bool.not_true, Bool.false_eq_true, if_false]
    exact ⟨fun a h => h, fun a h => Or.inl h, (containsAnchor_iff _ ⟨i, p⟩).1 hc⟩
  · simp only [hc, Bool.not_false, if_true]
    refine ⟨fun a h => List.mem_append_left _ h, ?_, by simp⟩
    intro a ha
    rcases List.mem_append.1 ha with h | h
    · exact Or.inl h
    · right
      have : a = ⟨i, p⟩ := by simpa using h
      rw [this]

theorem addSelectedNetLine_wellFormed (netsegment : QVariant) (m : Splitter)
    (n : SINetLine) (ids : List QVariant) (h : WellFormed m ids) :
    WellFormed (addSelectedNetLine netsegment m n)
      (if n.netSegment != netsegment then ids else ids ++ [n.id]) := by
  unfold addSelectedNetLine
  by_cases hseg : (n.netSegment != netsegment) = true
  · simp only [hseg, if_true]
    exact h
  · simp only [hseg, Bool.false_eq_true, if_false]
    obtain ⟨hM, hE, hinc, hids⟩ := h
    have h1 := addAnchor_mem m n.startPoint.id n.startPoint.position
    have l1 := addAnchor_lines m n.startPoint.id n.startPoint.position
    have h2 := addAnchor_mem (m.addAnchor n.startPoint.id n.startPoint.position)
      n.endPoint.id n.endPoint.position
    have l2 := addAnchor_lines (m.addAnchor n.startPoint.id n.startPoint.position)
      n.endPoint.id n.endPoint.position
    have hM2 := addAnchor_anchorIdsDistinct _ n.endPoint.id n.endPoint.position
      (addAnchor_anchorIdsDistinct m n.startPoint.id n.startPoint.position hM)
    have hup : ∀ x, x ∈ m.mAnchors.map Anchor.id →
        x ∈ ((m.addAnchor n.startPoint.id n.startPoint.position).addAnchor n.endPoint.id
          n.endPoint.position).mAnchors.map Anchor.id := by
      intro x hx
      obtain ⟨a, ha, rfl⟩ := List.mem_map.1 hx
      exact List.mem_map_of_mem _ (h2.1 a (h1.1 a ha))
    have hstart : n.startPoint.id ∈
        ((m.addAnchor n.startPoint.id n.startPoint.position).addAnchor n.endPoint.id
          n.endPoint.position).mAnchors.map Anchor.id := by
      obtain ⟨a, ha, hid⟩ := List.mem_map.1 h1.2.2
      exact List.mem_map.2 ⟨a, h2.1 a ha, hid⟩
    refine ⟨hM2, ?_, ?_, ?_⟩
    · intro l hl
      simp only [Splitter.addNetLine, l2.1, l1.1, List.mem_append, List.mem_singleton] at hl
      rcases hl with hl | rfl
      · exact ⟨hup _ (hE l hl).1, hup _ (hE l hl).2⟩
      · exact ⟨hstart, h2.2.2⟩
    · intro a ha
      simp only [Splitter.addNetLine, l2.1, l1.1]
      rcases h2.2.1 a ha with ha1 | hid
      · rcases h1.2.1 a ha1 with ha0 | hid
        · obtain ⟨l, hl, ht⟩ := hinc a ha0
          exact ⟨l, List.mem_append_left _ hl, ht⟩
        · exact ⟨_, List.mem_append_right _ (List.mem_singleton_self _), Or.inl hid.symm⟩
      · exact ⟨_, List.mem_append_right _ (List.mem_singleton_self _), Or.inr hid.symm⟩
    · simp [Splitter.addNetLine, l2.1, l1.1, hids]

theorem foldl_netLines_wellFormed (netsegment : QVariant) (netlines : List SINetLine) :
    ∀ (m : Splitter) (ids : List QVariant), WellFormed m ids →
      WellFormed (netlines.foldl (addSelectedNetLine netsegment) m)
        (ids ++ (netlines.filter (fun n => n.netSegment == netsegment)).map SINetLine.id) := by
  induction netlines with
  | nil => intro m ids h; simpa using h
  | cons n rest ih =>
    intro m ids h
    have hstep := addSelectedNetLine_wellFormed netsegment m n ids h
    have := ih _ _ hstep
    by_cases hseg : n.netSegment = netsegment
    · simpa [List.filter_cons, hseg] using this
    · simpa [List.filter_cons, hseg] using this

theorem foldl_netLabels_anchors (netsegment : QVariant) (netlabels : List SINetLabel) :
    ∀ (m : Splitter), (netlabels.foldl (addSelectedNetLabel netsegment) m).mAnchors = m.mAnchors ∧
      (netlabels.foldl (addSelectedNetLabel netsegment) m).mLines = m.mLines := by
  induction netlabels with
  | nil => intro m; exact ⟨rfl, rfl⟩
  | cons b rest ih =>
    intro m
    have h := ih (addSelectedNetLabel netsegment m b)
    have hb : (addSelectedNetLabel netsegment m b).mAnchors = m.mAnchors ∧
        (addSelectedNetLabel netsegment m b).mLines = m.mLines := by
      unfold addSelectedNetLabel
      split <;> exact ⟨rfl, rfl⟩
    exact ⟨h.1.trans hb.1, h.2.trans hb.2⟩

/-- The splitter built by `generate` meets the precondition of `split`. -/
theorem generateSplitter_wellFormed (netsegment : QVariant) (netlines : List SINetLine)
    (netlabels : List SINetLabel) :
    WellFormed (generateSplitter netsegment netlines netlabels)
      ((netlines.filter (fun n => n.netSegment == netsegment)).map SINetLine.id) := by
  have h0 : WellFormed Splitter.new [] := by
    refine ⟨by simp [AnchorIdsDistinct, Splitter.new], ?_, ?_, rfl⟩
    · intro l hl; simp [Splitter.new] at hl
    · intro a ha; simp [Splitter.new] at ha
  have h1 := foldl_netLines_wellFormed netsegment netlines Splitter.new [] h0
  have h2 := foldl_netLabels_anchors netsegment netlabels
    (netlines.foldl (addSelectedNetLine netsegment) Splitter.new)
  obtain ⟨hM, hE, hinc, hids⟩ := h1
  unfold generateSplitter
  refine ⟨by rw [h2.1]; exact hM, ?_, ?_, by rw [h2.2]; simpa using hids⟩
  · intro l hl
    rw [h2.2] at hl
    rw [h2.1]
    exact hE l hl
  · intro a ha
    rw [h2.1] at ha
    rw [h2.2]
    exact hinc a ha

theorem containsAnchor_forget (l : List Anchor) (a : Anchor) :
    containsAnchor (l.map Anchor.forget) a.forget = containsAnchor l a := by
  induction l with
  | nil => rfl
  | cons b bs ih =>
    simp only [containsAnchor, List.map_cons, List.any_cons] at ih ⊢
    rw [ih]
    rfl

theorem removeOneAnchor_forget (l : List Anchor) (a : Anchor) :
    removeOneAnchor (l.map Anchor.forget) a.forget = (removeOneAnchor l a).map Anchor.forget := by
  induction l with
  | nil => rfl
  | cons b bs ih =>
    simp only [List.map_cons, removeOneAnchor]
    have : b.forget.eqv a.forget = b.eqv a := rfl
    rw [this]
    by_cases h : b.eqv a = true
    · simp [h]
    · simp [h, ih]

theorem visit_forget (w : Work) (a : Anchor) : (w.visit a).forget = w.forget.visit a.forget := by
  simp [Work.visit, Work.forget, removeOneAnchor_forget]

theorem consume_forget (w : Work) (l : NetLine) : (w.consume l).forget = w.forget.consume l :=
  rfl

theorem lineGuard_forget (a : Anchor) (l : NetLine) (w : Work) :
    lineGuard a.forget l w.forget = lineGuard a l w := rfl

theorem anchorGuard_forget (o : QVariant) (b : Anchor) (w : Work) :
    anchorGuard o b.forget w.forget = anchorGuard o b w := by
  simp only [anchorGuard, Work.forget, containsAnchor_forget]
  rfl

theorem anchorLoop_forget (rec1 rec2 : Anchor → Work → Option Work)
    (hrec : ∀ a w, rec2 a.forget w.forget = (rec1 a w).map Work.forget) (o : QVariant) :
    ∀ (l : List Anchor) (w : Work),
      anchorLoop rec2 o (l.map Anchor.forget) w.forget =
        (anchorLoop rec1 o l w).map Work.forget := by
  intro l
  induction l with
  | nil => intro w; rfl
  | cons b bs ih =>
    intro w
    simp only [List.map_cons, anchorLoop, anchorGuard_forget]
    by_cases hg : anchorGuard o b w = true
    · simp only [hg, if_true, hrec]
      cases h : rec1 b w with
      | none => rfl
      | some w1 => simpa using ih w1
    · simp only [hg, Bool.false_eq_true, if_false]
      exact ih w

theorem lineLoop_forget (mAnchors : List Anchor) (rec1 rec2 : Anchor → Work → Option Work)
    (hrec : ∀ a w, rec2 a.forget w.forget = (rec1 a w).map Work.forget) (a : Anchor) :
    ∀ (l : List NetLine) (w : Work),
      lineLoop (mAnchors.map Anchor.forget) rec2 a.forget l w.forget =
        (lineLoop mAnchors rec1 a l w).map Work.forget := by
  intro l
  induction l with
  | nil => intro w; rfl
  | cons b bs ih =>
    intro w
    simp only [lineLoop, lineGuard_forget]
    by_cases hg : lineGuard a b w = true
    · simp only [hg, if_true]
      have ho : otherAnchorId a.forget b = otherAnchorId a b := rfl
      rw [ho, ← consume_forget, anchorLoop_forget rec1 rec2 hrec]
      cases h : anchorLoop rec1 (otherAnchorId a b) mAnchors (w.consume b) with
      | none => rfl
      | some w1 => simpa using ih w1
    · simp only [hg, Bool.false_eq_true, if_false]
      exact ih w

/-- Forgetting positions and labels commutes with `findConnectedElements`. -/
theorem findConnectedElements_forget (m : Splitter) :
    ∀ (n : Nat) (a : Anchor) (w : Work),
      findConnectedElements m.forget n a.forget w.forget =
        (findConnectedElements m n a w).map Work.forget := by
  intro n
  induction n with
  | zero => intro a w; rfl
  | succ n ih =>
    intro a w
    simp only [findConnectedElements]
    rw [← visit_forget]
    exact lineLoop_forget m.mAnchors _ _ ih a m.mLines (w.visit a)

theorem partitionStep_forget (m : Splitter) (p : Partition) (first : Anchor) :
    partitionStep m.forget p.forget first.forget =
      (partitionStep m p first).map Partition.forget := by
  unfold partitionStep
  have h := findConnectedElements_forget m p.availableAnchors.length first
    ⟨p.availableAnchors, p.availableLines, [], []⟩
  have hw : (⟨p.availableAnchors, p.availableLines, [], []⟩ : Work).forget =
      ⟨p.forget.availableAnchors, p.forget.availableLines, [], []⟩ := rfl
  have hlen : p.forget.availableAnchors.length = p.availableAnchors.length := by
    simp [Partition.forget]
  rw [hw] at h
  rw [hlen, h]
  cases findConnectedElements m p.availableAnchors.length first
      ⟨p.availableAnchors, p.availableLines, [], []⟩ with
  | none => rfl
  | some w => simp [Partition.forget, Segment.forget, Work.forget]

/-- Forgetting positions and labels commutes with the partition loop. -/
theorem partitionLoop_forget (m : Splitter) :
    ∀ (n : Nat) (p : Partition),
      partitionLoop m.forget n p.forget = (partitionLoop m n p).map Partition.forget := by
  intro n
  induction n with
  | zero =>
    intro p
    cases ha : p.availableAnchors with
    | nil =>
      rw [partitionLoop_nil m 0 p ha, partitionLoop_nil m.forget 0 p.forget (by simp [Partition.forget, ha])]
      rfl
    | cons first rest =>
      unfold partitionLoop
      simp [Partition.forget, ha]
  | succ n ih =>
    intro p
    cases ha : p.availableAnchors with
    | nil =>
      rw [partitionLoop_nil m _ p ha, partitionLoop_nil m.forget _ p.forget (by simp [Partition.forget, ha])]
      rfl
    | cons first rest =>
      rw [partitionLoop_cons m n p first rest ha,
        partitionLoop_cons m.forget n p.forget first.forget (rest.map Anchor.forget)
          (by simp [Partition.forget, ha]),
        partitionStep_forget]
      cases partitionStep m p first with
      | none => rfl
      | some p1 => simpa using ih p1

theorem partition_forget (m : Splitter) :
    partition m.forget = (partition m).map Partition.forget := by
  unfold partition
  have h := partitionLoop_forget m m.mAnchors.length ⟨[], m.mAnchors, m.mLines⟩
  have hlen : m.forget.mAnchors.length = m.mAnchors.length := by simp [Splitter.forget]
  rw [hlen]
  exact h

theorem map_pair_congr {α β γ δ : Type} (f : α → β) (g : α → γ) (h : β → δ) :
    ∀ (l1 l2 : List α), l1.map f = l2.map f → l1.map g = l2.map g →
      l1.map (fun s => (h (f s), g s)) = l2.map (fun s => (h (f s), g s)) := by
  intro l1
  induction l1 with
  | nil =>
    intro l2 h1 _
    cases l2 with
    | nil => rfl
    | cons b bs => simp at h1
  | cons a as ih =>
    intro l2 h1 h2
    cases l2 with
    | nil => simp at h1
    | cons b bs =>
      simp only [List.map_cons, List.cons.injEq] at h1 h2 ⊢
      exact ⟨by rw [h1.1, h2.1], ih bs h1.2 h2.2⟩

/-- Two models with the same anchor identities and the same lines are
partitioned into the same identities and lines, whatever their positions and
labels. -/
theorem split_topology (g1 g2 : Geometry) (m1 m2 : Splitter)
    (hM1 : AnchorIdsDistinct m1.mAnchors) (hM2 : AnchorIdsDistinct m2.mAnchors)
    (hA : m1.mAnchors.map Anchor.id = m2.mAnchors.map Anchor.id)
    (hLn : m1.mLines = m2.mLines) :
    ∃ segs1 segs2, split g1 m1 = some segs1 ∧ split g2 m2 = some segs2 ∧
      segs1.map (fun s => (s.anchors.map Anchor.id, s.lines)) =
        segs2.map (fun s => (s.anchors.map Anchor.id, s.lines)) := by
  obtain ⟨p1, segs1, hp1, hs1, _, _, ha1, hl1, _⟩ := split_spec g1 m1 hM1
  obtain ⟨p2, segs2, hp2, hs2, _, _, ha2, hl2, _⟩ := split_spec g2 m2 hM2
  refine ⟨segs1, segs2, hs1, hs2, ?_⟩
  have hf : m1.forget = m2.forget := by
    have hmap : ∀ l : List Anchor, l.map Anchor.forget =
        (l.map Anchor.id).map (fun i => (⟨i, Point.origin⟩ : Anchor)) := by
      intro l
      rw [List.map_map]
      rfl
    simp only [Splitter.forget, hmap, hA, hLn]
  have h1 := partition_forget m1
  have h2 := partition_forget m2
  rw [hp1] at h1
  rw [hp2, ← hf, h1] at h2
  have hpf : p1.forget = p2.forget := by simpa using h2
  have hsegs : p1.segments.map Segment.forget = p2.segments.map Segment.forget :=
    congrArg Partition.segments hpf
  have hF : ∀ l : List Segment, l.map (fun s => (s.anchors.map Anchor.id, s.lines)) =
      (l.map Segment.forget).map (fun s => (s.anchors.map Anchor.id, s.lines)) := by
    intro l
    rw [List.map_map]
    apply List.map_congr_left
    intro s _
    simp only [Function.comp, Segment.forget, List.map_map]
    rfl
  rw [map_pair_congr Segment.anchors Segment.lines (List.map Anchor.id) segs1 p1.segments ha1 hl1,
    map_pair_congr Segment.anchors Segment.lines (List.map Anchor.id) segs2 p2.segments ha2 hl2,
    hF p1.segments, hF p2.segments, hsegs]

theorem enter_work (t : Traced) (depth : Nat) (a : Anchor) :
    (t.enter depth a).work = t.work.visit a := rfl

theorem anchorLoopT_work (recT : Anchor → Traced → Option Traced)
    (rec : Anchor → Work → Option Work)
    (hrec : ∀ a t, (recT a t).map Traced.work = rec a t.work) (o : QVariant) :
    ∀ (l : List Anchor) (t : Traced),
      (anchorLoopT recT o l t).map Traced.work = anchorLoop rec o l t.work := by
  intro l
  induction l with
  | nil => intro t; rfl
  | cons b bs ih =>
    intro t
    simp only [anchorLoopT, anchorLoop]
    by_cases hg : anchorGuard o b t.work = true
    · simp only [hg, if_true, ← hrec]
      cases h : recT b t with
      | none => rfl
      | some t1 => simpa using ih t1
    · simp only [hg, Bool.false_eq_true, if_false]
      exact ih t

theorem lineLoopT_work (mAnchors : List Anchor) (recT : Anchor → Traced → Option Traced)
    (rec : Anchor → Work → Option Work)
    (hrec : ∀ a t, (recT a t).map Traced.work = rec a t.work) (a : Anchor) :
    ∀ (l : List NetLine) (t : Traced),
      (lineLoopT mAnchors recT a l t).map Traced.work = lineLoop mAnchors rec a l t.work := by
  intro l
  induction l with
  | nil => intro t; rfl
  | cons b bs ih =>
    intro t
    simp only [lineLoopT, lineLoop]
    by_cases hg : lineGuard a b t.work = true
    · simp only [hg, if_true]
      have h := anchorLoopT_work recT rec hrec (otherAnchorId a b) mAnchors (t.consume b)
      have hc : (t.consume b).work = t.work.consume b := rfl
      rw [hc] at h
      rw [← h]
      cases anchorLoopT recT (otherAnchorId a b) mAnchors (t.consume b) with
      | none => rfl
      | some t1 => simpa using ih t1
    · simp only [hg, Bool.false_eq_true, if_false]
      exact ih t

/-- Erasing the observations from `findConnectedElementsT` gives
`findConnectedElements`. -/
theorem findConnectedElementsT_work (m : Splitter) :
    ∀ (n depth : Nat) (a : Anchor) (t : Traced),
      (findConnectedElementsT m n depth a t).map Traced.work =
        findConnectedElements m n a t.work := by
  intro n
  induction n with
  | zero => intro depth a t; rfl
  | succ n ih =>
    intro depth a t
    simp only [findConnectedElementsT, findConnectedElements]
    rw [← enter_work t depth a]
    exact lineLoopT_work m.mAnchors _ _ (ih (depth + 1)) a m.mLines (t.enter depth a)

theorem logged_refl (lo hi : Nat) (t : Traced) : Logged lo hi t t :=
  ⟨[], by simp, by simp, by simp, id⟩

theorem logged_trans {lo hi : Nat} {t1 t2 t3 : Traced} (h12 : Logged lo hi t1 t2)
    (h23 : Logged lo hi t2 t3) : Logged lo hi t1 t3 := by
  obtain ⟨n1, he1, hc1, hb1, ha1⟩ := h12
  obtain ⟨n2, he2, hc2, hb2, ha2⟩ := h23
  refine ⟨n1 ++ n2, by rw [he2, he1, List.append_assoc],
    by rw [hc2, hc1, List.map_append, List.append_assoc], ?_, fun h => ha2 (ha1 h)⟩
  intro e he
  rcases List.mem_append.1 he with h | h
  · exact hb1 e h
  · exact hb2 e h

theorem logged_mono {lo hi lo' hi' : Nat} {t t' : Traced} (hlo : lo' ≤ lo) (hhi : hi ≤ hi')
    (h : Logged lo hi t t') : Logged lo' hi' t t' := by
  obtain ⟨n, he, hc, hb, ha⟩ := h
  exact ⟨n, he, hc, fun e hmem => ⟨le_trans hlo (hb e hmem).1, lt_of_lt_of_le (hb e hmem).2 hhi⟩,
    ha⟩

theorem anchorLoopT_logged {lo hi : Nat} (recT : Anchor → Traced → Option Traced)
    (hrec : ∀ a t t', recT a t = some t' → containsAnchor t.work.availableAnchors a = true →
      containsAnchor t.work.connectedAnchors a = false → Logged lo hi t t') (o : QVariant) :
    ∀ (l : List Anchor) (t t' : Traced), anchorLoopT recT o l t = some t' → Logged lo hi t t' := by
  intro l
  induction l with
  | nil =>
    intro t t' h
    simp only [anchorLoopT, Option.some.injEq] at h
    exact h ▸ logged_refl lo hi t
  | cons b bs ih =>
    intro t t' h
    simp only [anchorLoopT] at h
    by_cases hg : anchorGuard o b t.work = true
    · simp only [hg, if_true] at h
      cases hr : recT b t with
      | none => rw [hr] at h; simp at h
      | some t1 =>
        rw [hr] at h
        simp only [anchorGuard, Bool.and_eq_true, Bool.not_eq_true'] at hg
        exact logged_trans (hrec b t t1 hr hg.1.2 hg.2) (ih t1 t' h)
    · simp only [hg, Bool.false_eq_true, if_false] at h
      exact ih t t' h

theorem lineLoopT_logged {lo hi : Nat} (mAnchors : List Anchor)
    (recT : Anchor → Traced → Option Traced)
    (hrec : ∀ a t t', recT a t = some t' → containsAnchor t.work.availableAnchors a = true →
      containsAnchor t.work.connectedAnchors a = false → Logged lo hi t t') (a : Anchor) :
    ∀ (l : List NetLine) (t t' : Traced), lineLoopT mAnchors recT a l t = some t' →
      Logged lo hi t t' := by
  intro l
  induction l with
  | nil =>
    intro t t' h
    simp only [lineLoopT, Option.some.injEq] at h
    exact h ▸ logged_refl lo hi t
  | cons b bs ih =>
    intro t t' h
    simp only [lineLoopT] at h
    by_cases hg : lineGuard a b t.work = true
    · simp only [hg, if_true] at h
      cases hr : anchorLoopT recT (otherAnchorId a b) mAnchors (t.consume b) with
      | none => rw [hr] at h; simp at h
      | some t1 =>
        rw [hr] at h
        have h1 : Logged lo hi t (t.consume b) := ⟨[], by simp [Traced.consume],
          by simp [Traced.consume, Work.consume], by simp, id⟩
        exact logged_trans h1
          (logged_trans (anchorLoopT_logged recT hrec _ mAnchors _ t1 hr) (ih t1 t' h))
    · simp only [hg, Bool.false_eq_true, if_false] at h
      exact ih t t' h

/-- A call of `findConnectedElements` at depth `depth` with recursion bound `n`
whose anchor is available and not yet connected logs entries at depths from
`depth` up to, not including, `depth + n`, and fails no assertion. -/
theorem findConnectedElementsT_logged (m : Splitter) :
    ∀ (n depth : Nat) (a : Anchor) (t t' : Traced),
      findConnectedElementsT m n depth a t = some t' →
      containsAnchor t.work.availableAnchors a = true →
      containsAnchor t.work.connectedAnchors a = false →
      ∃ new : List (Nat × Anchor), t'.entered = t.entered ++ (depth, a) :: new ∧
        t'.work.connectedAnchors = t.work.connectedAnchors ++ a :: new.map Prod.snd ∧
        (∀ e ∈ new, depth < e.1 ∧ e.1 < depth + n) ∧ (t.asserted = true → t'.asserted = true) := by
  intro n
  induction n with
  | zero => intro depth a t t' h; simp [findConnectedElementsT] at h
  | succ n ih =>
    intro depth a t t' h ha hc
    simp only [findConnectedElementsT] at h
    have hrec : ∀ b u u', findConnectedElementsT m n (depth + 1) b u = some u' →
        containsAnchor u.work.availableAnchors b = true →
        containsAnchor u.work.connectedAnchors b = false →
        Logged (depth + 1) (depth + 1 + n) u u' := by
      intro b u u' hu hb1 hb2
      obtain ⟨new, he, hcn, hb, hass⟩ := ih (depth + 1) b u u' hu hb1 hb2
      refine ⟨(depth + 1, b) :: new, he, by simpa using hcn, ?_, hass⟩
      intro e hmem
      rcases List.mem_cons.1 hmem with h1 | h1
      · subst h1
        have : 0 < n := by
          cases n with
          | zero => simp [findConnectedElementsT] at hu
          | succ k => exact Nat.succ_pos k
        exact ⟨le_refl _, by simp only; omega⟩
      · have := hb e h1
        exact ⟨by omega, by omega⟩
    obtain ⟨new, he, hcn, hb, hass⟩ :=
      lineLoopT_logged m.mAnchors _ hrec a m.mLines (t.enter depth a) t' h
    refine ⟨new, by rw [he]; simp [Traced.enter], by rw [hcn]; simp [Traced.enter], ?_, ?_⟩
    · intro e hmem
      have := hb e hmem
      exact ⟨by omega, by omega⟩
    · intro hta
      apply hass
      simp [Traced.enter, hta, ha, hc]

theorem partitionStepT_state (m : Splitter) (p : PartitionT) (first : Anchor) :
    (partitionStepT m p first).map PartitionT.state = partitionStep m p.state first := by
  unfold partitionStepT partitionStep
  have h := findConnectedElementsT_work m p.state.availableAnchors.length 1 first
    ⟨⟨p.state.availableAnchors, p.state.availableLines, [], []⟩, p.entered, p.asserted⟩
  simp only at h
  rw [← h]
  cases findConnectedElementsT m p.state.availableAnchors.length 1 first
    ⟨⟨p.state.availableAnchors, p.state.availableLines, [], []⟩, p.entered, p.asserted⟩ with
  | none => rfl
  | some t => rfl

theorem partitionLoopT_nil (m : Splitter) (n : Nat) (p : PartitionT)
    (h : p.state.availableAnchors = []) : partitionLoopT m n p = some p := by
  unfold partitionLoopT
  simp [h]

theorem partitionLoopT_cons (m : Splitter) (n : Nat) (p : PartitionT) (first : Anchor)
    (rest : List Anchor) (h : p.state.availableAnchors = first :: rest) :
    partitionLoopT m (n + 1) p = (partitionStepT m p first).bind (partitionLoopT m n) := by
  rw [partitionLoopT]
  simp only [h]
  cases partitionStepT m p first <;> rfl

/-- Erasing the observations from the observed partition loop gives the
partition loop. -/
theorem partitionLoopT_state (m : Splitter) :
    ∀ (n : Nat) (p : PartitionT),
      (partitionLoopT m n p).map PartitionT.state = partitionLoop m n p.state := by
  intro n
  induction n with
  | zero =>
    intro p
    cases ha : p.state.availableAnchors with
    | nil => rw [partitionLoopT_nil m 0 p ha, partitionLoop_nil m 0 p.state ha]; rfl
    | cons first rest =>
      unfold partitionLoopT partitionLoop
      simp [ha]
  | succ n ih =>
    intro p
    cases ha : p.state.availableAnchors with
    | nil => rw [partitionLoopT_nil m _ p ha, partitionLoop_nil m _ p.state ha]; rfl
    | cons first rest =>
      rw [partitionLoopT_cons m n p first rest ha, partitionLoop_cons m n p.state first rest ha,
        ← partitionStepT_state]
      cases partitionStepT m p first with
      | none => rfl
      | some p1 => simpa using ih p1

theorem partitionT_state (m : Splitter) :
    (partitionT m).map PartitionT.state = partition m :=
  partitionLoopT_state m m.mAnchors.length ⟨⟨[], m.mAnchors, m.mLines⟩, [], true⟩

theorem partitionStepT_inv {m : Splitter} (hM : AnchorIdsDistinct m.mAnchors)
    {p p1 : PartitionT} {first : Anchor} {rest : List Anchor} (hp : PAInv m p.state)
    (ht : TInv m p) (ha : p.state.availableAnchors = first :: rest)
    (h : partitionStepT m p first = some p1) : PAInv m p1.state ∧ TInv m p1 := by
  unfold partitionStepT at h
  cases hf : findConnectedElementsT m p.state.availableAnchors.length 1 first
      ⟨⟨p.state.availableAnchors, p.state.availableLines, [], []⟩, p.entered, p.asserted⟩ with
  | none => rw [hf] at h; simp at h
  | some t =>
    rw [hf] at h
    simp only [Option.some.injEq] at h
    subst h
    have hw := findConnectedElementsT_work m p.state.availableAnchors.length 1 first
      ⟨⟨p.state.availableAnchors, p.state.availableLines, [], []⟩, p.entered, p.asserted⟩
    rw [hf] at hw
    have hrun : Run m (.call first) p.state.work t.work :=
      run_of_findConnectedElements m _ _ _ _ hw.symm
    have hpa := PAInv_push hM hp ha hrun
    obtain ⟨new, he, hc, hb, hass⟩ := findConnectedElementsT_logged m _ 1 first _ t hf
      (by
        show containsAnchor p.state.availableAnchors first = true
        rw [containsAnchor_iff, ha]
        simp)
      (by simp [containsAnchor])
    simp only [List.nil_append] at he hc
    have hlen : p.state.availableAnchors.length ≤ m.mAnchors.length := hp.1.length_le
    obtain ⟨h1, h2, h3, h4⟩ := ht
    refine ⟨hpa, hass h1, ?_, ?_, ?_⟩
    · show t.entered.map Prod.snd = (p.state.push t.work).anchorLists.flatten
      rw [anchorLists_push, he, hc, List.map_append, h2]
      simp
    · intro e hmem
      have hmem' : e ∈ p.entered ++ (1, first) :: new := he ▸ hmem
      rcases List.mem_append.1 hmem' with hm | hm
      · exact h3 e hm
      · rcases List.mem_cons.1 hm with hm | hm
        · subst hm
          have : 0 < p.state.availableAnchors.length := by rw [ha]; simp
          exact ⟨le_refl _, by simp only; omega⟩
        · have := hb e hm
          exact ⟨by omega, by omega⟩
    · intro s hs
      simp only [List.mem_append, List.mem_singleton] at hs
      rcases hs with hs | rfl
      · exact h4 s hs
      · simp [hc]

theorem partitionLoopT_inv {m : Splitter} (hM : AnchorIdsDistinct m.mAnchors) :
    ∀ (n : Nat) (p p' : PartitionT), PAInv m p.state → TInv m p →
      partitionLoopT m n p = some p' → TInv m p' := by
  intro n
  induction n with
  | zero =>
    intro p p' hp ht h
    cases ha : p.state.availableAnchors with
    | nil =>
      rw [partitionLoopT_nil m 0 p ha] at h
      cases h
      exact ht
    | cons first rest =>
      unfold partitionLoopT at h
      simp [ha] at h
  | succ n ih =>
    intro p p' hp ht h
    cases ha : p.state.availableAnchors with
    | nil =>
      rw [partitionLoopT_nil m _ p ha] at h
      cases h
      exact ht
    | cons first rest =>
      rw [partitionLoopT_cons m n p first rest ha] at h
      cases hs : partitionStepT m p first with
      | none => rw [hs] at h; simp at h
      | some p1 =>
        rw [hs] at h
        obtain ⟨hp1, ht1⟩ := partitionStepT_inv hM hp ht ha hs
        exact ih p1 p' hp1 ht1 h

/-- The observed partition of a model with distinct anchor identities: it ends,
agrees with `partition`, fails no assertion, enters `findConnectedElements` once
for each stored anchor, and never nests the calls deeper than the number of
stored anchors. -/
theorem partitionT_spec (m : Splitter) (hM : AnchorIdsDistinct m.mAnchors) :
    ∃ pt, partitionT m = some pt ∧ partition m = some pt.state ∧ pt.asserted = true ∧
      (pt.entered.map Prod.snd).Perm m.mAnchors ∧
      (∀ e ∈ pt.entered, 1 ≤ e.1 ∧ e.1 ≤ m.mAnchors.length) ∧
      ∀ s ∈ pt.state.segments, s.anchors ≠ [] := by
  obtain ⟨p, hp, _, hperm⟩ := partition_anchors m hM
  have hst := partitionT_state m
  rw [hp] at hst
  cases hpt : partitionT m with
  | none => rw [hpt] at hst; simp at hst
  | some pt =>
    rw [hpt] at hst
    simp only [Option.map_some', Option.some.injEq] at hst
    have h0p : PAInv m (⟨⟨[], m.mAnchors, m.mLines⟩, [], true⟩ : PartitionT).state :=
      ⟨List.Sublist.refl _, by simp [Partition.anchorLists]⟩
    have h0t : TInv m ⟨⟨[], m.mAnchors, m.mLines⟩, [], true⟩ :=
      ⟨rfl, by simp [Partition.anchorLists], by simp, by simp⟩
    obtain ⟨h1, h2, h3, h4⟩ := partitionLoopT_inv hM _ _ _ h0p h0t hpt
    refine ⟨pt, rfl, by rw [hp, hst], h1, ?_, h3, h4⟩
    rw [h2, hst]
    exact hperm

theorem removeOneAnchor_length (a : Anchor) :
    ∀ (l : List Anchor), containsAnchor l a = true →
      (removeOneAnchor l a).length + 1 = l.length := by
  intro l
  induction l with
  | nil => intro h; simp [containsAnchor] at h
  | cons b bs ih =>
    intro h
    simp only [removeOneAnchor]
    by_cases hb : b.eqv a = true
    · simp [hb]
    · simp only [hb, Bool.false_eq_true, if_false, List.length_cons]
      have : containsAnchor bs a = true := by
        simp only [containsAnchor, List.any_cons, Bool.or_eq_true] at h
        rcases h with h | h
        · exact absurd h hb
        · exact h
      rw [ih this]

theorem distanceAsserted_of_anchor (g : Geometry) (label : NetLabel) (s : Segment)
    (h : s.anchors ≠ []) : distanceAsserted g label s = true := by
  unfold distanceAsserted
  rw [distanceLoops_eq_foldl]
  obtain ⟨r, hr, _⟩ := foldl_nearer_min
    (s.anchors.map (anchorDistance g label) ++ s.lines.map (lineDistance g label s))
    (by simpa using fun h1 => absurd h1 h)
  rw [hr]
  rfl

theorem labelLoopAsserted_spec (g : Geometry) :
    ∀ (labels : List NetLabel) (segs : List Segment), segs ≠ [] →
      (∀ s ∈ segs, s.anchors ≠ []) → labelLoopAsserted g labels segs = true := by
  intro labels
  induction labels with
  | nil => intro segs _ _; rfl
  | cons label rest ih =>
    intro segs hne hanch
    obtain ⟨k, sk, hk, hidx, _, _⟩ := nearestIndex_spec g label segs hne
    obtain ⟨k', sk', hk', hadd, _, _⟩ := addNetLabel_spec g label segs hne
    simp only [labelLoopAsserted, hadd, Bool.and_eq_true]
    refine ⟨?_, ih _ ?_ ?_⟩
    · simp only [addNetLabelAsserted, Bool.and_eq_true, List.all_eq_true, decide_eq_true_eq]
      refine ⟨fun s hs => distanceAsserted_of_anchor g label s (hanch s hs), ?_⟩
      rw [hidx]
      exact Int.natCast_nonneg k
    · intro h
      have := congrArg List.length h
      simp only [List.length_set, List.length_nil] at this
      exact hne (List.length_eq_zero.1 this)
    · intro s hs
      rcases List.mem_or_eq_of_mem_set hs with h | h
      · exact hanch s h
      · rw [h]
        exact hanch sk' (List.getElem?_mem hk')

/-! ## The claims -/

/-- C1: for every sequence of builder calls, `split` returns, the concatenation
of the segments' anchor lists is a permutation of the stored anchor list, every
anchor of a segment is a stored anchor, and every stored anchor is in exactly one
segment (one index of the result) and exactly once in that segment's anchor list. -/
theorem split_anchors_partition (g : Geometry) (calls : List Call) :
    ∃ segs, split g (build calls) = some segs ∧
      (segs.map Segment.anchors).flatten.Perm (build calls).mAnchors ∧
      (∀ s ∈ segs, ∀ a ∈ s.anchors, a ∈ (build calls).mAnchors) ∧
      ∀ a ∈ (build calls).mAnchors, ∃ (k : Nat) (s : Segment), segs[k]? = some s ∧
        s.anchors.count a = 1 ∧
        ∀ (j : Nat) (t : Segment), segs[j]? = some t → a ∈ t.anchors → j = k := by
  have hM := build_anchorIdsDistinct calls
  obtain ⟨p, segs, _, hs, _, hperm, ha, _, _, _⟩ := split_spec g (build calls) hM
  have hperm' : (segs.map Segment.anchors).flatten.Perm (build calls).mAnchors := by
    rw [ha]; exact hperm
  have hnd : (segs.map Segment.anchors).flatten.Nodup := hperm'.nodup_iff.2 (anchorIdsDistinct_nodup hM)
  refine ⟨segs, hs, hperm', ?_, ?_⟩
  · intro s hs a ha
    exact hperm'.subset (List.mem_flatten.2 ⟨s.anchors, List.mem_map_of_mem _ hs, ha⟩)
  · intro a haM
    obtain ⟨l, hl, hal⟩ := List.mem_flatten.1 (hperm'.symm.subset haM)
    obtain ⟨s, hs, rfl⟩ := List.mem_map.1 hl
    obtain ⟨k, hk⟩ := List.getElem?_of_mem hs
    refine ⟨k, s, hk, ?_, ?_⟩
    · have hsnd : s.anchors.Nodup := (List.nodup_flatten.1 hnd).1 _ hl
      exact List.count_eq_one_of_mem hsnd hal
    · intro j t hj hat
      exact flatten_nodup_index _ hnd j k _ _ (anchors_at_index hj) (anchors_at_index hk) hat hal

/-- C2: for every model with pairwise distinct line identities whose lines start
and end at stored anchors, two stored anchors are in the anchor list of one
returned segment exactly when a path of stored lines joins their identities. -/
theorem split_connected_components (g : Geometry) (calls : List Call)
    (hL : LineIdsDistinct (build calls).mLines) (hE : EndpointsStored (build calls)) :
    ∃ segs, split g (build calls) = some segs ∧
      ∀ a ∈ (build calls).mAnchors, ∀ b ∈ (build calls).mAnchors,
        ((∃ s ∈ segs, a ∈ s.anchors ∧ b ∈ s.anchors) ↔ Joined (build calls) a.id b.id) := by
  have hM := build_anchorIdsDistinct calls
  obtain ⟨p, segs, _, hs, _, _, _, hpa, _, hall, hjoin⟩ :=
    split_lines_spec g (build calls) hM hL hE
  have hnd := ids_flatten_nodup hM hpa
  have hclosed : ∀ s ∈ segs, ∀ u v, Adjacent (build calls) u v →
      u ∈ s.anchors.map Anchor.id → v ∈ s.anchors.map Anchor.id := by
    intro s hs u v ⟨l, hl, huv⟩ hu
    obtain ⟨s2, hs2, _, h1, h2⟩ := hall l hl
    rcases huv with ⟨rfl, rfl⟩ | ⟨rfl, rfl⟩
    · have : s = s2 := same_of_flatten_nodup (fun s => s.anchors.map Anchor.id) hnd hs hs2 hu h1
      rw [this]; exact h2
    · have : s = s2 := same_of_flatten_nodup (fun s => s.anchors.map Anchor.id) hnd hs hs2 hu h2
      rw [this]; exact h1
  refine ⟨segs, hs, ?_⟩
  intro a ha b hb
  constructor
  · rintro ⟨s, hs, has, hbs⟩
    exact hjoin s hs a has b hbs
  · intro hj
    obtain ⟨l, hl, hal⟩ := List.mem_flatten.1 (hpa.symm.subset ha)
    obtain ⟨s, hs, rfl⟩ := List.mem_map.1 hl
    refine ⟨s, hs, hal, ?_⟩
    have hreach : ∀ u v, Joined (build calls) u v → u ∈ s.anchors.map Anchor.id →
        v ∈ s.anchors.map Anchor.id := by
      intro u v huv hu
      induction huv with
      | refl => exact hu
      | tail _ hadj ih => exact hclosed s hs _ _ hadj ih
    have hb' : b.id ∈ s.anchors.map Anchor.id :=
      hreach _ _ hj (List.mem_map_of_mem _ hal)
    obtain ⟨c, hc, hcb⟩ := List.mem_map.1 hb'
    have hcM : c ∈ (build calls).mAnchors :=
      hpa.subset (List.mem_flatten.2 ⟨s.anchors, List.mem_map_of_mem _ hs, hc⟩)
    exact eq_of_id_eq hM hcM hb hcb ▸ hc

/-- Witness for C2: the chain example has distinct line identities and stored
line ends. -/
theorem split_connected_components_witness :
    LineIdsDistinct (build chainCalls).mLines ∧ EndpointsStored (build chainCalls) ∧
    ∃ segs, split taxicab (build chainCalls) = some segs ∧
      ∀ a ∈ (build chainCalls).mAnchors, ∀ b ∈ (build chainCalls).mAnchors,
        ((∃ s ∈ segs, a ∈ s.anchors ∧ b ∈ s.anchors) ↔
          Joined (build chainCalls) a.id b.id) :=
  ⟨by decide, by decide, split_connected_components taxicab chainCalls (by decide) (by decide)⟩

/-- C3: for every model with pairwise distinct line identities whose lines start
and end at stored anchors, the concatenation of the segments' line lists is a
permutation of the stored line list, every line of a segment is a stored line, and
every stored line is in exactly one segment (one index of the result) and exactly
once in that segment's line list. -/
theorem split_lines_partition (g : Geometry) (calls : List Call)
    (hL : LineIdsDistinct (build calls).mLines) (hE : EndpointsStored (build calls)) :
    ∃ segs, split g (build calls) = some segs ∧
      (segs.map Segment.lines).flatten.Perm (build calls).mLines ∧
      (∀ s ∈ segs, ∀ l ∈ s.lines, l ∈ (build calls).mLines) ∧
      ∀ l ∈ (build calls).mLines, ∃ (k : Nat) (s : Segment), segs[k]? = some s ∧
        s.lines.count l = 1 ∧
        ∀ (j : Nat) (t : Segment), segs[j]? = some t → l ∈ t.lines → j = k := by
  have hM := build_anchorIdsDistinct calls
  obtain ⟨p, segs, _, hs, _, _, _, _, hpl, _, _⟩ := split_lines_spec g (build calls) hM hL hE
  have hnd : (segs.map Segment.lines).flatten.Nodup := hpl.nodup_iff.2 (lineIdsDistinct_nodup hL)
  refine ⟨segs, hs, hpl, ?_, ?_⟩
  · intro s hs l hl
    exact hpl.subset (List.mem_flatten.2 ⟨s.lines, List.mem_map_of_mem _ hs, hl⟩)
  · intro l hlL
    obtain ⟨ll, hll, hmem⟩ := List.mem_flatten.1 (hpl.symm.subset hlL)
    obtain ⟨s, hs, rfl⟩ := List.mem_map.1 hll
    obtain ⟨k, hk⟩ := List.getElem?_of_mem hs
    refine ⟨k, s, hk, ?_, ?_⟩
    · exact List.count_eq_one_of_mem ((List.nodup_flatten.1 hnd).1 _ hll) hmem
    · intro j t hj hlt
      have hj' : (segs.map Segment.lines)[j]? = some t.lines := by simp [List.getElem?_map, hj]
      have hk' : (segs.map Segment.lines)[k]? = some s.lines := by simp [List.getElem?_map, hk]
      exact flatten_nodup_index _ hnd j k _ _ hj' hk' hlt hmem

/-- Witness for C3: the chain example has distinct line identities and stored
line ends. -/
theorem split_lines_partition_witness :
    LineIdsDistinct (build chainCalls).mLines ∧ EndpointsStored (build chainCalls) ∧
    ∃ segs, split taxicab (build chainCalls) = some segs ∧
      (segs.map Segment.lines).flatten.Perm (build chainCalls).mLines ∧
      (∀ s ∈ segs, ∀ l ∈ s.lines, l ∈ (build chainCalls).mLines) ∧
      ∀ l ∈ (build chainCalls).mLines, ∃ (k : Nat) (s : Segment), segs[k]? = some s ∧
        s.lines.count l = 1 ∧
        ∀ (j : Nat) (t : Segment), segs[j]? = some t → l ∈ t.lines → j = k :=
  ⟨by decide, by decide, split_lines_partition taxicab chainCalls (by decide) (by decide)⟩

/-- C4: for every model with pairwise distinct line identities whose lines start
and end at stored anchors, both ends of every line of a returned segment are
identities of anchors of that same segment. -/
theorem split_endpoint_locality (g : Geometry) (calls : List Call)
    (hL : LineIdsDistinct (build calls).mLines) (hE : EndpointsStored (build calls)) :
    ∃ segs, split g (build calls) = some segs ∧
      ∀ s ∈ segs, ∀ l ∈ s.lines,
        l.startAnchor ∈ s.anchors.map Anchor.id ∧ l.endAnchor ∈ s.anchors.map Anchor.id := by
  obtain ⟨segs, hs, _, _, hloc⟩ :=
    split_locality g (build calls) (build_anchorIdsDistinct calls) hL hE
  exact ⟨segs, hs, hloc⟩

/-- Witness for C4: the chain example has distinct line identities and stored
line ends. -/
theorem split_endpoint_locality_witness :
    LineIdsDistinct (build chainCalls).mLines ∧ EndpointsStored (build chainCalls) ∧
    ∃ segs, split taxicab (build chainCalls) = some segs ∧
      ∀ s ∈ segs, ∀ l ∈ s.lines,
        l.startAnchor ∈ s.anchors.map Anchor.id ∧ l.endAnchor ∈ s.anchors.map Anchor.id :=
  ⟨by decide, by decide, split_endpoint_locality taxicab chainCalls (by decide) (by decide)⟩

/-- C5, as amended: for every model with pairwise distinct line identities
whose lines start and end at stored anchors, the partition loop of `split` ends,
both working lists are then empty (the asserted condition holds), and the
concatenation of the segments' line lists is a permutation of the stored line
list. -/
theorem partition_assertion_holds (calls : List Call)
    (hL : LineIdsDistinct (build calls).mLines) (hE : EndpointsStored (build calls)) :
    ∃ p, partition (build calls) = some p ∧ p.availableAnchors = [] ∧
      p.availableLines = [] ∧ p.assertion = true ∧
      (p.segments.map Segment.lines).flatten.Perm (build calls).mLines := by
  have hM := build_anchorIdsDistinct calls
  obtain ⟨p, hp, hnil, _⟩ := partition_anchors (build calls) hM
  obtain ⟨hav, hpl, _⟩ := partition_lines_final (build calls) hM hL hE hp
  exact ⟨p, hp, hnil, hav, by simp [Partition.assertion, hnil, hav], hpl⟩

/-- Counterexample for C5: with two lines of one identity between two stored
anchors the second line is never consumed: the loop ends with a line left, the
asserted condition is false, and the one segment holds one line of the two. -/
theorem partition_assertion_fails_on_twin_lines :
    EndpointsStored (build twinLineCalls) ∧
    partition (build twinLineCalls) =
      some ⟨[⟨[⟨1, ⟨0, 0⟩⟩, ⟨2, ⟨10, 0⟩⟩], [⟨10, 1, 2⟩], []⟩], [], [⟨10, 1, 2⟩]⟩ ∧
    Partition.assertion ⟨[⟨[⟨1, ⟨0, 0⟩⟩, ⟨2, ⟨10, 0⟩⟩], [⟨10, 1, 2⟩], []⟩], [], [⟨10, 1, 2⟩]⟩
      = false ∧
    ¬ ([[(⟨10, 1, 2⟩ : NetLine)]].flatten.Perm (build twinLineCalls).mLines) := by
  refine ⟨by decide, by decide, by decide, ?_⟩
  intro h
  have := h.length_eq
  revert this
  decide

/-- Witness for C5: the chain example has distinct line identities and stored
line ends. -/
theorem partition_assertion_holds_witness :
    LineIdsDistinct (build chainCalls).mLines ∧ EndpointsStored (build chainCalls) ∧
    ∃ p, partition (build chainCalls) = some p ∧ p.availableAnchors = [] ∧
      p.availableLines = [] ∧ p.assertion = true ∧
      (p.segments.map Segment.lines).flatten.Perm (build chainCalls).mLines :=
  ⟨by decide, by decide, partition_assertion_holds chainCalls (by decide) (by decide)⟩

/-- C6: for every sequence of builder calls and every segment `s` of the
result, with `pre` the segments before it and `post` those after it: the anchor
list of `s` is non-empty, its first anchor is the earliest-inserted stored anchor
that is in no segment of `pre`, no anchor of `s` was inserted before it, and the
first anchor of every later segment was inserted strictly after it. -/
theorem split_segment_seeds (g : Geometry) (calls : List Call) :
    ∃ segs, split g (build calls) = some segs ∧
      ∀ (pre : List Segment) (s : Segment) (post : List Segment), segs = pre ++ s :: post →
        ∃ seed rest, s.anchors = seed :: rest ∧
          (build calls).mAnchors.find?
            (fun a => decide (a ∉ (pre.map Segment.anchors).flatten)) = some seed ∧
          (∀ a ∈ s.anchors,
            (build calls).mAnchors.indexOf seed ≤ (build calls).mAnchors.indexOf a) ∧
          (∀ t ∈ post, ∀ b ∈ t.anchors.head?,
            (build calls).mAnchors.indexOf seed < (build calls).mAnchors.indexOf b) := by
  have hM := build_anchorIdsDistinct calls
  obtain ⟨p, segs, hp, hs, _, _, ha, _, _, _⟩ := split_spec g (build calls) hM
  obtain ⟨_, hseed⟩ := partition_seeds (build calls) hM hp
  refine ⟨segs, hs, ?_⟩
  intro pre s post hdec
  have hdec' : p.anchorLists = pre.map Segment.anchors ++ s.anchors :: post.map Segment.anchors := by
    show p.segments.map Segment.anchors = _
    rw [← ha, hdec]; simp
  obtain ⟨seed, rest, hsd, hhead, hall⟩ := hseed _ _ _ hdec'
  refine ⟨seed, rest, hsd, ?_, ?_, ?_⟩
  · rw [← List.filter_head?]; exact hhead
  · intro a has
    have := List.mem_filter.1 (hall a has)
    exact indexOf_head_filter_le _ hhead a this.1 this.2
  · intro t ht b hb
    obtain ⟨mid, post', rfl⟩ := List.mem_iff_append.1 ht
    have hdec2 : p.anchorLists = (pre.map Segment.anchors ++ s.anchors :: mid.map Segment.anchors)
        ++ t.anchors :: post'.map Segment.anchors := by
      rw [hdec']; simp
    obtain ⟨seed2, rest2, hsd2, hhead2, _⟩ := hseed _ _ _ hdec2
    rw [hsd2] at hb
    simp only [List.head?_cons, Option.mem_def, Option.some.injEq] at hb
    subst hb
    have hmem2 := List.mem_filter.1 (List.mem_of_mem_head? hhead2)
    have hnot : seed2 ∉ (pre.map Segment.anchors ++ s.anchors :: mid.map Segment.anchors).flatten := by
      simpa using hmem2.2
    have hnpre : seed2 ∉ (pre.map Segment.anchors).flatten := by
      intro h; exact hnot (by simp only [List.flatten_append, List.mem_append]; exact Or.inl h)
    have hns : seed2 ∉ s.anchors := by
      intro h
      exact hnot (by
        simp only [List.flatten_append, List.flatten_cons, List.mem_append]
        exact Or.inr (Or.inl h))
    have hle := indexOf_head_filter_le _ hhead seed2 hmem2.1 (by simpa using hnpre)
    have hseedM := (List.mem_filter.1 (List.mem_of_mem_head? hhead)).1
    have hne : seed ≠ seed2 := by
      intro e
      exact hns (by rw [hsd, e]; exact List.mem_cons_self _ _)
    have hidx : (build calls).mAnchors.indexOf seed ≠ (build calls).mAnchors.indexOf seed2 :=
      fun e => hne ((List.indexOf_inj hseedM hmem2.1).1 e)
    omega

/-- C7: for every model with at least one stored anchor, `split` returns at
least one segment, the concatenation of the segments' label lists is a permutation
of the stored label list, and the label counts of the segments add up to the number
of `addNetLabel` calls. -/
theorem split_labels_partition (g : Geometry) (calls : List Call)
    (h : (build calls).mAnchors ≠ []) :
    ∃ segs, split g (build calls) = some segs ∧ segs ≠ [] ∧
      (segs.map Segment.labels).flatten.Perm (build calls).mLabels ∧
      (segs.map (fun s => s.labels.length)).sum = calls.countP Call.isAddNetLabel := by
  obtain ⟨p, segs, _, hs, _, hperm, ha, _, _, hlab⟩ :=
    split_spec g (build calls) (build_anchorIdsDistinct calls)
  have hne := segments_ne_nil h hperm
  obtain ⟨hpl, _⟩ := hlab hne
  refine ⟨segs, hs, ?_, hpl, ?_⟩
  · intro hnil
    rw [hnil] at ha
    exact hne (by simpa using ha.symm)
  · rw [← build_labels_length, ← hpl.length_eq, List.length_flatten, List.map_map]
    rfl

/-- Witness for C7: the chain example has a stored anchor. -/
theorem split_labels_partition_witness :
    (build chainCalls).mAnchors ≠ [] ∧
    ∃ segs, split taxicab (build chainCalls) = some segs ∧ segs ≠ [] ∧
      (segs.map Segment.labels).flatten.Perm (build chainCalls).mLabels ∧
      (segs.map (fun s => s.labels.length)).sum = chainCalls.countP Call.isAddNetLabel :=
  ⟨by decide, split_labels_partition taxicab chainCalls (by decide)⟩

/-- C8: for every model with at least one stored anchor, every stored label is
in the label list of a returned segment, and for every label in the label list of
a returned segment the computed distance to that segment is at most the computed
distance to any returned segment; the computed distances are those of the segments
as the partition loop left them. -/
theorem split_label_nearest (g : Geometry) (calls : List Call)
    (h : (build calls).mAnchors ≠ []) :
    ∃ p segs, partition (build calls) = some p ∧ split g (build calls) = some segs ∧
      (∀ label ∈ (build calls).mLabels, ∃ s ∈ segs, label ∈ s.labels) ∧
      (∀ s ∈ segs, ∀ label ∈ s.labels, ∀ t ∈ segs,
        getDistanceBetweenNetLabelAndNetSegment g label s ≤
          getDistanceBetweenNetLabelAndNetSegment g label t) ∧
      ∀ label : NetLabel, segs.map (getDistanceBetweenNetLabelAndNetSegment g label) =
        p.segments.map (getDistanceBetweenNetLabelAndNetSegment g label) := by
  obtain ⟨p, segs, hp, hs, _, hperm, ha, hl, _, hlab⟩ :=
    split_spec g (build calls) (build_anchorIdsDistinct calls)
  obtain ⟨hpl, hmin⟩ := hlab (segments_ne_nil h hperm)
  refine ⟨p, segs, hp, hs, ?_, hmin, ?_⟩
  · intro label hlabel
    obtain ⟨l, hl, hmem⟩ := List.mem_flatten.1 (hpl.symm.subset hlabel)
    obtain ⟨s, hs, rfl⟩ := List.mem_map.1 hl
    exact ⟨s, hs, hmem⟩
  · intro label
    apply List.ext_getElem?
    intro j
    simp only [List.getElem?_map]
    cases hj : segs[j]? with
    | none =>
      have h1 := congrArg (fun l => l[j]?) ha
      simp only [List.getElem?_map, hj, Option.map_none'] at h1
      cases hj' : p.segments[j]? with
      | none => rfl
      | some t => rw [hj'] at h1; simp at h1
    | some s =>
      obtain ⟨t, ht⟩ := exists_at_index_of_map_anchors ha hj
      rw [ht]
      simp only [Option.map_some', Option.some.injEq]
      exact getDistance_at_index g label ha hl ht hj

/-- Witness for C8: the chain example has a stored anchor. -/
theorem split_label_nearest_witness :
    (build chainCalls).mAnchors ≠ [] ∧
    ∃ p segs, partition (build chainCalls) = some p ∧
      split taxicab (build chainCalls) = some segs ∧
      (∀ label ∈ (build chainCalls).mLabels, ∃ s ∈ segs, label ∈ s.labels) ∧
      (∀ s ∈ segs, ∀ label ∈ s.labels, ∀ t ∈ segs,
        getDistanceBetweenNetLabelAndNetSegment taxicab label s ≤
          getDistanceBetweenNetLabelAndNetSegment taxicab label t) ∧
      ∀ label : NetLabel, segs.map (getDistanceBetweenNetLabelAndNetSegment taxicab label) =
        p.segments.map (getDistanceBetweenNetLabelAndNetSegment taxicab label) :=
  ⟨by decide, split_label_nearest taxicab chainCalls (by decide)⟩

/-- C9: on a non-empty segment list `addNetLabelToNearestNetSegment` returns
the list with the label appended to the label list of one segment, at an index `k`
such that no segment has a smaller computed distance and every segment of smaller
index has a strictly larger one. -/
theorem addNetLabel_nearest_first (g : Geometry) (label : NetLabel) (segs : List Segment)
    (hne : segs ≠ []) :
    ∃ (k : Nat) (sk : Segment), segs[k]? = some sk ∧
      addNetLabelToNearestNetSegment g label segs = some (segs.set k (sk.withLabel label)) ∧
      (∀ (j : Nat) (sj : Segment), segs[j]? = some sj →
        getDistanceBetweenNetLabelAndNetSegment g label sk ≤
          getDistanceBetweenNetLabelAndNetSegment g label sj) ∧
      (∀ (j : Nat) (sj : Segment), j < k → segs[j]? = some sj →
        getDistanceBetweenNetLabelAndNetSegment g label sk <
          getDistanceBetweenNetLabelAndNetSegment g label sj) :=
  addNetLabel_spec g label segs hne

/-- Witness for C9: two segments equidistant from the label. -/
theorem addNetLabel_nearest_first_witness :
    tiedSegments ≠ [] ∧
    ∃ (k : Nat) (sk : Segment), tiedSegments[k]? = some sk ∧
      addNetLabelToNearestNetSegment taxicab ⟨9, ⟨0, 0⟩⟩ tiedSegments =
        some (tiedSegments.set k (sk.withLabel ⟨9, ⟨0, 0⟩⟩)) ∧
      (∀ (j : Nat) (sj : Segment), tiedSegments[j]? = some sj →
        getDistanceBetweenNetLabelAndNetSegment taxicab ⟨9, ⟨0, 0⟩⟩ sk ≤
          getDistanceBetweenNetLabelAndNetSegment taxicab ⟨9, ⟨0, 0⟩⟩ sj) ∧
      (∀ (j : Nat) (sj : Segment), j < k → tiedSegments[j]? = some sj →
        getDistanceBetweenNetLabelAndNetSegment taxicab ⟨9, ⟨0, 0⟩⟩ sk <
          getDistanceBetweenNetLabelAndNetSegment taxicab ⟨9, ⟨0, 0⟩⟩ sj) :=
  ⟨by decide, addNetLabel_nearest_first taxicab ⟨9, ⟨0, 0⟩⟩ tiedSegments (by decide)⟩

/-- C10: for every model with pairwise distinct line identities whose lines
start and end at stored anchors, every returned segment and every label: the
computed distance is the least of the distances from the label to the anchors of
the segment and to the lines of the segment, a line running between the positions
with which its two end anchors were added (every anchor of a segment has the
position it was added with); for a segment without lines it is the least of the
anchor distances. -/
theorem split_distance_is_minimum (g : Geometry) (calls : List Call)
    (hL : LineIdsDistinct (build calls).mLines) (hE : EndpointsStored (build calls)) :
    ∃ segs, split g (build calls) = some segs ∧
      ∀ s ∈ segs, (∀ a ∈ s.anchors, a.position = positionOf calls a.id) ∧
        ∀ label : NetLabel,
          (getDistanceBetweenNetLabelAndNetSegment g label s ∈
              specDistances g (positionOf calls) label s ∧
            ∀ d ∈ specDistances g (positionOf calls) label s,
              getDistanceBetweenNetLabelAndNetSegment g label s ≤ d) ∧
          (s.lines = [] →
            getDistanceBetweenNetLabelAndNetSegment g label s ∈
              s.anchors.map (fun a => g.pointDistance a.position label.position) ∧
            ∀ d ∈ s.anchors.map (fun a => g.pointDistance a.position label.position),
              getDistanceBetweenNetLabelAndNetSegment g label s ≤ d) := by
  obtain ⟨segs, hs, hpa, hne, hloc⟩ :=
    split_locality g (build calls) (build_anchorIdsDistinct calls) hL hE
  refine ⟨segs, hs, ?_⟩
  intro s hsmem
  have hstored : ∀ a ∈ s.anchors, a ∈ (build calls).mAnchors := fun a ha =>
    hpa.subset (List.mem_flatten.2 ⟨s.anchors, List.mem_map_of_mem _ hsmem, ha⟩)
  have hpos : ∀ a ∈ s.anchors, a.position = positionOf calls a.id := fun a ha =>
    (build_position calls a (hstored a ha)).symm
  refine ⟨hpos, ?_⟩
  intro label
  have hlines : s.lines.map (lineDistance g label s) =
      s.lines.map (fun l => g.shortestDistanceBetweenPointAndLine label.position
        (positionOf calls l.startAnchor) (positionOf calls l.endAnchor)) := by
    apply List.map_congr_left
    intro l hl
    obtain ⟨h1, h2⟩ := hloc s hsmem l hl
    obtain ⟨⟨a, ha, hida, hra⟩, ⟨b, hb, hidb, hrb⟩⟩ := lineEnds_spec l s.anchors h1 h2
    simp only [lineDistance]
    rw [hra, hrb, hpos a ha, hpos b hb, hida, hidb]
  have hcand : s.anchors.map (anchorDistance g label) ++ s.lines.map (lineDistance g label s) =
      specDistances g (positionOf calls) label s := by
    rw [hlines]; rfl
  have hnonempty : specDistances g (positionOf calls) label s ≠ [] := by
    intro h
    have := congrArg List.length h
    simp only [specDistances, List.length_append, List.length_map, List.length_nil] at this
    exact hne s hsmem (List.length_eq_zero.1 (by omega))
  obtain ⟨r, hr, hmem, hmin⟩ := foldl_nearer_min _ hnonempty
  have hd : getDistanceBetweenNetLabelAndNetSegment g label s = r := by
    simp only [getDistanceBetweenNetLabelAndNetSegment, distanceLoops_eq_foldl, hcand, hr]
  rw [hd]
  refine ⟨⟨hmem, hmin⟩, ?_⟩
  intro hnil
  have hspec : specDistances g (positionOf calls) label s =
      s.anchors.map (fun a => g.pointDistance a.position label.position) := by
    simp [specDistances, hnil]
  rw [← hspec]
  exact ⟨hmem, hmin⟩

/-- Witness for C10: the chain example has distinct line identities and stored
line ends. -/
theorem split_distance_is_minimum_witness :
    LineIdsDistinct (build chainCalls).mLines ∧ EndpointsStored (build chainCalls) ∧
    ∃ segs, split taxicab (build chainCalls) = some segs ∧
      ∀ s ∈ segs, (∀ a ∈ s.anchors, a.position = positionOf chainCalls a.id) ∧
        ∀ label : NetLabel,
          (getDistanceBetweenNetLabelAndNetSegment taxicab label s ∈
              specDistances taxicab (positionOf chainCalls) label s ∧
            ∀ d ∈ specDistances taxicab (positionOf chainCalls) label s,
              getDistanceBetweenNetLabelAndNetSegment taxicab label s ≤ d) ∧
          (s.lines = [] →
            getDistanceBetweenNetLabelAndNetSegment taxicab label s ∈
              s.anchors.map (fun a => taxicab.pointDistance a.position label.position) ∧
            ∀ d ∈ s.anchors.map (fun a => taxicab.pointDistance a.position label.position),
              getDistanceBetweenNetLabelAndNetSegment taxicab label s ≤ d) :=
  ⟨by decide, by decide, split_distance_is_minimum taxicab chainCalls (by decide) (by decide)⟩

/-- C11, as amended: for every model without a stored anchor, whatever lines and
labels it stores, the partition loop ends at once with no segment and every stored
line left in the unconsumed list, and `split` returns the empty segment list, so
the result holds no label.  No entry of `findConnectedElements` and no label
assertion is evaluated, and the condition asserted after the partition loop holds
if and only if no line is stored. -/
theorem split_without_anchors (g : Geometry) (m : Splitter) (h : m.mAnchors = []) :
    partition m = some ⟨[], [], m.mLines⟩ ∧ split g m = some [] ∧
    partitionT m = some ⟨⟨[], [], m.mLines⟩, [], true⟩ ∧
    assignLabelsAsserted g m [] = true ∧
    (Partition.assertion ⟨[], [], m.mLines⟩ = true ↔ m.mLines = []) := by
  have hp : partition m = some ⟨[], [], m.mLines⟩ := by
    unfold partition
    rw [h]
    exact partitionLoop_nil m _ _ rfl
  have hpt : partitionT m = some ⟨⟨[], [], m.mLines⟩, [], true⟩ := by
    unfold partitionT
    rw [h]
    exact partitionLoopT_nil m _ _ rfl
  refine ⟨hp, ?_, hpt, rfl, ?_⟩
  · simp [split, hp, assignLabels]
  · simp [Partition.assertion]

/-- Counterexample for C11: a model built from two labels and a line only has no
anchor and `split` returns the empty list for it, but the line is left in the
unconsumed list and the condition asserted after the partition loop is false. -/
theorem split_without_anchors_assertion_fails :
    (build anchorlessCalls).mAnchors = [] ∧
    split taxicab (build anchorlessCalls) = some [] ∧
    partition (build anchorlessCalls) = some ⟨[], [], [⟨2, 3, 4⟩]⟩ ∧
    Partition.assertion ⟨[], [], [⟨2, 3, 4⟩]⟩ = false := by
  refine ⟨by decide, by decide, by decide, by decide⟩

/-- Witness for C11: a model built from two labels and a line only. -/
theorem split_without_anchors_witness :
    (build anchorlessCalls).mAnchors = [] ∧
    partition (build anchorlessCalls) = some ⟨[], [], (build anchorlessCalls).mLines⟩ ∧
    split taxicab (build anchorlessCalls) = some [] ∧
    partitionT (build anchorlessCalls) =
      some ⟨⟨[], [], (build anchorlessCalls).mLines⟩, [], true⟩ ∧
    assignLabelsAsserted taxicab (build anchorlessCalls) [] = true ∧
    (Partition.assertion ⟨[], [], (build anchorlessCalls).mLines⟩ = true ↔
      (build anchorlessCalls).mLines = []) :=
  ⟨by decide, split_without_anchors taxicab (build anchorlessCalls) (by decide)⟩

/-- C12: for every sequence of builder calls, a stored anchor at which no stored
line starts or ends is returned in a segment whose anchor list is that anchor alone
and whose line list is empty. -/
theorem split_isolated_anchor (g : Geometry) (calls : List Call) :
    ∃ segs, split g (build calls) = some segs ∧
      ∀ a ∈ (build calls).mAnchors,
        (∀ l ∈ (build calls).mLines, l.startAnchor ≠ a.id ∧ l.endAnchor ≠ a.id) →
        ∃ s ∈ segs, s.anchors = [a] ∧ s.lines = [] := by
  have hM := build_anchorIdsDistinct calls
  obtain ⟨p, segs, hp, hs, _, _, ha, hl, _, _⟩ := split_spec g (build calls) hM
  obtain ⟨htouch, hlone⟩ := partition_lone (build calls) hM hp
  refine ⟨segs, hs, ?_⟩
  intro a haM hiso
  have hl1 : Lone (build calls) a := by
    intro l hlL ht
    rcases ht with h | h
    · exact absurd h (hiso l hlL).1
    · exact absurd h (hiso l hlL).2
  obtain ⟨s0, hs0, hsa⟩ := hlone a haM hl1
  obtain ⟨s, hsmem, hsa', hsl'⟩ := exists_same_net ha hl hs0
  refine ⟨s, hsmem, hsa'.trans hsa, ?_⟩
  rw [hsl']
  apply List.eq_nil_iff_forall_not_mem.2
  intro l hlmem
  obtain ⟨hlL, x, hx, ht⟩ := htouch s0 hs0 l hlmem
  rw [hsa, List.mem_singleton] at hx
  subst hx
  rcases ht with h | h
  · exact (hiso l hlL).1 h
  · exact (hiso l hlL).2 h

/-- C13: for every model with a stored anchor, pairwise distinct line
identities and stored line ends, in which a path of stored lines joins every two
stored anchors, `split` returns exactly one segment; its anchor list is a
permutation of the stored anchors and its line list a permutation of the stored
lines. -/
theorem split_connected_model (g : Geometry) (calls : List Call)
    (hne : (build calls).mAnchors ≠ [])
    (hL : LineIdsDistinct (build calls).mLines) (hE : EndpointsStored (build calls))
    (hconn : ∀ a ∈ (build calls).mAnchors, ∀ b ∈ (build calls).mAnchors,
      Joined (build calls) a.id b.id) :
    ∃ s, split g (build calls) = some [s] ∧ s.anchors.Perm (build calls).mAnchors ∧
      s.lines.Perm (build calls).mLines := by
  have hM := build_anchorIdsDistinct calls
  obtain ⟨p, segs, _, hs, _, hpa, hpl, hnonempty, hcomp, _⟩ :=
    split_components g (build calls) hM hL hE
  have hnd : (segs.map Segment.anchors).flatten.Nodup :=
    hpa.nodup_iff.2 (anchorIdsDistinct_nodup hM)
  cases segs with
  | nil =>
    exfalso
    apply hne
    simpa using hpa.symm
  | cons s rest =>
    cases rest with
    | nil =>
      refine ⟨s, hs, ?_, ?_⟩
      · simpa using hpa
      · simpa using hpl
    | cons t rest =>
      exfalso
      obtain ⟨a, ha⟩ := List.exists_mem_of_ne_nil _ (hnonempty s (by simp))
      obtain ⟨b, hb⟩ := List.exists_mem_of_ne_nil _ (hnonempty t (by simp))
      have haM : a ∈ (build calls).mAnchors :=
        hpa.subset (List.mem_flatten.2 ⟨s.anchors, by simp, ha⟩)
      have hbM : b ∈ (build calls).mAnchors :=
        hpa.subset (List.mem_flatten.2 ⟨t.anchors, by simp, hb⟩)
      have hbs : b ∈ s.anchors := (hcomp s (by simp) a ha b hbM).2 (hconn a haM b hbM)
      have := flatten_nodup_index _ hnd 0 1 s.anchors t.anchors (by simp) (by simp) hbs hb
      omega

/-- Witness for C13: two anchors and the line between them. -/
theorem split_connected_model_witness :
    (build pairCalls).mAnchors ≠ [] ∧ LineIdsDistinct (build pairCalls).mLines ∧
    EndpointsStored (build pairCalls) ∧
    (∀ a ∈ (build pairCalls).mAnchors, ∀ b ∈ (build pairCalls).mAnchors,
      Joined (build pairCalls) a.id b.id) ∧
    ∃ s, split taxicab (build pairCalls) = some [s] ∧
      s.anchors.Perm (build pairCalls).mAnchors ∧ s.lines.Perm (build pairCalls).mLines := by
  have h12 : Joined (build pairCalls) 1 2 :=
    Relation.ReflTransGen.single ⟨⟨11, 1, 2⟩, by decide, Or.inl ⟨rfl, rfl⟩⟩
  have hconn : ∀ a ∈ (build pairCalls).mAnchors, ∀ b ∈ (build pairCalls).mAnchors,
      Joined (build pairCalls) a.id b.id := by
    intro a ha b hb
    have ha' : a = ⟨1, ⟨0, 0⟩⟩ ∨ a = ⟨2, ⟨10, 0⟩⟩ := by
      have : a ∈ [(⟨1, ⟨0, 0⟩⟩ : Anchor), ⟨2, ⟨10, 0⟩⟩] := ha
      simpa using this
    have hb' : b = ⟨1, ⟨0, 0⟩⟩ ∨ b = ⟨2, ⟨10, 0⟩⟩ := by
      have : b ∈ [(⟨1, ⟨0, 0⟩⟩ : Anchor), ⟨2, ⟨10, 0⟩⟩] := hb
      simpa using this
    rcases ha' with rfl | rfl <;> rcases hb' with rfl | rfl
    · exact Relation.ReflTransGen.refl
    · exact h12
    · exact joined_symm h12
    · exact Relation.ReflTransGen.refl
  exact ⟨by decide, by decide, by decide, hconn,
    split_connected_model taxicab pairCalls (by decide) (by decide) (by decide) hconn⟩

/-- C14: for every model with pairwise distinct line identities and every stored
line that starts and ends at the stored anchor `A`: the line is in the line list of
a returned segment that has `A` among its anchors, and the anchor list of that
segment is `[A]` when every stored line at `A` starts and ends at `A`; in every
state after `A` was visited the inner loop following the line calls nothing and
changes nothing, whatever the recursive call is. -/
theorem split_self_loop (g : Geometry) (calls : List Call)
    (hL : LineIdsDistinct (build calls).mLines) (A : Anchor) (l : NetLine)
    (hA : A ∈ (build calls).mAnchors) (hl : l ∈ (build calls).mLines)
    (hstart : l.startAnchor = A.id) (hend : l.endAnchor = A.id) :
    ∃ segs, split g (build calls) = some segs ∧
      (∃ s ∈ segs, A ∈ s.anchors ∧ l ∈ s.lines ∧ (Lone (build calls) A → s.anchors = [A])) ∧
      ∀ (rec : Anchor → Work → Option Work) (w w2 : Work),
        w.availableAnchors.Sublist (build calls).mAnchors →
        w2.availableAnchors.Sublist (w.visit A).availableAnchors →
        anchorLoop rec (otherAnchorId A l) (build calls).mAnchors (w2.consume l) =
          some (w2.consume l) := by
  have hM := build_anchorIdsDistinct calls
  obtain ⟨p, segs, hp, hs, _, hperm, ha, hlines, _, _⟩ := split_spec g (build calls) hM
  have hown : Owns (build calls) A l := by
    refine ⟨Or.inl hstart, ?_⟩
    intro x hx ht
    rcases ht with h | h
    · exact eq_of_id_eq hM hx hA (h.symm.trans hstart)
    · exact eq_of_id_eq hM hx hA (h.symm.trans hend)
  obtain ⟨s0, hs0, hA0, hl0⟩ := partition_owned (build calls) hM hL hp hA hl hown
  obtain ⟨_, hlone⟩ := partition_lone (build calls) hM hp
  obtain ⟨s, hsmem, hsa, hsl⟩ := exists_same_net ha hlines hs0
  refine ⟨segs, hs, ⟨s, hsmem, hsa ▸ hA0, hsl ▸ hl0, ?_⟩, ?_⟩
  · intro hl1
    obtain ⟨s1, hs1, hs1a⟩ := hlone A hA hl1
    have hnd : (p.segments.map Segment.anchors).flatten.Nodup :=
      hperm.nodup_iff.2 (anchorIdsDistinct_nodup hM)
    have : s0 = s1 := same_of_flatten_nodup Segment.anchors hnd hs0 hs1 hA0
      (by rw [hs1a]; exact List.mem_singleton_self _)
    rw [hsa, this, hs1a]
  · intro rec w w2 hw hw2
    have hother : otherAnchorId A l = A.id := by simp [otherAnchorId, hstart, hend]
    rw [hother]
    apply anchorLoop_not_available
    show A.id ∉ w2.availableAnchors.map Anchor.id
    exact not_mem_ids_of_sublist hw2
      (removeOneAnchor_id_not_mem (anchorIdsDistinct_sublist hM hw) A)

/-- Witness for C14: the line 11 from anchor 1 to itself. -/
theorem split_self_loop_witness :
    LineIdsDistinct (build selfLoopCalls).mLines ∧
    (⟨1, ⟨0, 0⟩⟩ : Anchor) ∈ (build selfLoopCalls).mAnchors ∧
    (⟨11, 1, 1⟩ : NetLine) ∈ (build selfLoopCalls).mLines ∧
    ∃ segs, split taxicab (build selfLoopCalls) = some segs ∧
      (∃ s ∈ segs, (⟨1, ⟨0, 0⟩⟩ : Anchor) ∈ s.anchors ∧ (⟨11, 1, 1⟩ : NetLine) ∈ s.lines ∧
        (Lone (build selfLoopCalls) ⟨1, ⟨0, 0⟩⟩ → s.anchors = [⟨1, ⟨0, 0⟩⟩])) ∧
      ∀ (rec : Anchor → Work → Option Work) (w w2 : Work),
        w.availableAnchors.Sublist (build selfLoopCalls).mAnchors →
        w2.availableAnchors.Sublist (w.visit ⟨1, ⟨0, 0⟩⟩).availableAnchors →
        anchorLoop rec (otherAnchorId ⟨1, ⟨0, 0⟩⟩ ⟨11, 1, 1⟩) (build selfLoopCalls).mAnchors
            (w2.consume ⟨11, 1, 1⟩) =
          some (w2.consume ⟨11, 1, 1⟩) :=
  ⟨by decide, by decide, by decide,
    split_self_loop taxicab selfLoopCalls (by decide) ⟨1, ⟨0, 0⟩⟩ ⟨11, 1, 1⟩ (by decide)
      (by decide) rfl rfl⟩

/-- C15: with non-negative distances that are zero from a point to itself, for
every sequence of builder calls, every stored label and every returned segment `S`
(at index `j`) with an anchor at the position of the label: the computed distance
from the label to `S` is zero, and the label is in the label list of the segment at
one index `k` only, which is the first index of a segment at computed distance zero;
`k` is `j` when no segment before `S` is at distance zero. -/
theorem split_label_on_anchor (g : Geometry) (hg : Metric g) (calls : List Call) :
    ∃ segs, split g (build calls) = some segs ∧
      ∀ label ∈ (build calls).mLabels, ∀ (j : Nat) (S : Segment), segs[j]? = some S →
        (∃ a ∈ S.anchors, a.position = label.position) →
        getDistanceBetweenNetLabelAndNetSegment g label S = 0 ∧
        ∃ (k : Nat) (sk : Segment), segs[k]? = some sk ∧ label ∈ sk.labels ∧
          getDistanceBetweenNetLabelAndNetSegment g label sk = 0 ∧
          (∀ (i : Nat) (t : Segment), i < k → segs[i]? = some t →
            getDistanceBetweenNetLabelAndNetSegment g label t ≠ 0) ∧
          (∀ (i : Nat) (t : Segment), segs[i]? = some t → label ∈ t.labels → i = k) ∧
          ((∀ (i : Nat) (t : Segment), i < j → segs[i]? = some t →
            getDistanceBetweenNetLabelAndNetSegment g label t ≠ 0) → k = j) := by
  obtain ⟨segs, hs, _, hnear, hperm⟩ :=
    split_labels_spec g (build calls) (build_anchorIdsDistinct calls)
  refine ⟨segs, hs, ?_⟩
  intro label hlabel j S hj ⟨a, ha, hpos⟩
  have hS : getDistanceBetweenNetLabelAndNetSegment g label S = 0 :=
    getDistance_on_anchor hg label S ha hpos
  have hne : segs ≠ [] := List.ne_nil_of_mem (List.getElem?_mem hj)
  have hzero : ∀ (i : Nat) (t : Segment), segs[i]? = some t → label ∈ t.labels →
      getDistanceBetweenNetLabelAndNetSegment g label t = 0 ∧
      ∀ (i' : Nat) (t' : Segment), i' < i → segs[i']? = some t' →
        getDistanceBetweenNetLabelAndNetSegment g label t' ≠ 0 := by
    intro i t hi hlt
    obtain ⟨hmin, hfirst⟩ := hnear i t hi label hlt
    have h0 : getDistanceBetweenNetLabelAndNetSegment g label t = 0 :=
      le_antisymm (hS ▸ hmin S (List.getElem?_mem hj)) (getDistance_nonneg hg label t)
    refine ⟨h0, ?_⟩
    intro i' t' hlt' hi'
    have := hfirst i' t' hlt' hi'
    rw [h0] at this
    exact ne_of_gt this
  obtain ⟨ll, hll, hmem⟩ := List.mem_flatten.1 ((hperm hne).symm.subset hlabel)
  obtain ⟨sk, hsk, rfl⟩ := List.mem_map.1 hll
  obtain ⟨k, hk⟩ := List.getElem?_of_mem hsk
  obtain ⟨hk0, hkfirst⟩ := hzero k sk hk hmem
  refine ⟨hS, k, sk, hk, hmem, hk0, hkfirst, ?_, ?_⟩
  · intro i t hi hlt
    obtain ⟨hi0, hifirst⟩ := hzero i t hi hlt
    rcases Nat.lt_trichotomy i k with h | h | h
    · exact absurd hi0 (hkfirst i t h hi)
    · exact h
    · exact absurd hk0 (hifirst k sk h hk)
  · intro hbefore
    rcases Nat.lt_trichotomy k j with h | h | h
    · exact absurd hk0 (hbefore k sk h hk)
    · exact h
    · exact absurd hS (hkfirst j S h hj)

/-- Witness for C15: the taxicab stand-in on the chain example. -/
theorem split_label_on_anchor_witness :
    Metric taxicab ∧
    ∃ segs, split taxicab (build chainCalls) = some segs ∧
      ∀ label ∈ (build chainCalls).mLabels, ∀ (j : Nat) (S : Segment), segs[j]? = some S →
        (∃ a ∈ S.anchors, a.position = label.position) →
        getDistanceBetweenNetLabelAndNetSegment taxicab label S = 0 ∧
        ∃ (k : Nat) (sk : Segment), segs[k]? = some sk ∧ label ∈ sk.labels ∧
          getDistanceBetweenNetLabelAndNetSegment taxicab label sk = 0 ∧
          (∀ (i : Nat) (t : Segment), i < k → segs[i]? = some t →
            getDistanceBetweenNetLabelAndNetSegment taxicab label t ≠ 0) ∧
          (∀ (i : Nat) (t : Segment), segs[i]? = some t → label ∈ t.labels → i = k) ∧
          ((∀ (i : Nat) (t : Segment), i < j → segs[i]? = some t →
            getDistanceBetweenNetLabelAndNetSegment taxicab label t ≠ 0) → k = j) :=
  ⟨taxicab_metric, split_label_on_anchor taxicab taxicab_metric chainCalls⟩

/-- C16: `addAnchor` leaves the model as it is when the identity is already
stored, whatever the position, and otherwise appends the one anchor at the end of
the anchor list and keeps lines and labels; a second `addAnchor` for the same
identity never changes the model. -/
theorem addAnchor_idempotent (m : Splitter) (id : QVariant) (p : Point) :
    (m.addAnchor id p =
      if id ∈ m.mAnchors.map Anchor.id then m
      else ⟨m.mAnchors ++ [⟨id, p⟩], m.mLines, m.mLabels⟩) ∧
    ∀ q : Point, (m.addAnchor id p).addAnchor id q = m.addAnchor id p := by
  have hfirst : m.addAnchor id p =
      if id ∈ m.mAnchors.map Anchor.id then m
      else ⟨m.mAnchors ++ [⟨id, p⟩], m.mLines, m.mLabels⟩ := by
    unfold Splitter.addAnchor
    by_cases hc : containsAnchor m.mAnchors ⟨id, p⟩ = true
    · have hid : id ∈ m.mAnchors.map Anchor.id := (containsAnchor_iff _ _).1 hc
      simp [hc, hid]
    · have hid : id ∉ m.mAnchors.map Anchor.id := fun hmem =>
        hc ((containsAnchor_iff _ ⟨id, p⟩).2 hmem)
      simp [hc, hid]
  refine ⟨hfirst, ?_⟩
  intro q
  have hstored : id ∈ (m.addAnchor id p).mAnchors.map Anchor.id := by
    rw [hfirst]
    by_cases hid : id ∈ m.mAnchors.map Anchor.id
    · simp only [hid, if_true]
    · simp [hid]
  have hc : containsAnchor (m.addAnchor id p).mAnchors ⟨id, q⟩ = true :=
    (containsAnchor_iff _ ⟨id, q⟩).2 hstored
  generalize m.addAnchor id p = m1 at hc
  simp [Splitter.addAnchor, hc]

/-- C17: `addNetLine` appends the one record at the end of the line list,
whatever its identity and its two ends, and keeps anchors and labels;
`addNetLabel` appends the one record at the end of the label list and keeps
anchors and lines. Both are total. -/
theorem addNetLine_addNetLabel_append (m : Splitter) (id startAnchor endAnchor : QVariant)
    (p : Point) :
    m.addNetLine id startAnchor endAnchor =
      ⟨m.mAnchors, m.mLines ++ [⟨id, startAnchor, endAnchor⟩], m.mLabels⟩ ∧
    m.addNetLabel id p = ⟨m.mAnchors, m.mLines, m.mLabels ++ [⟨id, p⟩]⟩ :=
  ⟨rfl, rfl⟩

/-- C18: for every sequence of builder calls the label list of every returned
segment is a sublist of the stored label list, so labels of one segment keep the
order in which they were added. -/
theorem split_labels_keep_order (g : Geometry) (calls : List Call) :
    ∃ segs, split g (build calls) = some segs ∧
      ∀ s ∈ segs, s.labels.Sublist (build calls).mLabels := by
  obtain ⟨segs, hs, hsub, _⟩ := split_labels_spec g (build calls) (build_anchorIdsDistinct calls)
  exact ⟨segs, hs, hsub⟩

/-- C19: after every sequence of builder calls on a fresh splitter the stored
anchors have pairwise distinct identities, the stored identities are exactly those
of the `addAnchor` calls, and one stored identity comes before another exactly when
its first `addAnchor` call comes before the first `addAnchor` call of the other. -/
theorem build_anchor_order (calls : List Call) :
    AnchorIdsDistinct (build calls).mAnchors ∧
    (∀ i, i ∈ (build calls).mAnchors.map Anchor.id ↔ i ∈ addedIds calls) ∧
    ∀ x ∈ (build calls).mAnchors.map Anchor.id, ∀ y ∈ (build calls).mAnchors.map Anchor.id,
      (((build calls).mAnchors.map Anchor.id).indexOf x <
          ((build calls).mAnchors.map Anchor.id).indexOf y ↔
        (addedIds calls).indexOf x < (addedIds calls).indexOf y) := by
  have key : FirstCallOrder ((build calls).mAnchors.map Anchor.id) (addedIds calls) := by
    induction calls using List.reverseRecOn with
    | nil => exact ⟨by simp [build, Splitter.new], by simp [build, Splitter.new, addedIds],
        by simp [build, Splitter.new]⟩
    | append_singleton calls c ih =>
      rw [build_append, addedIds_append]
      cases c with
      | addAnchor i p =>
        by_cases hc : containsAnchor (build calls).mAnchors ⟨i, p⟩ = true
        · have hm : (build calls).apply (.addAnchor i p) = build calls := by
            simp [Splitter.apply, Splitter.addAnchor, hc]
          rw [hm]
          exact firstCallOrder_stored ih ((containsAnchor_iff _ ⟨i, p⟩).1 hc)
        · have hm : ((build calls).apply (.addAnchor i p)).mAnchors =
              (build calls).mAnchors ++ [⟨i, p⟩] := by
            simp [Splitter.apply, Splitter.addAnchor, hc]
          rw [hm, List.map_append]
          exact firstCallOrder_fresh ih (fun h => hc ((containsAnchor_iff _ ⟨i, p⟩).2 h))
      | addNetLine i s e => simpa [Splitter.apply, Splitter.addNetLine, addedIds] using ih
      | addNetLabel i p => simpa [Splitter.apply, Splitter.addNetLabel, addedIds] using ih
  exact ⟨key.1, key.2.1, key.2.2⟩

/-- C20: for every two models with the same stored anchor list and line lists
that are permutations of each other, with pairwise distinct line identities and
stored line ends, `split` returns equally many segments for both, and segments at
the same index have anchor lists that are permutations of each other and line
lists that are permutations of each other. -/
theorem split_line_order_independent (g : Geometry) (calls1 calls2 : List Call)
    (hA : (build calls1).mAnchors = (build calls2).mAnchors)
    (hP : (build calls1).mLines.Perm (build calls2).mLines)
    (hL : LineIdsDistinct (build calls1).mLines) (hE : EndpointsStored (build calls1)) :
    ∃ segs1 segs2, split g (build calls1) = some segs1 ∧
      split g (build calls2) = some segs2 ∧ segs1.length = segs2.length ∧
      ∀ (k : Nat) (s1 s2 : Segment), segs1[k]? = some s1 → segs2[k]? = some s2 →
        s1.anchors.Perm s2.anchors ∧ s1.lines.Perm s2.lines := by
  have hL2 : LineIdsDistinct (build calls2).mLines := (hP.map NetLine.id).nodup_iff.1 hL
  have hE2 : EndpointsStored (build calls2) := by
    intro l hl
    rw [← hA]
    exact hE l (hP.symm.subset hl)
  obtain ⟨segs1, hs1, hc1, hndA1, hndL1, hl1⟩ :=
    split_canonical g (build calls1) (build_anchorIdsDistinct calls1) hL hE
  obtain ⟨segs2, hs2, hc2, hndA2, hndL2, hl2⟩ :=
    split_canonical g (build calls2) (build_anchorIdsDistinct calls2) hL2 hE2
  have hc2' : Canonical (build calls1).mAnchors (Joined (build calls1)) []
      (segs2.map Segment.anchors) := by
    have hJ : Joined (build calls2) = Joined (build calls1) := by
      funext x y
      exact propext ⟨joined_congr (fun l hl => hP.symm.subset hl),
        joined_congr (fun l hl => hP.subset hl)⟩
    rw [hA, ← hJ]
    exact hc2
  have hall := canonical_unique _ _ [] [] hc1 hc2' (fun _ _ => Iff.rfl)
  refine ⟨segs1, segs2, hs1, hs2, by simpa using hall.length_eq, ?_⟩
  intro k s1 s2 hk1 hk2
  have hsame : ∀ y, y ∈ s1.anchors ↔ y ∈ s2.anchors :=
    forall2_at_index hall k s1.anchors s2.anchors (by simp [List.getElem?_map, hk1])
      (by simp [List.getElem?_map, hk2])
  have hm1 := List.getElem?_mem hk1
  have hm2 := List.getElem?_mem hk2
  constructor
  · exact (List.perm_ext_iff_of_nodup ((List.nodup_flatten.1 hndA1).1 _ (List.mem_map_of_mem _ hm1))
      ((List.nodup_flatten.1 hndA2).1 _ (List.mem_map_of_mem _ hm2))).2 hsame
  · refine (List.perm_ext_iff_of_nodup
      ((List.nodup_flatten.1 hndL1).1 _ (List.mem_map_of_mem _ hm1))
      ((List.nodup_flatten.1 hndL2).1 _ (List.mem_map_of_mem _ hm2))).2 ?_
    intro l
    rw [hl1 s1 hm1 l, hl2 s2 hm2 l]
    have hids : l.startAnchor ∈ s1.anchors.map Anchor.id ↔
        l.startAnchor ∈ s2.anchors.map Anchor.id := by
      simp only [List.mem_map, hsame]
    rw [hids]
    exact and_congr_left (fun _ => ⟨fun h => hP.subset h, fun h => hP.symm.subset h⟩)

/-- Witness for C20: the chain example and the same with its lines swapped. -/
theorem split_line_order_independent_witness :
    (build chainCalls).mAnchors = (build chainCallsSwapped).mAnchors ∧
    (build chainCalls).mLines.Perm (build chainCallsSwapped).mLines ∧
    LineIdsDistinct (build chainCalls).mLines ∧ EndpointsStored (build chainCalls) ∧
    ∃ segs1 segs2, split taxicab (build chainCalls) = some segs1 ∧
      split taxicab (build chainCallsSwapped) = some segs2 ∧ segs1.length = segs2.length ∧
      ∀ (k : Nat) (s1 s2 : Segment), segs1[k]? = some s1 → segs2[k]? = some s2 →
        s1.anchors.Perm s2.anchors ∧ s1.lines.Perm s2.lines :=
  ⟨by decide, by decide, by decide, by decide,
    split_line_order_independent taxicab chainCalls chainCallsSwapped (by decide) (by decide)
      (by decide) (by decide)⟩

/-- C21: `split` terminates on every input.  It returns; the first statements of
`findConnectedElements` shorten the unvisited list by exactly one anchor when the
anchor is in it; a recursion bound equal to the length of the unvisited list is
enough for `findConnectedElements` to return; and in the observed run of the
partition of the model, every entry of `findConnectedElements` finds its anchor in
the unvisited list, the entered anchors are the stored anchors, each exactly once,
and no entry is nested deeper than the number of stored anchors. -/
theorem split_terminates (g : Geometry) (calls : List Call) :
    (∃ segs, split g (build calls) = some segs) ∧
    (∀ (w : Work) (a : Anchor), containsAnchor w.availableAnchors a = true →
      (w.visit a).availableAnchors.length + 1 = w.availableAnchors.length) ∧
    (∀ (n : Nat) (a : Anchor) (w : Work), w.availableAnchors.Sublist (build calls).mAnchors →
      a ∈ w.availableAnchors → w.availableAnchors.length ≤ n →
      ∃ w', findConnectedElements (build calls) n a w = some w') ∧
    ∃ pt, partitionT (build calls) = some pt ∧ partition (build calls) = some pt.state ∧
      pt.asserted = true ∧
      (pt.entered.map Prod.snd).Perm (build calls).mAnchors ∧
      (∀ a ∈ (build calls).mAnchors, (pt.entered.map Prod.snd).count a = 1) ∧
      pt.entered.length = (build calls).mAnchors.length ∧
      ∀ e ∈ pt.entered, 1 ≤ e.1 ∧ e.1 ≤ (build calls).mAnchors.length := by
  have hM := build_anchorIdsDistinct calls
  obtain ⟨p, segs, _, hs, _⟩ := split_spec g (build calls) hM
  obtain ⟨pt, hpt, hp, hass, hperm, hdepth, _⟩ := partitionT_spec (build calls) hM
  refine ⟨⟨segs, hs⟩, fun w a h => removeOneAnchor_length a _ h,
    findConnectedElements_total (build calls) hM, pt, hpt, hp, hass, hperm, ?_, ?_, hdepth⟩
  · intro a ha
    rw [hperm.count_eq]
    exact List.count_eq_one_of_mem (anchorIdsDistinct_nodup hM) ha
  · simpa using hperm.length_eq

/-- C22: for every input, lines with unknown ends or repeated identities
included, none of these assertions fails during `split`: in the observed run of
the partition every entry of `findConnectedElements` finds its anchor in the
unvisited list and not in the current segment; during the label assignment every
call of `addNetLabelToNearestNetSegment` chooses an index that is at least 0 and
every call of `getDistanceBetweenNetLabelAndNetSegment` ends with `firstRun`
false; and every segment has at least one anchor. -/
theorem split_assertions_hold (g : Geometry) (calls : List Call) :
    ∃ pt segs, partitionT (build calls) = some pt ∧ partition (build calls) = some pt.state ∧
      split g (build calls) = some segs ∧ pt.asserted = true ∧
      assignLabelsAsserted g (build calls) pt.state.segments = true ∧
      (∀ s ∈ pt.state.segments, s.anchors ≠ []) ∧ (∀ s ∈ segs, s.anchors ≠ []) ∧
      ∀ label ∈ (build calls).mLabels, ∀ s ∈ segs, distanceAsserted g label s = true := by
  have hM := build_anchorIdsDistinct calls
  obtain ⟨p, segs, hp', hs, _, _, ha, _⟩ := split_spec g (build calls) hM
  obtain ⟨pt, hpt, hp, hass, _, _, hanch⟩ := partitionT_spec (build calls) hM
  have hpp : p = pt.state := Option.some.inj (hp'.symm.trans hp)
  subst hpp
  have hsegs : ∀ s ∈ segs, s.anchors ≠ [] := by
    intro s hsm
    have : s.anchors ∈ pt.state.segments.map Segment.anchors := ha ▸ List.mem_map_of_mem _ hsm
    obtain ⟨s', hs', heq⟩ := List.mem_map.1 this
    rw [← heq]
    exact hanch s' hs'
  refine ⟨pt, segs, hpt, hp, hs, hass, ?_, hanch, hsegs,
    fun label _ s hsm => distanceAsserted_of_anchor g label s (hsegs s hsm)⟩
  unfold assignLabelsAsserted
  by_cases hne : pt.state.segments = []
  · simp [hne]
  · have : (!pt.state.segments.isEmpty) = true := by
      cases h : pt.state.segments with
      | nil => exact absurd h hne
      | cons _ _ => rfl
    rw [if_pos this]
    exact labelLoopAsserted_spec g _ _ hne hanch

/-- C23: the topology of the result does not depend on geometry or labels.  For
every two models that store the same sequence of anchor identities and the same
sequence of lines, whatever the anchor positions, the labels and the distance
functions, `split` returns for both, the two results have the same number of
segments, and segments at the same index have the same anchor identities in the
same order and the same lines in the same order. -/
theorem split_topology_independent (g1 g2 : Geometry) (calls1 calls2 : List Call)
    (hA : (build calls1).mAnchors.map Anchor.id = (build calls2).mAnchors.map Anchor.id)
    (hLn : (build calls1).mLines = (build calls2).mLines) :
    ∃ segs1 segs2, split g1 (build calls1) = some segs1 ∧
      split g2 (build calls2) = some segs2 ∧ segs1.length = segs2.length ∧
      ∀ (k : Nat) (s1 s2 : Segment), segs1[k]? = some s1 → segs2[k]? = some s2 →
        s1.anchors.map Anchor.id = s2.anchors.map Anchor.id ∧ s1.lines = s2.lines := by
  obtain ⟨segs1, segs2, hs1, hs2, hmap⟩ := split_topology g1 g2 (build calls1) (build calls2)
    (build_anchorIdsDistinct calls1) (build_anchorIdsDistinct calls2) hA hLn
  refine ⟨segs1, segs2, hs1, hs2, ?_, ?_⟩
  · simpa using congrArg List.length hmap
  · intro k s1 s2 h1 h2
    have h := congrArg (fun l => l[k]?) hmap
    simp only [List.getElem?_map, h1, h2, Option.map_some'] at h
    have h3 := Option.some.inj h
    exact ⟨congrArg Prod.fst h3, congrArg Prod.snd h3⟩

/-- Witness for C23: the chain of four anchors and the same chain drawn elsewhere,
with another label and measured with another distance. -/
theorem split_topology_independent_witness :
    (build chainCalls).mAnchors.map Anchor.id = (build chainCallsMoved).mAnchors.map Anchor.id ∧
    (build chainCalls).mLines = (build chainCallsMoved).mLines ∧
    ∃ segs1 segs2, split taxicab (build chainCalls) = some segs1 ∧
      split ⟨fun _ _ => 0, fun _ _ _ => 0⟩ (build chainCallsMoved) = some segs2 ∧
      segs1.length = segs2.length ∧
      ∀ (k : Nat) (s1 s2 : Segment), segs1[k]? = some s1 → segs2[k]? = some s2 →
        s1.anchors.map Anchor.id = s2.anchors.map Anchor.id ∧ s1.lines = s2.lines :=
  ⟨by decide, by decide,
    split_topology_independent taxicab ⟨fun _ _ => 0, fun _ _ _ => 0⟩ chainCalls chainCallsMoved
      (by decide) (by decide)⟩

/-- C24: for every model with pairwise distinct line identities and every
stored line neither end of which is the identity of a stored anchor: the line is in
no returned segment, it is in the unconsumed-line list when the partition loop
ends, and the condition asserted after the loop is false. -/
theorem split_stray_line (g : Geometry) (calls : List Call)
    (hL : LineIdsDistinct (build calls).mLines) (l : NetLine)
    (hl : l ∈ (build calls).mLines)
    (hstart : l.startAnchor ∉ (build calls).mAnchors.map Anchor.id)
    (hend : l.endAnchor ∉ (build calls).mAnchors.map Anchor.id) :
    ∃ p segs, partition (build calls) = some p ∧ split g (build calls) = some segs ∧
      (∀ s ∈ segs, l ∉ s.lines) ∧ l ∈ p.availableLines ∧ p.assertion = false := by
  have hM := build_anchorIdsDistinct calls
  obtain ⟨p, segs, hp, hs, _, _, _, hlines, _, _⟩ := split_spec g (build calls) hM
  obtain ⟨hperm, _, hleft⟩ := partition_rest (build calls) hM hL hp
  have hno : ∀ x ∈ (build calls).mAnchors, ¬ Touches x.id l := by
    intro x hx ht
    rcases ht with h | h
    · exact hstart (h ▸ List.mem_map_of_mem _ hx)
    · exact hend (h ▸ List.mem_map_of_mem _ hx)
  have hav : l ∈ p.availableLines := hleft l hl hno
  have hnd : (p.lineLists.flatten ++ p.availableLines).Nodup :=
    hperm.nodup_iff.2 (lineIdsDistinct_nodup hL)
  refine ⟨p, segs, hp, hs, ?_, hav, ?_⟩
  · intro s hsmem hls
    have : l ∈ p.lineLists.flatten := by
      show l ∈ (p.segments.map Segment.lines).flatten
      rw [← hlines]
      exact List.mem_flatten.2 ⟨s.lines, List.mem_map_of_mem _ hsmem, hls⟩
    exact (List.nodup_append.1 hnd).2.2 this hav
  · have hne : p.availableLines ≠ [] := List.ne_nil_of_mem hav
    cases hlist : p.availableLines with
    | nil => exact absurd hlist hne
    | cons _ _ => simp [Partition.assertion, hlist]

/-- Witness for C24: the line 13 between the identities 8 and 9, neither of
which is an anchor. -/
theorem split_stray_line_witness :
    LineIdsDistinct (build strayCalls).mLines ∧
    (⟨13, 8, 9⟩ : NetLine) ∈ (build strayCalls).mLines ∧
    (8 : QVariant) ∉ (build strayCalls).mAnchors.map Anchor.id ∧
    (9 : QVariant) ∉ (build strayCalls).mAnchors.map Anchor.id ∧
    ∃ p segs, partition (build strayCalls) = some p ∧
      split taxicab (build strayCalls) = some segs ∧
      (∀ s ∈ segs, (⟨13, 8, 9⟩ : NetLine) ∉ s.lines) ∧
      (⟨13, 8, 9⟩ : NetLine) ∈ p.availableLines ∧ p.assertion = false :=
  ⟨by decide, by decide, by decide, by decide,
    split_stray_line taxicab strayCalls (by decide) ⟨13, 8, 9⟩ (by decide) (by decide)
      (by decide)⟩

/-- C25: for every model with pairwise distinct line identities and every
stored line with one end at the stored anchor `A` and the other end `o` at no
stored anchor: the line is in the line list of a returned segment that has `A`
among its anchors, `o` is the identity of no anchor of any returned segment (so the
distance computation leaves that end of the line at the origin), the line is not in
the unconsumed-line list when the partition loop ends, and the condition asserted
after the loop holds when every other stored line starts and ends at stored
anchors. -/
theorem split_dangling_line (g : Geometry) (calls : List Call)
    (hL : LineIdsDistinct (build calls).mLines) (A : Anchor) (l : NetLine) (o : QVariant)
    (hA : A ∈ (build calls).mAnchors) (hl : l ∈ (build calls).mLines)
    (hends : (l.startAnchor = A.id ∧ l.endAnchor = o) ∨ (l.endAnchor = A.id ∧ l.startAnchor = o))
    (ho : o ∉ (build calls).mAnchors.map Anchor.id) :
    ∃ p segs, partition (build calls) = some p ∧ split g (build calls) = some segs ∧
      (∃ s ∈ segs, A ∈ s.anchors ∧ l ∈ s.lines) ∧
      (∀ s ∈ segs, o ∉ s.anchors.map Anchor.id) ∧
      (∀ s ∈ segs, (l.endAnchor = o → (lineEnds l s.anchors).2 = Point.origin) ∧
        (l.startAnchor = o → (lineEnds l s.anchors).1 = Point.origin)) ∧
      l ∉ p.availableLines ∧
      ((∀ l' ∈ (build calls).mLines, l' ≠ l →
          l'.startAnchor ∈ (build calls).mAnchors.map Anchor.id ∧
          l'.endAnchor ∈ (build calls).mAnchors.map Anchor.id) →
        p.assertion = true) := by
  have hM := build_anchorIdsDistinct calls
  obtain ⟨p, segs, hp, hs, hnil, hpa, ha, hlines, _, _⟩ := split_spec g (build calls) hM
  obtain ⟨hperm, havail, _⟩ := partition_rest (build calls) hM hL hp
  have htouchA : Touches A.id l := by
    rcases hends with ⟨h, _⟩ | ⟨h, _⟩
    · exact Or.inl h
    · exact Or.inr h
  have hown : Owns (build calls) A l := by
    refine ⟨htouchA, ?_⟩
    intro x hx ht
    have hxid : x.id ∈ (build calls).mAnchors.map Anchor.id := List.mem_map_of_mem _ hx
    rcases hends with ⟨h1, h2⟩ | ⟨h1, h2⟩
    · rcases ht with h | h
      · exact eq_of_id_eq hM hx hA (h.symm.trans h1)
      · exact absurd (show o ∈ (build calls).mAnchors.map Anchor.id by
          rw [← h2, h]; exact hxid) ho
    · rcases ht with h | h
      · exact absurd (show o ∈ (build calls).mAnchors.map Anchor.id by
          rw [← h2, h]; exact hxid) ho
      · exact eq_of_id_eq hM hx hA (h.symm.trans h1)
  obtain ⟨s0, hs0, hA0, hl0⟩ := partition_owned (build calls) hM hL hp hA hl hown
  obtain ⟨s, hsmem, hsa, hsl⟩ := exists_same_net ha hlines hs0
  have hnoseg : ∀ s ∈ segs, o ∉ s.anchors.map Anchor.id := by
    intro s' hs' hmem
    obtain ⟨x, hx, hxo⟩ := List.mem_map.1 hmem
    have hxM : x ∈ (build calls).mAnchors := by
      have : x ∈ (segs.map Segment.anchors).flatten :=
        List.mem_flatten.2 ⟨s'.anchors, List.mem_map_of_mem _ hs', hx⟩
      rw [ha] at this
      exact hpa.subset this
    exact ho (hxo ▸ List.mem_map_of_mem _ hxM)
  have hnotav : l ∉ p.availableLines := fun h => havail l h A hA htouchA
  refine ⟨p, segs, hp, hs, ⟨s, hsmem, hsa ▸ hA0, hsl ▸ hl0⟩, hnoseg, ?_, hnotav, ?_⟩
  · intro s' hs'
    obtain ⟨h1, h2⟩ := lineEnds_foldl l s'.anchors (Point.origin, Point.origin)
    constructor
    · intro he
      rcases h2 with ⟨a, ha', hid, _⟩ | ⟨_, hr⟩
      · exact absurd (List.mem_map_of_mem Anchor.id ha') (by rw [hid, he]; exact hnoseg s' hs')
      · exact hr
    · intro hst
      rcases h1 with ⟨a, ha', hid, _⟩ | ⟨_, hr⟩
      · exact absurd (List.mem_map_of_mem Anchor.id ha') (by rw [hid, hst]; exact hnoseg s' hs')
      · exact hr
  · intro hothers
    have hempty : p.availableLines = [] := by
      apply List.eq_nil_iff_forall_not_mem.2
      intro l' hl'
      have hl'L : l' ∈ (build calls).mLines := hperm.subset (List.mem_append_right _ hl')
      by_cases hll : l' = l
      · exact hnotav (hll ▸ hl')
      · obtain ⟨x, hx, hxid⟩ := List.mem_map.1 (hothers l' hl'L hll).1
        exact havail l' hl' x hx (Or.inl hxid.symm)
    simp [Partition.assertion, hnil, hempty]

/-- Witness for C25: the line 12 from anchor 1 to the identity 7, which is no
anchor. -/
theorem split_dangling_line_witness :
    LineIdsDistinct (build danglingCalls).mLines ∧
    (⟨1, ⟨0, 0⟩⟩ : Anchor) ∈ (build danglingCalls).mAnchors ∧
    (⟨12, 1, 7⟩ : NetLine) ∈ (build danglingCalls).mLines ∧
    (((⟨12, 1, 7⟩ : NetLine).startAnchor = (⟨1, ⟨0, 0⟩⟩ : Anchor).id ∧
        (⟨12, 1, 7⟩ : NetLine).endAnchor = 7) ∨
      ((⟨12, 1, 7⟩ : NetLine).endAnchor = (⟨1, ⟨0, 0⟩⟩ : Anchor).id ∧
        (⟨12, 1, 7⟩ : NetLine).startAnchor = 7)) ∧
    (7 : QVariant) ∉ (build danglingCalls).mAnchors.map Anchor.id ∧
    ∃ p segs, partition (build danglingCalls) = some p ∧
      split taxicab (build danglingCalls) = some segs ∧
      (∃ s ∈ segs, (⟨1, ⟨0, 0⟩⟩ : Anchor) ∈ s.anchors ∧ (⟨12, 1, 7⟩ : NetLine) ∈ s.lines) ∧
      (∀ s ∈ segs, (7 : QVariant) ∉ s.anchors.map Anchor.id) ∧
      (∀ s ∈ segs,
        ((⟨12, 1, 7⟩ : NetLine).endAnchor = 7 →
          (lineEnds ⟨12, 1, 7⟩ s.anchors).2 = Point.origin) ∧
        ((⟨12, 1, 7⟩ : NetLine).startAnchor = 7 →
          (lineEnds ⟨12, 1, 7⟩ s.anchors).1 = Point.origin)) ∧
      (⟨12, 1, 7⟩ : NetLine) ∉ p.availableLines ∧
      ((∀ l' ∈ (build danglingCalls).mLines, l' ≠ ⟨12, 1, 7⟩ →
          l'.startAnchor ∈ (build danglingCalls).mAnchors.map Anchor.id ∧
          l'.endAnchor ∈ (build danglingCalls).mAnchors.map Anchor.id) →
        p.assertion = true) :=
  ⟨by decide, by decide, by decide, by decide, by decide,
    split_dangling_line taxicab danglingCalls (by decide) ⟨1, ⟨0, 0⟩⟩ ⟨12, 1, 7⟩ 7 (by decide)
      (by decide) (by decide) (by decide)⟩

/-- C26: for every list of selected net lines with pairwise distinct addresses
and every list of net labels, the splitter that `generate` builds for a net segment
has pairwise distinct anchor and line identities, every line starts and ends at a
stored anchor, every stored anchor has a stored line at it, and every segment that
`split` returns for it has at least one line. -/
theorem generate_meets_precondition (g : Geometry) (netsegment : QVariant)
    (netlines : List SINetLine) (netlabels : List SINetLabel)
    (hnd : (netlines.map SINetLine.id).Nodup) :
    AnchorIdsDistinct (generateSplitter netsegment netlines netlabels).mAnchors ∧
    LineIdsDistinct (generateSplitter netsegment netlines netlabels).mLines ∧
    EndpointsStored (generateSplitter netsegment netlines netlabels) ∧
    (∀ a ∈ (generateSplitter netsegment netlines netlabels).mAnchors,
      ∃ l ∈ (generateSplitter netsegment netlines netlabels).mLines, Touches a.id l) ∧
    ∃ segs, split g (generateSplitter netsegment netlines netlabels) = some segs ∧
      ∀ s ∈ segs, s.lines ≠ [] := by
  obtain ⟨hM, hE, hinc, hids⟩ := generateSplitter_wellFormed netsegment netlines netlabels
  have hL : LineIdsDistinct (generateSplitter netsegment netlines netlabels).mLines := by
    unfold LineIdsDistinct
    rw [hids]
    exact List.Nodup.sublist ((List.filter_sublist _).map _) hnd
  refine ⟨hM, hL, hE, hinc, ?_⟩
  obtain ⟨p, segs, _, hs, _, hpa, _, hne, hcomp, hlines⟩ :=
    split_components g (generateSplitter netsegment netlines netlabels) hM hL hE
  refine ⟨segs, hs, ?_⟩
  intro s hsmem
  obtain ⟨a, ha⟩ := List.exists_mem_of_ne_nil _ (hne s hsmem)
  have haM : a ∈ (generateSplitter netsegment netlines netlabels).mAnchors :=
    hpa.subset (List.mem_flatten.2 ⟨s.anchors, List.mem_map_of_mem _ hsmem, ha⟩)
  obtain ⟨l, hl, ht⟩ := hinc a haM
  have hstart : l.startAnchor ∈ s.anchors.map Anchor.id := by
    rcases ht with h | h
    · exact h ▸ List.mem_map_of_mem _ ha
    · obtain ⟨b, hb, hbid⟩ := List.mem_map.1 (hE l hl).1
      have hj : Joined (generateSplitter netsegment netlines netlabels) a.id b.id :=
        Relation.ReflTransGen.single ⟨l, hl, Or.inr ⟨hbid.symm, h⟩⟩
      exact hbid ▸ List.mem_map_of_mem _ ((hcomp s hsmem a ha b hb).2 hj)
  exact List.ne_nil_of_mem ((hlines s hsmem l hl).2 hstart)

/-- Witness for C26: three selected net lines with distinct addresses. -/
theorem generate_meets_precondition_witness :
    (selectedNetLines.map SINetLine.id).Nodup ∧
    AnchorIdsDistinct (generateSplitter 100 selectedNetLines [⟨71, 100, ⟨3, 3⟩⟩]).mAnchors ∧
    LineIdsDistinct (generateSplitter 100 selectedNetLines [⟨71, 100, ⟨3, 3⟩⟩]).mLines ∧
    EndpointsStored (generateSplitter 100 selectedNetLines [⟨71, 100, ⟨3, 3⟩⟩]) ∧
    (∀ a ∈ (generateSplitter 100 selectedNetLines [⟨71, 100, ⟨3, 3⟩⟩]).mAnchors,
      ∃ l ∈ (generateSplitter 100 selectedNetLines [⟨71, 100, ⟨3, 3⟩⟩]).mLines,
        Touches a.id l) ∧
    ∃ segs, split taxicab (generateSplitter 100 selectedNetLines [⟨71, 100, ⟨3, 3⟩⟩]) =
        some segs ∧
      ∀ s ∈ segs, s.lines ≠ [] :=
  ⟨by decide, generate_meets_precondition taxicab 100 selectedNetLines [⟨71, 100, ⟨3, 3⟩⟩]
    (by decide)⟩

end NetSegmentSplitter
